import Mathlib

/-!
# Matrix AI Assistant: admission control, retry and cache core

A shallow embedding of `src/security.js`, `src/utils/retry.js`, `src/cache.js` and of
`handleCommand` of `src/router.js`.

* JavaScript `Map`/`Set` objects are association lists / lists with the
  `get`/`has`/`set`/`delete` operations of the source.
* `Date.now()` is an explicit `now : Int` argument (milliseconds).
* Stateful methods take the manager's state and return the new state next to
  their result.
* Where the source measures or matches a string, the string is the list of its UTF-16
  code units; the regular expressions of `validateMessage` are syntax trees with an
  executable matching semantics.
* A property read on an object literal tells own entries, missing names and names
  inherited from `Object.prototype` apart.
-/

namespace MatrixAssistant

/-! ## JavaScript `Map` with string keys -/

/-- A JavaScript `Map` whose keys are strings, in insertion order. -/
abbrev JsMap (α : Type) := List (String × α)

/-- The method `Map.prototype.get`; `none` stands for `undefined`. -/
def JsMap.get {α : Type} : JsMap α → String → Option α
  | [], _ => none
  | (k, v) :: rest, key => if k = key then some v else JsMap.get rest key

/-- The method `Map.prototype.has`. -/
def JsMap.has {α : Type} (m : JsMap α) (key : String) : Bool :=
  (JsMap.get m key).isSome

/-- The method `Map.prototype.set`: an existing key keeps its position, a new key is appended. -/
def JsMap.set {α : Type} : JsMap α → String → α → JsMap α
  | [], key, v => [(key, v)]
  | (k, w) :: rest, key, v =>
    if k = key then (k, v) :: rest else (k, w) :: JsMap.set rest key v

/-- The method `Map.prototype.delete`. -/
def JsMap.delete {α : Type} : JsMap α → String → JsMap α
  | [], _ => []
  | (k, w) :: rest, key =>
    if k = key then rest else (k, w) :: JsMap.delete rest key

/-! ## security.js -/

/-- The fields of `SecurityManager` that its methods read or write.
`roles` is a constant of the constructor and is modelled by `rolesLookup`. -/
structure SecurityManager where
  /-- Field `allowedUsers`: userId -> role. -/
  allowedUsers : JsMap String
  /-- Field `allowedRooms`: roomId -> permissions. -/
  allowedRooms : JsMap (List String)
  /-- Field `blockedUsers`, a `Set` of identities. -/
  blockedUsers : List String
  /-- Field `rateLimits`: key -> timestamps of the recorded requests. -/
  rateLimits : JsMap (List Int)
  /-- Field `maxMessageLength`. -/
  maxMessageLength : Int
  /-- Field `encryptionEnabled`. -/
  encryptionEnabled : Bool
  deriving Repr, DecidableEq

/-- The state right after `new Map()`, `new Set()` in the constructor, before
`loadSecurityConfig` has read any setting. -/
def SecurityManager.fresh (maxMessageLength : Int) : SecurityManager :=
  { allowedUsers := [], allowedRooms := [], blockedUsers := [], rateLimits := [],
    maxMessageLength := maxMessageLength, encryptionEnabled := false }

/-- What `this.roles[userRole]` evaluates to. -/
inductive RolesEntry where
  /-- One of the four own properties: an array of permission tags. -/
  | permissions (tags : List String)
  /-- No such property: `undefined`. -/
  | undefined
  /-- A property inherited from `Object.prototype` (a function or an object):
  truthy, and without an `includes` method. -/
  | inherited
  deriving Repr, DecidableEq

/-- Property names every plain object inherits from `Object.prototype`. -/
def objectPrototypeKeys : List String :=
  ["constructor", "__defineGetter__", "__defineSetter__", "hasOwnProperty",
   "__lookupGetter__", "__lookupSetter__", "isPrototypeOf", "propertyIsEnumerable",
   "toString", "valueOf", "__proto__", "toLocaleString"]

/-- The property read `this.roles[userRole]` on the object literal
`{admin: ['all'], moderator: [...], user: [...], guest: ['help']}`. -/
def rolesLookup (userRole : String) : RolesEntry :=
  if userRole = "admin" then .permissions ["all"]
  else if userRole = "moderator" then .permissions ["read", "write", "search", "help"]
  else if userRole = "user" then .permissions ["read", "help"]
  else if userRole = "guest" then .permissions ["help"]
  else if userRole ∈ objectPrototypeKeys then .inherited
  else .undefined

/-- The object returned by `checkUserAccess`; `role = none` is `null`. -/
structure AccessResult where
  allowed : Bool
  reason : String
  role : Option String
  deriving Repr, DecidableEq

/-- Method `SecurityManager.checkUserAccess(userId, requiredPermission)`.

`this.allowedUsers.get(userId) || 'guest'` falls back to `guest` for a missing
entry and for the empty role string. When `this.roles[userRole]` is an inherited
property, `userPermissions.includes` is not a function, the call throws and the
`catch` branch answers with reason `error`. -/
def checkUserAccess (sm : SecurityManager) (userId : String) (requiredPermission : String) :
    AccessResult :=
  if userId ∈ sm.blockedUsers then
    { allowed := false, reason := "user_blocked", role := none }
  else
    let userRole : String :=
      match JsMap.get sm.allowedUsers userId with
      | some r => if r = "" then "guest" else r
      | none => "guest"
    match rolesLookup userRole with
    | .inherited => { allowed := false, reason := "error", role := none }
    | entry =>
      let userPermissions : List String :=
        match entry with
        | .permissions tags => tags
        | _ => []
      if "all" ∈ userPermissions ∨ requiredPermission ∈ userPermissions then
        { allowed := true, reason := "access_granted", role := some userRole }
      else
        { allowed := false, reason := "insufficient_permissions", role := some userRole }

/-- The object returned by `checkRateLimit`. `resetTime = none` stands for `NaN`,
the value of `undefined + windowMs` when `validRequests` is empty. -/
structure RateLimitResult where
  allowed : Bool
  remaining : Int
  resetTime : Option Int
  deriving Repr, DecidableEq

/-- The table key, the template literal of `userId`, a colon and `command`. -/
def rateKey (userId command : String) : String :=
  userId ++ ":" ++ command

/-- Method `SecurityManager.checkRateLimit(userId, command, limit, windowMs)` at clock
reading `now`. Nothing inside the `try` block throws on these types, so the
fail-open `catch` branch has no counterpart here. A denied call returns before
`this.rateLimits.set(key, validRequests)`: only the `[]` entry of a new key is written. -/
def checkRateLimit (sm : SecurityManager) (userId command : String)
    (limit windowMs now : Int) : RateLimitResult × SecurityManager :=
  let key := rateKey userId command
  let table : JsMap (List Int) :=
    if JsMap.has sm.rateLimits key then sm.rateLimits else JsMap.set sm.rateLimits key []
  let requests : List Int := (JsMap.get table key).getD []
  let validRequests := requests.filter (fun timestamp => decide (now - timestamp < windowMs))
  if (validRequests.length : Int) ≥ limit then
    ({ allowed := false, remaining := 0,
       resetTime := validRequests.head?.map (fun t => t + windowMs) },
     { sm with rateLimits := table })
  else
    let pushed := validRequests ++ [now]
    ({ allowed := true, remaining := limit - (pushed.length : Int),
       resetTime := some (now + windowMs) },
     { sm with rateLimits := JsMap.set table key pushed })

/-- One call of `checkRateLimit` together with the clock reading it saw. -/
structure RateCall where
  userId : String
  command : String
  limit : Int
  windowMs : Int
  now : Int
  deriving Repr, DecidableEq

/-- The table key a call works on. -/
def RateCall.key (c : RateCall) : String := rateKey c.userId c.command

/-- A manager state with the log of the calls made on it so far, oldest first. -/
structure RateTrace where
  sm : SecurityManager
  log : List (RateCall × RateLimitResult)
  deriving Repr, DecidableEq

/-- Perform one call and append it, with its result, to the log. -/
def rateStep (t : RateTrace) (c : RateCall) : RateTrace :=
  let out := checkRateLimit t.sm c.userId c.command c.limit c.windowMs c.now
  { sm := out.2, log := t.log ++ [(c, out.1)] }

/-- Perform a sequence of calls, in order, with no sweep in between. -/
def runRateCalls (sm : SecurityManager) (calls : List RateCall) : RateTrace :=
  calls.foldl rateStep { sm := sm, log := [] }

/-- Timestamps of the calls on `key` that were let through, oldest first. -/
def grantedTimes (log : List (RateCall × RateLimitResult)) (key : String) : List Int :=
  (log.filter (fun e => e.2.allowed && decide (e.1.key = key))).map (fun e => e.1.now)

/-- Clock readings of all calls on `key`, in call order. -/
def callTimes (calls : List RateCall) (key : String) : List Int :=
  (calls.filter (fun c => decide (c.key = key))).map (fun c => c.now)

/-- The list stored for `key`, `[]` when there is none. -/
def storedTimes (sm : SecurityManager) (key : String) : List Int :=
  (JsMap.get sm.rateLimits key).getD []

/-- The call `checkRateLimit(userId, command, 3, 60000)` of `testSecurity` in
`test-enhanced.js`, made at clock reading `t`. -/
def rapidCall (userId command : String) (t : Int) : RateCall :=
  { userId := userId, command := command, limit := 3, windowMs := 60000, now := t }

/-- The loop of `testSecurity`: the same call repeated at the clock readings `times`. -/
def rapidCalls (userId command : String) (times : List Int) : List RateCall :=
  times.map (rapidCall userId command)

/-! ## utils/retry.js

Delays and random draws are rationals: `calculateDelay` computes with them exactly,
`calculateDelayIn` further down rounds every operation as the host does. An operation is
a state transformer on the state of whatever it talks to; `Math.random()` is a stream of
draws. -/

/-- An error object as `isRetryableError` reads it. -/
structure JsError where
  /-- Property `error.code`; `none` when absent. -/
  code : Option String
  /-- Property `error.response.status`; `none` when `response` or `status` is absent. -/
  status : Option Int
  /-- Property `error.message`; `none` when absent. -/
  message : Option String
  deriving Repr, DecidableEq

/-- The merged configuration `finalConfig` of `withRetry`. -/
structure RetryConfig where
  maxAttempts : Nat
  baseDelay : ℚ
  maxDelay : ℚ
  backoffMultiplier : ℚ
  jitter : ℚ
  retryableErrors : List String
  deriving Repr, DecidableEq

/-- The constant `DEFAULT_CONFIG`. -/
def DEFAULT_CONFIG : RetryConfig :=
  { maxAttempts := 3, baseDelay := 1000, maxDelay := 30000, backoffMultiplier := 2,
    jitter := 1 / 10,
    retryableErrors := ["ECONNRESET", "ETIMEDOUT", "ENOTFOUND", "ECONNREFUSED"] }

/-- The `config` argument of `withRetry`: any subset of the configuration's keys. -/
structure RetryOptions where
  maxAttempts : Option Nat := none
  baseDelay : Option ℚ := none
  maxDelay : Option ℚ := none
  backoffMultiplier : Option ℚ := none
  jitter : Option ℚ := none
  retryableErrors : Option (List String) := none
  deriving Repr, DecidableEq

/-- The object spread of `defaults` and then `config`: keys of `config` win. -/
def mergeConfig (defaults : RetryConfig) (config : RetryOptions) : RetryConfig :=
  { maxAttempts := config.maxAttempts.getD defaults.maxAttempts,
    baseDelay := config.baseDelay.getD defaults.baseDelay,
    maxDelay := config.maxDelay.getD defaults.maxDelay,
    backoffMultiplier := config.backoffMultiplier.getD defaults.backoffMultiplier,
    jitter := config.jitter.getD defaults.jitter,
    retryableErrors := config.retryableErrors.getD defaults.retryableErrors }

/-- The local `exponentialDelay` of `calculateDelay`, the delay before jitter.
`attempt` starts at 1 in `withRetry`, the only caller. -/
def exponentialDelay (attempt : Nat) (config : RetryConfig) : ℚ :=
  min (config.baseDelay * config.backoffMultiplier ^ (attempt - 1)) config.maxDelay

/-- Function `calculateDelay(attempt, config)`, with the value of `Math.random()` as `random`. -/
def calculateDelay (attempt : Nat) (config : RetryConfig) (random : ℚ) : ℚ :=
  let jitter := exponentialDelay attempt config * config.jitter * (random - 1 / 2)
  max 0 (exponentialDelay attempt config + jitter)

/-- Lower case of one character, as far as ASCII is concerned: `A`-`Z`, the Kelvin sign
(to `k`) and capital I with dot above (to `i` and a combining dot) are the characters whose
lower case holds an ASCII letter. Other characters are kept, which changes no test for
an ASCII substring. -/
def jsLowerChar (c : Char) : List Char :=
  if c = Char.ofNat 0x212A then ['k']
  else if c = Char.ofNat 0x130 then ['i', Char.ofNat 0x307]
  else [c.toLower]

/-- Method `String.prototype.toLowerCase`, see `jsLowerChar`. -/
def jsToLowerCase (s : String) : String :=
  String.mk (s.data.flatMap jsLowerChar)

/-- Method `String.prototype.includes`. -/
def jsIncludes (s needle : String) : Bool :=
  decide (needle.data <:+: s.data)

/-- Function `isRetryableError(error, config)`. A property counts (is truthy) when it
is a non-empty string, or a number other than 0. -/
def isRetryableError (error : JsError) (config : RetryConfig) : Bool :=
  if (match error.code.filter (fun code => decide (code ≠ "")) with
      | some code => decide (code ∈ config.retryableErrors)
      | none => false) then true
  else
    match error.status.filter (fun status => decide (status ≠ 0)) with
    | some status => decide (status ≥ 500 ∨ status = 429)
    | none =>
      match error.message.filter (fun m => decide (m ≠ "")) with
      | some m =>
        jsIncludes (jsToLowerCase m) "timeout" || jsIncludes (jsToLowerCase m) "connection"
          || jsIncludes (jsToLowerCase m) "network"
          || jsIncludes (jsToLowerCase m) "econnreset"
          || jsIncludes (jsToLowerCase m) "etimedout"
      | none => false

/-- An `async` operation without arguments: from the state of its environment to a
result or a thrown error, and the state it leaves. -/
abbrev Operation (σ α : Type) := σ → Except JsError α × σ

/-- The state of the environment after `n` invocations of the operation. -/
def opState {σ α : Type} (operation : Operation σ α) (s : σ) : Nat → σ
  | 0 => s
  | n + 1 => (operation (opState operation s n)).2

/-- What invocation number `n + 1` of the operation yields. -/
def opOutcome {σ α : Type} (operation : Operation σ α) (s : σ) (n : Nat) : Except JsError α :=
  (operation (opState operation s n)).1

/-- What a run of `withRetry` did. -/
structure RetryRun (σ α : Type) where
  /-- The value the promise resolves to, or what it rejects with (`none`: `undefined`). -/
  outcome : Except (Option JsError) α
  /-- How many times `operation()` was invoked. -/
  calls : Nat
  /-- The delays awaited with `setTimeout`, in order. -/
  delays : List ℚ
  /-- The state the operation left behind. -/
  state : σ

/-- The `for` loop of `withRetry`. `remaining` counts the iterations the guard
`attempt <= maxAttempts` still lets through, `maxAttempts + 1 - attempt`; with `remaining = 0`
the loop is left and `throw lastError` runs. Draw number `delays.length` of
`Math.random()` goes into the next delay. -/
def retryLoop {σ α : Type} (finalConfig : RetryConfig) (operation : Operation σ α)
    (random : Nat → ℚ) :
    Nat → Nat → Option JsError → List ℚ → σ → Nat → RetryRun σ α
  | 0, _, lastError, delays, s, calls =>
    { outcome := .error lastError, calls := calls, delays := delays, state := s }
  | remaining + 1, attempt, _, delays, s, calls =>
    match operation s with
    | (.ok result, s1) =>
      { outcome := .ok result, calls := calls + 1, delays := delays, state := s1 }
    | (.error error, s1) =>
      if attempt = finalConfig.maxAttempts ∨ isRetryableError error finalConfig = false then
        { outcome := .error (some error), calls := calls + 1, delays := delays, state := s1 }
      else
        retryLoop finalConfig operation random remaining (attempt + 1) (some error)
          (delays ++ [calculateDelay attempt finalConfig (random delays.length)]) s1
          (calls + 1)

/-- Function `withRetry(operation, config)`, started in environment state `s`. -/
def withRetry {σ α : Type} (operation : Operation σ α) (config : RetryOptions)
    (random : Nat → ℚ) (s : σ) : RetryRun σ α :=
  retryLoop (mergeConfig DEFAULT_CONFIG config) operation random
    (mergeConfig DEFAULT_CONFIG config).maxAttempts 1 none [] s 0

/-- An operation in the manner of `failingOperation` of `testRetryMechanism`: it counts
its invocations and throws `error` on the first `failures` of them, then returns `value`. -/
def failingOperation (failures : Nat) (error : JsError) (value : String) :
    Operation Nat String := fun attemptCount =>
  if attemptCount < failures then (.error error, attemptCount + 1)
  else (.ok value, attemptCount + 1)

/-- An error with nothing but a message, as `new Error(message)` makes it. -/
def errorWithMessage (message : String) : JsError :=
  { code := none, status := none, message := some message }

/-- An HTTP client error: status 400 with a message. -/
def badRequestError : JsError :=
  { code := none, status := some 400, message := some "bad request" }

/-! ## cache.js

### JSON values, `JSON.stringify` and `JSON.parse`

The values are the JSON-serializable ones: `null`, booleans, finite numbers, strings
(without lone surrogates, as Lean strings are), arrays and plain objects. An object is
the list of its own properties in enumeration order. A number is given by the decimal
that JavaScript prints for it. -/

/-- A finite JavaScript number, given by the shortest decimal that reads back as the
number, which is the decimal `Number.prototype.toString` prints.
`decimal negative high low exponent` is `± (10 * high + low + 1) * 10 ^ exponent`: the
significand is positive and its last digit, `low + 1`, is not zero. `-0` is not told
from `0` (they are equal under `===`, and `JSON.stringify` prints `0` for both). -/
inductive JsNumber where
  | zero
  | decimal (negative : Bool) (high : Nat) (low : Fin 9) (exponent : Int)
  deriving Repr, DecidableEq

/-- A JSON-serializable JavaScript value. -/
inductive Json where
  | null
  | bool (b : Bool)
  | num (x : JsNumber)
  | str (s : String)
  | arr (items : List Json)
  | obj (fields : List (String × Json))
  deriving Repr

/-- Remove the trailing zeros of a positive significand, raising the exponent; `fuel`
exceeds the number of zeros. -/
def stripZeros : Nat → Nat → Int → Nat × Int
  | 0, significand, exponent => (significand, exponent)
  | fuel + 1, significand, exponent =>
    if significand % 10 = 0 ∧ significand ≠ 0 then
      stripZeros fuel (significand / 10) (exponent + 1)
    else (significand, exponent)

/-- The number `± significand * 10 ^ exponent`. -/
def JsNumber.ofDecimal (negative : Bool) (significand : Nat) (exponent : Int) : JsNumber :=
  if significand = 0 then .zero
  else .decimal negative ((stripZeros significand significand exponent).1 / 10)
    (Fin.ofNat ((stripZeros significand significand exponent).1 % 10 - 1))
    (stripZeros significand significand exponent).2

/-- An integer as a number. -/
def JsNumber.ofInt (n : Int) : JsNumber := JsNumber.ofDecimal (decide (n < 0)) n.natAbs 0

/-- Decimal digits of `n`, least significant first; `fuel` exceeds `n`. -/
def natDigitsRev : Nat → Nat → List Nat
  | 0, _ => []
  | fuel + 1, n => if n < 10 then [n] else n % 10 :: natDigitsRev fuel (n / 10)

/-- The character of a decimal digit. -/
def digitChar (d : Nat) : Char := Char.ofNat (48 + d)

/-- A natural number in decimal. -/
def natToChars (n : Nat) : List Char :=
  ((natDigitsRev (n + 1) n).reverse).map digitChar

/-- The digits of a significand in scientific notation: a point after the first digit
when there are more. -/
def scientificDigits : List Char → List Char
  | [] => []
  | [d] => [d]
  | d :: rest => d :: '.' :: rest

/-- A positive number `digits * 10 ^ exponent` as `Number.prototype.toString` prints it,
where `digits` are the `k` digits of the significand and `n = k + exponent` is the
position of the decimal point: plain digits with `n - k` zeros appended when
`k ≤ n ≤ 21`, digits with a point after the first `n` of them when `0 < n ≤ 21`,
`0.` and `-n` zeros before the digits when `-6 < n ≤ 0`, scientific notation with the
exponent `n - 1` otherwise. -/
def decimalToChars (digits : List Char) (exponent : Int) : List Char :=
  if 0 ≤ exponent ∧ (digits.length : Int) + exponent ≤ 21 then
    digits ++ List.replicate exponent.toNat '0'
  else if 0 < (digits.length : Int) + exponent ∧ (digits.length : Int) + exponent ≤ 21 then
    digits.take ((digits.length : Int) + exponent).toNat ++
      '.' :: digits.drop ((digits.length : Int) + exponent).toNat
  else if -6 < (digits.length : Int) + exponent ∧ (digits.length : Int) + exponent ≤ 0 then
    '0' :: '.' :: (List.replicate (-((digits.length : Int) + exponent)).toNat '0' ++ digits)
  else
    scientificDigits digits ++
      'e' :: (if (digits.length : Int) + exponent - 1 < 0 then '-' else '+') ::
        natToChars ((digits.length : Int) + exponent - 1).natAbs

/-- A number as `Number.prototype.toString` prints it, which is how `JSON.stringify`
prints a finite number. -/
def JsNumber.toChars : JsNumber → List Char
  | .zero => ['0']
  | .decimal negative high low exponent =>
    if negative then '-' :: decimalToChars (natToChars (10 * high + low.val + 1)) exponent
    else decimalToChars (natToChars (10 * high + low.val + 1)) exponent

/-- A hexadecimal digit in lower case. -/
def hexDigit (n : Nat) : Char :=
  if n < 10 then Char.ofNat (48 + n) else Char.ofNat (87 + n)

/-- One character inside a JSON string literal, as `JSON.stringify` escapes it. -/
def quoteChar (c : Char) : List Char :=
  if c = '"' then ['\\', '"']
  else if c = '\\' then ['\\', '\\']
  else if c = '\x08' then ['\\', 'b']
  else if c = '\x0c' then ['\\', 'f']
  else if c = '\n' then ['\\', 'n']
  else if c = '\r' then ['\\', 'r']
  else if c = '\t' then ['\\', 't']
  else if c.toNat < 32 then
    ['\\', 'u', '0', '0', hexDigit (c.toNat / 16), hexDigit (c.toNat % 16)]
  else [c]

/-- A string as a JSON string literal. -/
def quoteJSONString (s : String) : List Char :=
  '"' :: s.data.flatMap quoteChar ++ ['"']

mutual
/-- The text of a value, without white space, as `JSON.stringify(value)` gives it. -/
def serializeJSON : Json → List Char
  | .null => ['n', 'u', 'l', 'l']
  | .bool b => if b then ['t', 'r', 'u', 'e'] else ['f', 'a', 'l', 's', 'e']
  | .num x => x.toChars
  | .str s => quoteJSONString s
  | .arr items => '[' :: serializeItems items ++ [']']
  | .obj fields => '{' :: serializeFields fields ++ ['}']
/-- The elements of an array, separated by commas. -/
def serializeItems : List Json → List Char
  | [] => []
  | x :: rest =>
    match rest with
    | [] => serializeJSON x
    | _ :: _ => serializeJSON x ++ ',' :: serializeItems rest
/-- The properties of an object, in enumeration order, separated by commas. -/
def serializeFields : List (String × Json) → List Char
  | [] => []
  | (k, v) :: rest =>
    match rest with
    | [] => quoteJSONString k ++ ':' :: serializeJSON v
    | _ :: _ => quoteJSONString k ++ ':' :: serializeJSON v ++ ',' :: serializeFields rest
end

/-- The built-in `JSON.stringify(value)`. -/
def JSON.stringify (value : Json) : String := String.mk (serializeJSON value)

/-- The value of a hexadecimal digit. -/
def hexValue (c : Char) : Option Nat :=
  if '0' ≤ c ∧ c ≤ '9' then some (c.toNat - 48)
  else if 'a' ≤ c ∧ c ≤ 'f' then some (c.toNat - 87)
  else if 'A' ≤ c ∧ c ≤ 'F' then some (c.toNat - 55)
  else none

/-- The character a one-letter escape stands for. -/
def unescape (c : Char) : Option Char :=
  if c = '"' then some '"'
  else if c = '\\' then some '\\'
  else if c = '/' then some '/'
  else if c = 'b' then some '\x08'
  else if c = 'f' then some '\x0c'
  else if c = 'n' then some '\n'
  else if c = 'r' then some '\r'
  else if c = 't' then some '\t'
  else none

/-- Read a string literal after its opening quote: the string and the rest of the text.
Escapes of surrogate code units are refused; `JSON.stringify` emits none for the strings
modelled here. -/
def parseStringBody : List Char → Option (List Char × List Char)
  | [] => none
  | c :: rest =>
    if c = '"' then some ([], rest)
    else if c = '\\' then
      match rest with
      | [] => none
      | e :: rest1 =>
        if e = 'u' then
          match rest1 with
          | a :: b :: c2 :: d :: rest2 =>
            match hexValue a, hexValue b, hexValue c2, hexValue d with
            | some x, some y, some z, some w =>
              if 0xD800 ≤ ((x * 16 + y) * 16 + z) * 16 + w ∧
                  ((x * 16 + y) * 16 + z) * 16 + w < 0xE000 then none
              else (parseStringBody rest2).map
                (fun r => (Char.ofNat (((x * 16 + y) * 16 + z) * 16 + w) :: r.1, r.2))
            | _, _, _, _ => none
          | _ => none
        else
          match unescape e with
          | some u => (parseStringBody rest1).map (fun r => (u :: r.1, r.2))
          | none => none
    else if c.toNat < 32 then none
    else (parseStringBody rest).map (fun r => (c :: r.1, r.2))

/-- The leading decimal digits of a text, and the rest. -/
def parseDigits : List Char → List Nat × List Char
  | [] => ([], [])
  | c :: rest =>
    if '0' ≤ c ∧ c ≤ '9' then
      ((c.toNat - 48) :: (parseDigits rest).1, (parseDigits rest).2)
    else ([], c :: rest)

/-- The number a digit sequence denotes, most significant digit first. -/
def natOfDigits (ds : List Nat) : Nat := ds.foldl (fun acc d => 10 * acc + d) 0

/-- The optional fraction of a JSON number, a point and at least one digit: the digits
and the rest of the text. -/
def parseFraction (input : List Char) : Option (List Nat × List Char) :=
  match input with
  | [] => some ([], [])
  | c :: rest =>
    if c = '.' then
      if (parseDigits rest).1 = [] then none
      else some ((parseDigits rest).1, (parseDigits rest).2)
    else some ([], c :: rest)

/-- The digits of an exponent, at least one, with the sign given. -/
def parseExponentDigits (negative : Bool) (input : List Char) : Option (Int × List Char) :=
  if (parseDigits input).1 = [] then none
  else if negative then some (-(natOfDigits (parseDigits input).1 : Int), (parseDigits input).2)
  else some ((natOfDigits (parseDigits input).1 : Int), (parseDigits input).2)

/-- The optional exponent of a JSON number, `e` or `E`, an optional sign and at least
one digit: its value (0 when absent) and the rest of the text. -/
def parseExponent (input : List Char) : Option (Int × List Char) :=
  match input with
  | [] => some (0, [])
  | c :: rest =>
    if c = 'e' ∨ c = 'E' then
      match rest with
      | [] => none
      | s :: rest1 =>
        if s = '+' then parseExponentDigits false rest1
        else if s = '-' then parseExponentDigits true rest1
        else parseExponentDigits false (s :: rest1)
    else some (0, c :: rest)

/-- Read the digits of a JSON number after its optional sign: an integer part without a
leading zero, an optional fraction, an optional exponent. The decimal is taken as
written, which is the number JavaScript reads for every text that `JSON.stringify`
writes; a text with more digits than a double holds, or beyond the range of doubles,
JavaScript rounds to the nearest double. -/
def parseUnsigned (negative : Bool) (input : List Char) : Option (JsNumber × List Char) :=
  match (parseDigits input).1 with
  | [] => none
  | d :: ds =>
    if d = 0 ∧ ds ≠ [] then none
    else
      match parseFraction (parseDigits input).2 with
      | none => none
      | some (fs, rest1) =>
        match parseExponent rest1 with
        | none => none
        | some (x, rest2) =>
          some (JsNumber.ofDecimal negative (natOfDigits (d :: ds ++ fs))
            (x - (fs.length : Int)), rest2)

/-- Read a JSON number from the front of a text. -/
def parseNumber (input : List Char) : Option (JsNumber × List Char) :=
  match input with
  | [] => none
  | c :: rest => if c = '-' then parseUnsigned true rest else parseUnsigned false (c :: rest)

/-- JSON white space: space, tab, line feed and carriage return. -/
def isJsonWhiteSpace (c : Char) : Bool :=
  c = ' ' || c = '\t' || c = '\n' || c = '\r'

/-- Drop the white space at the front of a text. -/
def skipWhiteSpace : List Char → List Char
  | [] => []
  | c :: rest => if isJsonWhiteSpace c then skipWhiteSpace rest else c :: rest

mutual
/-- Read one value from the front of a text, after white space if any. `fuel` bounds the
nesting of calls; the length of the text is enough. -/
def parseValue : Nat → List Char → Option (Json × List Char)
  | 0, _ => none
  | fuel + 1, input =>
    match skipWhiteSpace input with
    | [] => none
    | c :: rest =>
      if c = '"' then (parseStringBody rest).map (fun r => (Json.str (String.mk r.1), r.2))
      else if c = '[' then
        match skipWhiteSpace rest with
        | ']' :: rest1 => some (Json.arr [], rest1)
        | _ => (parseItems fuel rest).map (fun r => (Json.arr r.1, r.2))
      else if c = '{' then
        match skipWhiteSpace rest with
        | '}' :: rest1 => some (Json.obj [], rest1)
        | _ => (parseFields fuel rest).map (fun r => (Json.obj r.1, r.2))
      else if c = 'n' then
        match rest with
        | 'u' :: 'l' :: 'l' :: rest1 => some (Json.null, rest1)
        | _ => none
      else if c = 't' then
        match rest with
        | 'r' :: 'u' :: 'e' :: rest1 => some (Json.bool true, rest1)
        | _ => none
      else if c = 'f' then
        match rest with
        | 'a' :: 'l' :: 's' :: 'e' :: rest1 => some (Json.bool false, rest1)
        | _ => none
      else (parseNumber (c :: rest)).map (fun r => (Json.num r.1, r.2))
/-- Read the elements of a non-empty array up to and including the closing bracket. -/
def parseItems : Nat → List Char → Option (List Json × List Char)
  | 0, _ => none
  | fuel + 1, input =>
    match parseValue fuel input with
    | none => none
    | some (v, rest) =>
      match skipWhiteSpace rest with
      | c :: rest1 =>
        if c = ',' then (parseItems fuel rest1).map (fun r => (v :: r.1, r.2))
        else if c = ']' then some ([v], rest1)
        else none
      | [] => none
/-- Read the properties of a non-empty object up to and including the closing brace. -/
def parseFields : Nat → List Char → Option (List (String × Json) × List Char)
  | 0, _ => none
  | fuel + 1, input =>
    match skipWhiteSpace input with
    | c :: rest =>
      if c = '"' then
        match parseStringBody rest with
        | none => none
        | some (k, rest1) =>
          match skipWhiteSpace rest1 with
          | c1 :: rest2 =>
            if c1 = ':' then
              match parseValue fuel rest2 with
              | none => none
              | some (v, rest3) =>
                match skipWhiteSpace rest3 with
                | c3 :: rest4 =>
                  if c3 = ',' then
                    (parseFields fuel rest4).map (fun r => ((String.mk k, v) :: r.1, r.2))
                  else if c3 = '}' then some ([(String.mk k, v)], rest4)
                  else none
                | [] => none
            else none
          | [] => none
      else none
    | [] => none
end

/-- A text does not go on with a decimal digit. -/
def noDigitAhead (rest : List Char) : Prop :=
  ∀ c tail, rest = c :: tail → ¬ ('0' ≤ c ∧ c ≤ '9')

/-- A text does not go on as a number would: with a digit, a point or an exponent. -/
def noNumberAhead (rest : List Char) : Prop :=
  ∀ c tail, rest = c :: tail → ¬ ('0' ≤ c ∧ c ≤ '9') ∧ c ≠ '.' ∧ c ≠ 'e' ∧ c ≠ 'E'

mutual
/-- A bound on the fuel `parseValue` needs to read a value back. -/
def valueFuel : Json → Nat
  | .arr items => 1 + itemsFuel items
  | .obj fields => 1 + fieldsFuel fields
  | _ => 1
/-- A bound on the fuel `parseItems` needs. -/
def itemsFuel : List Json → Nat
  | [] => 0
  | x :: rest => 1 + valueFuel x + itemsFuel rest
/-- A bound on the fuel `parseFields` needs. -/
def fieldsFuel : List (String × Json) → Nat
  | [] => 0
  | (_, v) :: rest => 1 + valueFuel v + fieldsFuel rest
end

/-- The `SyntaxError` that `JSON.parse` throws. -/
def jsonSyntaxError : JsError :=
  { code := none, status := none, message := some "Unexpected token in JSON" }

/-- The built-in `JSON.parse(text)`: the value, or a thrown `SyntaxError`. White space
may follow the value, nothing else. -/
def JSON.parse (text : String) : Except JsError Json :=
  match parseValue (text.data.length + 1) text.data with
  | some (v, rest) => if skipWhiteSpace rest = [] then .ok v else .error jsonSyntaxError
  | none => .error jsonSyntaxError

/-! ### MD5 (RFC 1321), for `crypto.createHash('md5')` -/

/-- Per-round left-rotation amounts. -/
def md5Shifts : List Nat :=
  [7, 12, 17, 22, 7, 12, 17, 22, 7, 12, 17, 22, 7, 12, 17, 22,
   5, 9, 14, 20, 5, 9, 14, 20, 5, 9, 14, 20, 5, 9, 14, 20,
   4, 11, 16, 23, 4, 11, 16, 23, 4, 11, 16, 23, 4, 11, 16, 23,
   6, 10, 15, 21, 6, 10, 15, 21, 6, 10, 15, 21, 6, 10, 15, 21]

/-- Per-round additive constants, `floor(2^32 * abs(sin(i + 1)))`. -/
def md5Constants : List Nat :=
  [0xd76aa478, 0xe8c7b756, 0x242070db, 0xc1bdceee, 0xf57c0faf, 0x4787c62a, 0xa8304613,
   0xfd469501, 0x698098d8, 0x8b44f7af, 0xffff5bb1, 0x895cd7be, 0x6b901122, 0xfd987193,
   0xa679438e, 0x49b40821, 0xf61e2562, 0xc040b340, 0x265e5a51, 0xe9b6c7aa, 0xd62f105d,
   0x02441453, 0xd8a1e681, 0xe7d3fbc8, 0x21e1cde6, 0xc33707d6, 0xf4d50d87, 0x455a14ed,
   0xa9e3e905, 0xfcefa3f8, 0x676f02d9, 0x8d2a4c8a, 0xfffa3942, 0x8771f681, 0x6d9d6122,
   0xfde5380c, 0xa4beea44, 0x4bdecfa9, 0xf6bb4b60, 0xbebfbc70, 0x289b7ec6, 0xeaa127fa,
   0xd4ef3085, 0x04881d05, 0xd9d4d039, 0xe6db99e5, 0x1fa27cf8, 0xc4ac5665, 0xf4292244,
   0x432aff97, 0xab9423a7, 0xfc93a039, 0x655b59c3, 0x8f0ccc92, 0xffeff47d, 0x85845dd1,
   0x6fa87e4f, 0xfe2ce6e0, 0xa3014314, 0x4e0811a1, 0xf7537e82, 0xbd3af235, 0x2ad7d2bb,
   0xeb86d391]

/-- Rotate a 32-bit word left by `c` bits. -/
def rotl32 (x c : Nat) : Nat :=
  ((x <<< c) ||| (x >>> (32 - c))) % 2 ^ 32

/-- Bitwise complement of a 32-bit word. -/
def not32 (x : Nat) : Nat := x ^^^ 0xffffffff

/-- The `n` low bytes of a number, least significant first. -/
def leBytes : Nat → Nat → List Nat
  | 0, _ => []
  | n + 1, x => x % 256 :: leBytes n (x / 256)

/-- The number with the given bytes, least significant first. -/
def leWord : List Nat → Nat
  | [] => 0
  | b :: rest => b + 256 * leWord rest

/-- The message padded to a multiple of 64 bytes: a one bit, zeros, the bit length. -/
def md5Pad (msg : List Nat) : List Nat :=
  msg ++ [0x80] ++ List.replicate ((119 - msg.length % 64) % 64) 0
    ++ leBytes 8 ((8 * msg.length) % 2 ^ 64)

/-- The first `k` pieces of `n` elements of a list. -/
def chunks (n : Nat) : Nat → List Nat → List (List Nat)
  | 0, _ => []
  | k + 1, l => l.take n :: chunks n k (l.drop n)

/-- The four chaining words of MD5. -/
structure Md5State where
  a : Nat
  b : Nat
  c : Nat
  d : Nat

/-- Operation number `i` (0 to 63) on a block with the words `m`. -/
def md5Round (m : List Nat) (st : Md5State) (i : Nat) : Md5State :=
  let f :=
    if i < 16 then (st.b &&& st.c) ||| (not32 st.b &&& st.d)
    else if i < 32 then (st.d &&& st.b) ||| (not32 st.d &&& st.c)
    else if i < 48 then st.b ^^^ st.c ^^^ st.d
    else st.c ^^^ (st.b ||| not32 st.d)
  let g :=
    if i < 16 then i
    else if i < 32 then (5 * i + 1) % 16
    else if i < 48 then (3 * i + 5) % 16
    else (7 * i) % 16
  let f2 := (f + st.a + md5Constants.getD i 0 + m.getD g 0) % 2 ^ 32
  { a := st.d, d := st.c, c := st.b, b := (st.b + rotl32 f2 (md5Shifts.getD i 0)) % 2 ^ 32 }

/-- Process one block of 64 bytes. -/
def md5Block (st : Md5State) (block : List Nat) : Md5State :=
  let m := (chunks 4 16 block).map leWord
  let r := (List.range 64).foldl (md5Round m) st
  { a := (st.a + r.a) % 2 ^ 32, b := (st.b + r.b) % 2 ^ 32,
    c := (st.c + r.c) % 2 ^ 32, d := (st.d + r.d) % 2 ^ 32 }

/-- The MD5 digest, 16 bytes, of a byte sequence. -/
def md5 (msg : List Nat) : List Nat :=
  let padded := md5Pad msg
  let st := (chunks 64 (padded.length / 64) padded).foldl md5Block
    { a := 0x67452301, b := 0xefcdab89, c := 0x98badcfe, d := 0x10325476 }
  leBytes 4 st.a ++ leBytes 4 st.b ++ leBytes 4 st.c ++ leBytes 4 st.d

/-- Bytes in hexadecimal, two lower-case digits each: `digest('hex')`. -/
def hexOfBytes (bytes : List Nat) : String :=
  String.mk (bytes.flatMap (fun b => [hexDigit (b / 16), hexDigit (b % 16)]))

/-- The UTF-8 encoding of one character. -/
def utf8Char (c : Char) : List Nat :=
  if c.toNat < 0x80 then [c.toNat]
  else if c.toNat < 0x800 then [0xC0 + c.toNat / 64, 0x80 + c.toNat % 64]
  else if c.toNat < 0x10000 then
    [0xE0 + c.toNat / 4096, 0x80 + (c.toNat / 64) % 64, 0x80 + c.toNat % 64]
  else
    [0xF0 + c.toNat / 262144, 0x80 + (c.toNat / 4096) % 64, 0x80 + (c.toNat / 64) % 64,
     0x80 + c.toNat % 64]

/-- The UTF-8 encoding of a string, which `hash.update(string)` digests. -/
def utf8 (s : String) : List Nat := s.data.flatMap utf8Char

/-- The expression `crypto.createHash('md5').update(s).digest('hex')`. -/
def md5Hex (s : String) : String := hexOfBytes (md5 (utf8 s))

/-! ### The Redis client and `CacheManager` -/

/-- The node-redis client as `CacheManager` uses it: a map from keys to strings, and
whether commands currently reject (connection lost, server error). Expiry is not
modelled: no time passes between the calls considered. -/
structure RedisClient where
  entries : JsMap String
  failing : Bool
  deriving Repr, DecidableEq

/-- The error a rejected command carries. -/
def redisCommandError : JsError :=
  { code := some "ECONNRESET", status := none, message := some "Socket closed unexpectedly" }

/-- Command `client.get(key)`: the stored string or `null`. -/
def RedisClient.get (client : RedisClient) (key : String) : Except JsError (Option String) :=
  if client.failing then .error redisCommandError else .ok (JsMap.get client.entries key)

/-- Command `client.set(key, value, {EX: ttl})`: the client after the write. A rejected
command leaves the entries as they were. -/
def RedisClient.set (client : RedisClient) (key value : String) (_ttl : Int) :
    Except JsError RedisClient :=
  if client.failing then .error redisCommandError
  else .ok { client with entries := JsMap.set client.entries key value }

/-- Command `client.del(key)`: the number of keys removed, and the client afterwards. -/
def RedisClient.del (client : RedisClient) (key : String) :
    Except JsError (Nat × RedisClient) :=
  if client.failing then .error redisCommandError
  else if JsMap.has client.entries key then
    .ok (1, { client with entries := JsMap.delete client.entries key })
  else .ok (0, client)

/-- The fields of `CacheManager`; `client = none` is `null`. -/
structure CacheManager where
  client : Option RedisClient
  isConnected : Bool
  keyPrefix : String
  defaultTTL : Int
  deriving Repr, DecidableEq

/-- Method `generateKey(prefix, data)`. -/
def CacheManager.generateKey (cm : CacheManager) (namespaceTag : String) (data : Json) :
    String :=
  cm.keyPrefix ++ namespaceTag ++ ":" ++ md5Hex (JSON.stringify data)

/-- Method `get(key)`: what the promise settles to. `.ok Json.null` is the answer `null`,
`.error` a rejection. The `let body` is the `try` block, the final `match` the `catch`. -/
def CacheManager.get (cm : CacheManager) (key : String) : Except JsError Json :=
  let body : Except JsError Json :=
    match cm.isConnected, cm.client with
    | true, some client =>
      match client.get key with
      | .error e => .error e
      | .ok none => .ok Json.null
      | .ok (some value) => if value ≠ "" then JSON.parse value else .ok Json.null
    | _, _ => .ok Json.null
  match body with
  | .ok v => .ok v
  | .error _ => .ok Json.null

/-- Method `set(key, value, ttl)`: what the promise settles to, and the manager afterwards. -/
def CacheManager.set (cm : CacheManager) (key : String) (value : Json) (ttl : Int) :
    Except JsError Bool × CacheManager :=
  let body : Except JsError (Bool × CacheManager) :=
    match cm.isConnected, cm.client with
    | true, some client =>
      match client.set key (JSON.stringify value) ttl with
      | .error e => .error e
      | .ok client1 => .ok (true, { cm with client := some client1 })
    | _, _ => .ok (false, cm)
  match body with
  | .ok r => (.ok r.1, r.2)
  | .error _ => (.ok false, cm)

/-- Method `delete(key)`: what the promise settles to, and the manager afterwards. -/
def CacheManager.delete (cm : CacheManager) (key : String) :
    Except JsError Bool × CacheManager :=
  let body : Except JsError (Bool × CacheManager) :=
    match cm.isConnected, cm.client with
    | true, some client =>
      match client.del key with
      | .error e => .error e
      | .ok (result, client1) => .ok (decide (result > 0), { cm with client := some client1 })
    | _, _ => .ok (false, cm)
  match body with
  | .ok r => (.ok r.1, r.2)
  | .error _ => (.ok false, cm)

/-- The object literal `{ userId, prompt }`. -/
def llmKeyData (userId prompt : String) : Json :=
  .obj [("userId", .str userId), ("prompt", .str prompt)]

/-- Function `getCachedResponse(userId, prompt)` on the manager `cm`. -/
def getCachedResponse (cm : CacheManager) (userId prompt : String) : Except JsError Json :=
  cm.get (cm.generateKey "llm" (llmKeyData userId prompt))

/-- Function `setCachedResponse(userId, prompt, response, ttl)`, `ttl` defaulting to 3600. -/
def setCachedResponse (cm : CacheManager) (userId prompt : String) (response : Json)
    (ttl : Int := 3600) : Except JsError Bool × CacheManager :=
  cm.set (cm.generateKey "llm" (llmKeyData userId prompt)) response ttl

/-- Function `getCachedFile(fileId)`. -/
def getCachedFile (cm : CacheManager) (fileId : String) : Except JsError Json :=
  cm.get (cm.generateKey "file" (.obj [("fileId", .str fileId)]))

/-- Function `setCachedFile(fileId, content, ttl)`, `ttl` defaulting to 1800. -/
def setCachedFile (cm : CacheManager) (fileId : String) (content : Json)
    (ttl : Int := 1800) : Except JsError Bool × CacheManager :=
  cm.set (cm.generateKey "file" (.obj [("fileId", .str fileId)])) content ttl

/-- A manager connected to a working client with the given entries. -/
def CacheManager.connected (entries : JsMap String) : CacheManager :=
  { client := some { entries := entries, failing := false }, isConnected := true,
    keyPrefix := "matrix_bot:", defaultTTL := 3600 }

/-- The value `testData` of `testCaching` in `test-enhanced.js`, with a fixed timestamp. -/
def testData : Json :=
  .obj [("message", .str "Привіт з кешу!"), ("timestamp", .num (JsNumber.ofInt 1700000000000))]

/-! ## security.js: strings as JavaScript sees them, and regular expressions -/

/-- The UTF-16 code units of one character. -/
def utf16Char (c : Char) : List Nat :=
  if c.toNat < 0x10000 then [c.toNat]
  else [0xD800 + (c.toNat - 0x10000) / 0x400, 0xDC00 + (c.toNat - 0x10000) % 0x400]

/-- A string as JavaScript holds it: the sequence of its UTF-16 code units. -/
def utf16 (s : String) : List Nat := s.data.flatMap utf16Char

/-- Property `length` of a string: the number of UTF-16 code units. -/
def jsLength (s : String) : Nat := (utf16 s).length

/-- `Canonicalize` of a code unit for a pattern without the `u` flag. With `ignoreCase` a
lower-case ASCII letter becomes its capital; exact whenever one side of the comparison is
an ASCII character, as in every pattern below. -/
def canonicalize (ignoreCase : Bool) (u : Nat) : Nat :=
  if ignoreCase ∧ 97 ≤ u ∧ u ≤ 122 then u - 32 else u

/-- The characters `\w` stands for: `[A-Za-z0-9_]`. -/
def isWordChar (u : Nat) : Bool :=
  (48 ≤ u && u ≤ 57) || (65 ≤ u && u ≤ 90) || (97 ≤ u && u ≤ 122) || u == 95

/-- The line terminators, which `.` does not match: LF, CR, U+2028, U+2029. -/
def isLineTerminator (u : Nat) : Bool :=
  u == 0x0A || u == 0x0D || u == 0x2028 || u == 0x2029

/-- The characters `\s` stands for: white space and line terminators. -/
def isWhiteSpace (u : Nat) : Bool :=
  u == 0x09 || u == 0x0A || u == 0x0B || u == 0x0C || u == 0x0D || u == 0x20 || u == 0xA0
    || u == 0x1680 || (0x2000 ≤ u && u ≤ 0x200A) || u == 0x2028 || u == 0x2029
    || u == 0x202F || u == 0x205F || u == 0x3000 || u == 0xFEFF

/-- A pattern term that matches one code unit. -/
inductive CharClass where
  /-- A pattern character, as `s` or `<`. -/
  | lit (c : Char)
  /-- The dot. -/
  | any
  /-- The escape `\w`. -/
  | word
  /-- The escape `\s`. -/
  | space
  /-- The class `[^c]`. -/
  | notLit (c : Char)
  deriving Repr, DecidableEq

/-- Whether a class matches a code unit. -/
def CharClass.accepts (ignoreCase : Bool) : CharClass → Nat → Bool
  | .lit c, u => canonicalize ignoreCase u == canonicalize ignoreCase c.toNat
  | .any, u => !isLineTerminator u
  | .word, u => isWordChar u
  | .space, u => isWhiteSpace u
  | .notLit c, u => !(canonicalize ignoreCase u == canonicalize ignoreCase c.toNat)

/-- The part of the regular expression syntax the source uses, with one capturing group. -/
inductive Regex where
  /-- The empty pattern. -/
  | empty
  /-- One code unit of a class. -/
  | cls (k : CharClass)
  /-- The assertion `\b`. -/
  | wordBoundary
  /-- One pattern after another. -/
  | seq (r s : Regex)
  /-- The quantifier `*`. -/
  | star (r : Regex)
  /-- The negative lookahead `(?!r)`. -/
  | notAhead (r : Regex)
  /-- The capturing group `(r)`, group 1. -/
  | group (r : Regex)
  /-- The backreference `\1`. -/
  | backref
  deriving Repr, DecidableEq

/-- The state of a match in progress: the index reached, and what group 1 captured
(`none`: nothing yet). -/
structure MatchState where
  pos : Nat
  capture : Option (List Nat)
  deriving Repr, DecidableEq

/-- All states the iterations of `r*` can end in. An iteration that consumes nothing is
not taken, as the language specifies; `fuel` bounds the number of iterations and the
length of the input is enough. -/
def starLoop (step : MatchState → List MatchState) : Nat → MatchState → List MatchState
  | 0, st => [st]
  | fuel + 1, st =>
    st :: ((step st).filter (fun e => decide (st.pos < e.pos))).flatMap (starLoop step fuel)

/-- All states in which a match of the pattern that starts in `st` can end. `test` asks
only whether some match exists, so the order in which the backtracking matcher tries the
alternatives plays no part. -/
def Regex.ends (ignoreCase : Bool) (input : List Nat) : Regex → MatchState → List MatchState
  | .empty, st => [st]
  | .cls k, st =>
    match input.drop st.pos with
    | u :: _ => if k.accepts ignoreCase u then [{ st with pos := st.pos + 1 }] else []
    | [] => []
  | .wordBoundary, st =>
    let before : Bool :=
      if st.pos = 0 then false
      else match input.drop (st.pos - 1) with
        | u :: _ => isWordChar u
        | [] => false
    let after : Bool :=
      match input.drop st.pos with
      | u :: _ => isWordChar u
      | [] => false
    if before != after then [st] else []
  | .seq r s, st => (Regex.ends ignoreCase input r st).flatMap (Regex.ends ignoreCase input s)
  | .star r, st => starLoop (Regex.ends ignoreCase input r) input.length st
  | .notAhead r, st => if (Regex.ends ignoreCase input r st).isEmpty then [st] else []
  | .group r, st =>
    (Regex.ends ignoreCase input r st).map
      (fun e => { e with capture := some ((input.drop st.pos).take (e.pos - st.pos)) })
  | .backref, st =>
    match st.capture with
    | none => [st]
    | some w =>
      if ((input.drop st.pos).take w.length).map (canonicalize ignoreCase)
          = w.map (canonicalize ignoreCase) then
        [{ st with pos := st.pos + w.length }]
      else []

/-- Method `RegExp.prototype.test` on a fresh pattern object (`lastIndex = 0`): is there a
match starting at some index of the input. -/
def Regex.test (r : Regex) (ignoreCase : Bool) (input : List Nat) : Bool :=
  (List.range (input.length + 1)).any
    (fun i => !(r.ends ignoreCase input { pos := i, capture := none }).isEmpty)

/-- The pattern of a sequence of pattern characters. -/
def Regex.lit (s : String) : Regex :=
  s.data.foldr (fun c r => Regex.seq (.cls (.lit c)) r) .empty

/-- The pattern `r` repeated `n` times. -/
def Regex.times : Nat → Regex → Regex
  | 0, _ => .empty
  | n + 1, r => .seq r (Regex.times n r)

/-- The quantifier `+`. -/
def Regex.plus (r : Regex) : Regex := .seq r (.star r)

/-- The quantifier `{n,}`. -/
def Regex.atLeast (n : Nat) (r : Regex) : Regex := .seq (Regex.times n r) (.star r)

/-- The pattern `<script\b[^<]*(?:(?!<\/script>)<[^<]*)*<\/script>`. -/
def scriptPattern : Regex :=
  .seq (Regex.lit "<script") (.seq .wordBoundary (.seq (.star (.cls (.notLit '<')))
    (.seq (.star (.seq (.notAhead (Regex.lit "</script>"))
        (.seq (.cls (.lit '<')) (.star (.cls (.notLit '<'))))))
      (Regex.lit "</script>"))))

/-- The pattern `javascript:`. -/
def javascriptPattern : Regex := Regex.lit "javascript:"

/-- The pattern `on\w+\s*=`. -/
def handlerPattern : Regex :=
  .seq (Regex.lit "on") (.seq (Regex.plus (.cls .word))
    (.seq (.star (.cls .space)) (.cls (.lit '='))))

/-- The pattern `data:text\/html`. -/
def dataHtmlPattern : Regex := Regex.lit "data:text/html"

/-- The array `suspiciousPatterns`; all four carry the flags `gi`. -/
def suspiciousPatterns : List Regex :=
  [scriptPattern, javascriptPattern, handlerPattern, dataHtmlPattern]

/-- The pattern `(.)\1{10,}` of `repeatedChars`, without flags. -/
def repeatedChars : Regex := .seq (.group (.cls .any)) (Regex.atLeast 10 .backref)


/-- Whether a text begins with the pattern characters `w`. -/
def startsWithLit (ignoreCase : Bool) : List Char → List Nat → Bool
  | [], _ => true
  | _ :: _, [] => false
  | c :: w, u :: l => (CharClass.lit c).accepts ignoreCase u && startsWithLit ignoreCase w l

/-- The pattern of a list of pattern characters. -/
def litChars (w : List Char) : Regex :=
  w.foldr (fun c r => Regex.seq (.cls (.lit c)) r) .empty

/-- Two texts are equal up to the case of ASCII letters. -/
def sameLetters (a b : List Nat) : Prop :=
  a.map (canonicalize true) = b.map (canonicalize true)

/-- The text contains the word `w`, in any letter case. -/
def containsIgnoringCase (input : List Nat) (w : String) : Prop :=
  ∃ pre mid post, input = pre ++ mid ++ post ∧ sameLetters mid (utf16 w)

/-- The text contains an inline event-handler attribute: `on` in any letter case, one or
more word characters, optional white space and `=`. -/
def hasEventHandler (input : List Nat) : Prop :=
  ∃ pre onPart w ws post, input = pre ++ onPart ++ w ++ ws ++ 61 :: post ∧
    sameLetters onPart (utf16 "on") ∧ w ≠ [] ∧ (∀ u ∈ w, isWordChar u = true) ∧
    (∀ u ∈ ws, isWhiteSpace u = true)

/-- The text contains a script element: `<script` in any letter case, then a character
`c` that is no word character (the `>` of the tag, or the white space before its
attributes), any text, and `</script>` in any letter case. -/
def hasScriptElement (input : List Nat) : Prop :=
  ∃ pre opening c body closing post,
    input = pre ++ opening ++ c :: body ++ closing ++ post ∧
    sameLetters opening (utf16 "<script") ∧ isWordChar c = false ∧
    sameLetters closing (utf16 "</script>")

/-- The text holds `</script>`, in any letter case, somewhere. -/
def closingTagAhead (l : List Nat) : Prop :=
  ∃ a b, l = a ++ b ∧ startsWithLit true "</script>".data b = true

/-- The group `(?:(?!<\/script>)<[^<]*)` of `scriptPattern`. -/
def scriptGroup : Regex :=
  .seq (.notAhead (Regex.lit "</script>"))
    (.seq (.cls (.lit '<')) (.star (.cls (.notLit '<'))))

/-- The text holds `n` copies of the code unit `u` in a row. -/
def hasRun (input : List Nat) (u : Nat) (n : Nat) : Prop :=
  ∃ pre post, input = pre ++ List.replicate n u ++ post

/-! ## security.js: the validators, room access and `checkSecurity` -/

/-- A JavaScript value as far as `validateMessage` tells values apart: it reads the
truthiness, the `typeof` and, of a string, the content. -/
inductive JsValue where
  | undefined
  | null
  | boolean (b : Bool)
  | number (n : Int)
  | string (s : String)
  /-- An object, an array or a function. -/
  | object
  deriving Repr, DecidableEq

/-- The object returned by `validateMessage` and `validateCommand`; `details = none`
when the property is absent. -/
structure ValidationResult where
  valid : Bool
  reason : String
  details : Option String
  deriving Repr, DecidableEq

/-- The result of the first `return` of `validateMessage`. -/
def invalidTypeResult : ValidationResult :=
  { valid := false, reason := "invalid_type", details := some "Повідомлення має бути рядком" }

/-- The result of the `message.length > this.maxMessageLength` branch. -/
def tooLongResult (maxMessageLength : Int) : ValidationResult :=
  { valid := false, reason := "too_long",
    details := some ("Максимальна довжина: " ++ toString maxMessageLength ++ " символів") }

/-- The result of the `message.length === 0` branch. -/
def emptyResult : ValidationResult :=
  { valid := false, reason := "empty", details := some "Повідомлення не може бути порожнім" }

/-- The result returned inside the loop over `suspiciousPatterns`. -/
def suspiciousResult : ValidationResult :=
  { valid := false, reason := "suspicious_content", details := some "Виявлено підозрілий контент" }

/-- The result of the `repeatedChars.test(message)` branch. -/
def spamResult : ValidationResult :=
  { valid := false, reason := "spam_detected", details := some "Виявлено спам" }

/-- The result `{valid: true, reason: 'valid'}` of both validators. -/
def validResult : ValidationResult :=
  { valid := true, reason := "valid", details := none }

/-- Method `SecurityManager.validateMessage(message)`.

`!message` is true of `undefined`, `null`, `false`, `0` and of the empty string, and
`typeof message !== 'string'` of every value that is not a string: each of them takes
the first `return`. Every regular expression is a fresh literal, so its `lastIndex`
is 0 when `test` runs. -/
def validateMessage (sm : SecurityManager) (message : JsValue) : ValidationResult :=
  match message with
  | .string s =>
    if s = "" then invalidTypeResult
    else if (jsLength s : Int) > sm.maxMessageLength then tooLongResult sm.maxMessageLength
    else if jsLength s = 0 then emptyResult
    else if suspiciousPatterns.any (fun pattern => pattern.test true (utf16 s)) then
      suspiciousResult
    else if repeatedChars.test false (utf16 s) then spamResult
    else validResult
  | _ => invalidTypeResult

/-- The property read `commandPermissions[command]` on the object literal of
`validateCommand`. -/
def commandPermissionsLookup (command : String) : RolesEntry :=
  if command = "help" then .permissions ["all"]
  else if command = "ask" then .permissions ["user", "moderator", "admin"]
  else if command = "search" then .permissions ["user", "moderator", "admin"]
  else if command = "read" then .permissions ["user", "moderator", "admin"]
  else if command = "status" then .permissions ["user", "moderator", "admin"]
  else if command = "ping" then .permissions ["user", "moderator", "admin"]
  else if command = "admin_restart" then .permissions ["admin"]
  else if command = "admin_config" then .permissions ["admin"]
  else if command = "admin_cache_clear" then .permissions ["admin"]
  else if command = "admin_metrics" then .permissions ["admin", "moderator"]
  else if command ∈ objectPrototypeKeys then .inherited
  else .undefined

/-- The result of the `catch` branch of `validateCommand` when `allowedRoles` is an
inherited property; `details` is the message of the `TypeError` as V8 words it. -/
def includesTypeError : ValidationResult :=
  { valid := false, reason := "validation_error",
    details := some "allowedRoles.includes is not a function" }

/-- The test `!args || args.length === 0`; `none` is an absent argument list. -/
def argsMissing (args : Option (List String)) : Bool :=
  match args with
  | none => true
  | some l => l.length == 0

/-- Method `SecurityManager.validateCommand(command, args, userRole)`.

`commandPermissions[command] || ['admin']` keeps an inherited property, which is
truthy; `allowedRoles.includes` is then not a function, the call throws and the
`catch` branch answers with reason `validation_error`. -/
def validateCommand (command : String) (args : Option (List String)) (userRole : String) :
    ValidationResult :=
  match commandPermissionsLookup command with
  | .inherited => includesTypeError
  | entry =>
    let allowedRoles : List String :=
      match entry with
      | .permissions tags => tags
      | _ => ["admin"]
    if ¬ ("all" ∈ allowedRoles) ∧ ¬ (userRole ∈ allowedRoles) then
      { valid := false, reason := "insufficient_permissions",
        details := some ("Команда " ++ command ++ " недоступна для ролі " ++ userRole) }
    else if command = "ask" then
      if argsMissing args then
        { valid := false, reason := "missing_arguments",
          details := some "Потрібно вказати питання" }
      else validResult
    else if command = "search" ∨ command = "read" then
      if argsMissing args then
        { valid := false, reason := "missing_arguments",
          details := some "Потрібно вказати назву файлу" }
      else validResult
    else validResult

/-- The object returned by `checkRoomAccess`. -/
structure RoomAccessResult where
  allowed : Bool
  reason : String
  deriving Repr, DecidableEq

/-- Method `SecurityManager.checkRoomAccess(roomId, requiredPermission)`. The stored
value is an array, which is truthy also when empty, so `!roomPermissions` holds only
of a missing entry. -/
def checkRoomAccess (sm : SecurityManager) (roomId requiredPermission : String) :
    RoomAccessResult :=
  if sm.allowedRooms.length = 0 then
    { allowed := true, reason := "no_restrictions" }
  else
    match JsMap.get sm.allowedRooms roomId with
    | none => { allowed := false, reason := "room_not_allowed" }
    | some roomPermissions =>
      if "all" ∈ roomPermissions ∨ requiredPermission ∈ roomPermissions then
        { allowed := true, reason := "access_granted" }
      else
        { allowed := false, reason := "insufficient_permissions" }

/-- The object returned by `checkSecurity`; absent properties are `none`. -/
structure SecurityDecision where
  allowed : Bool
  reason : String
  details : Option String
  userRole : Option String
  rateLimit : Option RateLimitResult
  deriving Repr, DecidableEq

/-- A denial of `checkSecurity`: `{allowed: false, reason, details}`. -/
def SecurityDecision.deny (reason : String) (details : Option String) : SecurityDecision :=
  { allowed := false, reason := reason, details := details, userRole := none,
    rateLimit := none }

/-- Method `SecurityManager.checkSecurity(userId, roomId, command, args, message)` at
clock reading `now`, with the manager state it leaves. `checkRateLimit(userId, command)`
runs with its default limit 10 and window 60000. A granted `checkUserAccess` carries a
role string; `null` would reach `validateCommand` as a value equal to no role name. -/
def checkSecurity (sm : SecurityManager) (userId roomId command : String)
    (args : Option (List String)) (message : JsValue) (now : Int) :
    SecurityDecision × SecurityManager :=
  let userAccess := checkUserAccess sm userId "read"
  if userAccess.allowed = false then
    (SecurityDecision.deny userAccess.reason (some "Доступ користувача заборонено"), sm)
  else
    let roomAccess := checkRoomAccess sm roomId "read"
    if roomAccess.allowed = false then
      (SecurityDecision.deny roomAccess.reason (some "Доступ до кімнати заборонено"), sm)
    else
      let rateLimit := checkRateLimit sm userId command 10 60000 now
      if rateLimit.1.allowed = false then
        (SecurityDecision.deny "rate_limit_exceeded"
          (some "Перевищено ліміт запитів. Спробуйте пізніше."), rateLimit.2)
      else
        let messageValidation := validateMessage rateLimit.2 message
        if messageValidation.valid = false then
          (SecurityDecision.deny messageValidation.reason messageValidation.details,
            rateLimit.2)
        else
          let commandValidation :=
            validateCommand command args (userAccess.role.getD "null")
          if commandValidation.valid = false then
            (SecurityDecision.deny commandValidation.reason commandValidation.details,
              rateLimit.2)
          else
            ({ allowed := true, reason := "all_checks_passed", details := none,
               userRole := userAccess.role, rateLimit := some rateLimit.1 }, rateLimit.2)

/-- The text of `n` copies of the character `c`: `c.repeat(n)`. -/
def jsRepeat (c : Char) (n : Nat) : String := String.mk (List.replicate n c)

/-- The text holds `n` copies of the character `c` in a row. -/
def hasCharRun (s : String) (c : Char) (n : Nat) : Prop :=
  ∃ pre post, s.data = pre ++ List.replicate n c ++ post

/-! ### The tables of the access rules, as the specification words them -/

/-- The role set the specification requires for an action: the entry of the table of
`validateCommand`, and `admin` alone for a name that is not in the table. -/
def requiredRoles (action : String) : List String :=
  if action = "help" then ["all"]
  else if action ∈ ["ask", "search", "read", "status", "ping"] then
    ["user", "moderator", "admin"]
  else if action ∈ ["admin_restart", "admin_config", "admin_cache_clear"] then ["admin"]
  else if action = "admin_metrics" then ["admin", "moderator"]
  else ["admin"]

/-- The role is permitted for the action: the required set holds `all` or the role. -/
def rolePermitted (action role : String) : Prop :=
  "all" ∈ requiredRoles action ∨ role ∈ requiredRoles action

instance (action role : String) : Decidable (rolePermitted action role) := by
  unfold rolePermitted
  infer_instance

/-- The permission set the specification gives a role: the four rows of the table, and
the empty set for every other role name. -/
def rolePermissions (role : String) : List String :=
  if role = "admin" then ["all"]
  else if role = "moderator" then ["read", "write", "search", "help"]
  else if role = "user" then ["read", "help"]
  else if role = "guest" then ["help"]
  else []

/-- The role `checkUserAccess` works with: the entry of `allowedUsers`, and `guest` for
an identity without entry or with the empty string as entry. -/
def resolvedRole (sm : SecurityManager) (userId : String) : String :=
  match JsMap.get sm.allowedUsers userId with
  | some r => if r = "" then "guest" else r
  | none => "guest"

/-- A manager state with the given role table, room table and block-list, nothing
recorded by the rate limiter, and `maxMessageLength` 5000. -/
def SecurityManager.configured (allowedUsers : JsMap String)
    (allowedRooms : JsMap (List String)) (blockedUsers : List String) : SecurityManager :=
  { allowedUsers := allowedUsers, allowedRooms := allowedRooms,
    blockedUsers := blockedUsers, rateLimits := [], maxMessageLength := 5000,
    encryptionEnabled := false }

/-! ## utils/retry.js: the self-test -/

/-- The default policy with the jitter switched off, `{...DEFAULT_CONFIG, jitter: 0}`. -/
def noJitterConfig : RetryConfig := { DEFAULT_CONFIG with jitter := 0 }

/-- The error the self-test throws, `new Error('Тестова помилка з\'єднання')`: a message
and nothing else. -/
def selfTestError : JsError := errorWithMessage "Тестова помилка з'єднання"

/-- The options `{maxAttempts: 3, baseDelay: 100}` of the self-test. -/
def selfTestOptions : RetryOptions := { maxAttempts := some 3, baseDelay := some 100 }

/-- The operation `failingOperation` of `testRetryMechanism`: `attemptCount++`, then the
error while `attemptCount < 3`, that is on the first two invocations. -/
def selfTestOperation : Operation Nat String :=
  failingOperation 2 selfTestError "Успішний результат"

/-- Function `testRetryMechanism()`: `true` when the `withRetry` call resolves, `false`
when it rejects. -/
def testRetryMechanism (random : Nat → ℚ) : Bool :=
  match (withRetry selfTestOperation selfTestOptions random 0).outcome with
  | .ok _ => true
  | .error _ => false

/-! ## security.js: the sweep of the rate-limit table -/

/-- One turn of the loop of `cleanupRateLimits` at clock reading `now`: what becomes of
the entry `[key, requests]`. `none` is `this.rateLimits.delete(key)`; an entry whose
filtered list has the length of the stored one is left alone. -/
def cleanupEntry (now : Int) (entry : String × List Int) : Option (String × List Int) :=
  let validRequests := entry.2.filter (fun timestamp => decide (now - timestamp < 60000))
  if validRequests.length = 0 then none
  else if validRequests.length ≠ entry.2.length then some (entry.1, validRequests)
  else some entry

/-- Method `SecurityManager.cleanupRateLimits()` at clock reading `now`. Each turn of the
loop over `this.rateLimits.entries()` deletes or rewrites the entry it visits and no
other, so the loop maps the entries one by one. -/
def cleanupRateLimits (sm : SecurityManager) (now : Int) : SecurityManager :=
  { sm with rateLimits := sm.rateLimits.filterMap (cleanupEntry now) }

/-- The table is a `Map`: no key occurs twice. -/
def JsMap.keysDistinct {α : Type} (m : JsMap α) : Prop := (m.map Prod.fst).Nodup

instance {α : Type} (m : JsMap α) : Decidable (JsMap.keysDistinct m) := by
  unfold JsMap.keysDistinct
  infer_instance

/-! ## cache.js: `clear` -/

/-- Glob matching of a key against a `KEYS` pattern, as far as `clear` needs it: `*`
stands for any run of characters and every other character for itself. Redis also
reads `?`, `[` and `\` as special; a `keyPrefix` holding one of them is outside this
model. -/
def globMatch : List Char → List Char → Bool
  | [], s => s.isEmpty
  | c :: p, s =>
    if c = '*' then (List.range (s.length + 1)).any (fun i => globMatch p (s.drop i))
    else
      match s with
      | [] => false
      | d :: t => d == c && globMatch p t

/-- Command `client.keys(pattern)`: the stored keys the pattern matches. -/
def RedisClient.keys (client : RedisClient) (pattern : String) :
    Except JsError (List String) :=
  if client.failing then .error redisCommandError
  else .ok ((client.entries.map Prod.fst).filter (fun key => globMatch pattern.data key.data))

/-- Command `client.del(keys)` with an array of keys: the number of keys removed, and the
client afterwards. -/
def RedisClient.delKeys (client : RedisClient) (keys : List String) :
    Except JsError (Nat × RedisClient) :=
  if client.failing then .error redisCommandError
  else
    .ok ((client.entries.filter (fun e => decide (e.1 ∈ keys))).length,
      { client with entries := client.entries.filter (fun e => !decide (e.1 ∈ keys)) })

/-- Method `clear()`: what the promise settles to, and the manager afterwards. The method
has no parameter; the pattern is `keyPrefix` followed by `*`. -/
def CacheManager.clear (cm : CacheManager) : Except JsError Bool × CacheManager :=
  let body : Except JsError (Bool × CacheManager) :=
    match cm.isConnected, cm.client with
    | true, some client =>
      match client.keys (cm.keyPrefix ++ "*") with
      | .error e => .error e
      | .ok keys =>
        if keys.length > 0 then
          match client.delKeys keys with
          | .error e => .error e
          | .ok (_, client1) => .ok (true, { cm with client := some client1 })
        else .ok (true, cm)
    | _, _ => .ok (false, cm)
  match body with
  | .ok r => (.ok r.1, r.2)
  | .error _ => (.ok false, cm)

/-- The characters Redis reads as special in a `KEYS` pattern. -/
def globSpecial : List Char := ['*', '?', '[', '\\']

/-- A store with one cached answer, one cached file and one key of another application. -/
def mixedStore : JsMap String :=
  [("matrix_bot:llm:0cc175b9c0f1b6a831c399e269772661", "\"hi\""),
   ("matrix_bot:file:92eb5ffee6ae2fec3ad71c777531578f", "\"text\""),
   ("other_app:session", "1")]

/-! ## security.js: `loadSecurityConfig` -/

/-- The pieces of a text cut at every occurrence of `sep`; there is always at least one
piece. -/
def splitChars (sep : Char) : List Char → List (List Char)
  | [] => [[]]
  | c :: rest =>
    if c = sep then [] :: splitChars sep rest
    else
      match splitChars sep rest with
      | [] => [[c]]
      | piece :: pieces => (c :: piece) :: pieces

/-- Method `String.prototype.split` with a separator of one ASCII character. -/
def jsSplit (s : String) (sep : Char) : List String :=
  (splitChars sep s.data).map String.mk

/-- White space and line terminators, which `trim` removes. -/
def isTrimmed (c : Char) : Bool := isWhiteSpace c.toNat

/-- Method `String.prototype.trim`. -/
def jsTrim (s : String) : String :=
  String.mk ((s.data.dropWhile isTrimmed).reverse.dropWhile isTrimmed).reverse

/-- The variables of `process.env` that `loadSecurityConfig` reads; `none` is an unset
variable. -/
structure ProcessEnv where
  ALLOWED_USERS : Option String
  ALLOWED_ROOMS : Option String
  BLOCKED_USERS : Option String
  deriving Repr, DecidableEq

/-- One turn of the loop over `allowedUsersStr.split(',')`:
`const [userId, role = 'user'] = userRole.trim().split(':')`, then
`this.allowedUsers.set(userId, role)`. The pattern takes the first two pieces and drops
the others; `split` never returns an empty array. -/
def loadAllowedUser (sm : SecurityManager) (userRole : String) : SecurityManager :=
  match jsSplit (jsTrim userRole) ':' with
  | userId :: role :: _ => { sm with allowedUsers := JsMap.set sm.allowedUsers userId role }
  | [userId] => { sm with allowedUsers := JsMap.set sm.allowedUsers userId "user" }
  | [] => sm

/-- One turn of the loop over `allowedRoomsStr.split(',')`:
`const [roomId, permissions = 'read'] = roomPerms.trim().split(':')`, then
`this.allowedRooms.set(roomId, permissions.split(','))`. -/
def loadAllowedRoom (sm : SecurityManager) (roomPerms : String) : SecurityManager :=
  match jsSplit (jsTrim roomPerms) ':' with
  | roomId :: permissions :: _ =>
    { sm with allowedRooms := JsMap.set sm.allowedRooms roomId (jsSplit permissions ',') }
  | [roomId] =>
    { sm with allowedRooms := JsMap.set sm.allowedRooms roomId (jsSplit "read" ',') }
  | [] => sm

/-- One turn of the loop over `blockedUsersStr.split(',')`:
`this.blockedUsers.add(user.trim())`. -/
def loadBlockedUser (sm : SecurityManager) (user : String) : SecurityManager :=
  if jsTrim user ∈ sm.blockedUsers then sm
  else { sm with blockedUsers := sm.blockedUsers ++ [jsTrim user] }

/-- Method `SecurityManager.loadSecurityConfig()` on the environment `env`. A variable
that is unset or empty is skipped (`process.env.X || ''`, then `if (str)`). -/
def loadSecurityConfig (env : ProcessEnv) (sm : SecurityManager) : SecurityManager :=
  let allowedUsersStr := env.ALLOWED_USERS.getD ""
  let sm1 :=
    if allowedUsersStr ≠ "" then (jsSplit allowedUsersStr ',').foldl loadAllowedUser sm
    else sm
  let allowedRoomsStr := env.ALLOWED_ROOMS.getD ""
  let sm2 :=
    if allowedRoomsStr ≠ "" then (jsSplit allowedRoomsStr ',').foldl loadAllowedRoom sm1
    else sm1
  let blockedUsersStr := env.BLOCKED_USERS.getD ""
  if blockedUsersStr ≠ "" then (jsSplit blockedUsersStr ',').foldl loadBlockedUser sm2
  else sm2

/-- An environment that sets `ALLOWED_USERS` only. -/
def envWithUsers (allowedUsers : String) : ProcessEnv :=
  { ALLOWED_USERS := some allowedUsers, ALLOWED_ROOMS := none, BLOCKED_USERS := none }

/-- An environment that sets `ALLOWED_ROOMS` only. -/
def envWithRooms (allowedRooms : String) : ProcessEnv :=
  { ALLOWED_USERS := none, ALLOWED_ROOMS := some allowedRooms, BLOCKED_USERS := none }

/-- The text `id:role`, or `id` alone, of one item of `ALLOWED_USERS`. -/
def userItem (item : String × Option String) : List Char :=
  match item.2 with
  | some role => item.1.data ++ ':' :: role.data
  | none => item.1.data

/-- Pieces joined with commas. -/
def joinWithCommas : List (List Char) → List Char
  | [] => []
  | [piece] => piece
  | piece :: next :: pieces => piece ++ ',' :: joinWithCommas (next :: pieces)

/-- An item of `ALLOWED_USERS` that the format of the source can carry: identity and
role hold no comma and no colon, and the item neither starts nor ends with white
space. -/
def userItemPlain (item : String × Option String) : Prop :=
  ',' ∉ item.1.data ∧ ':' ∉ item.1.data ∧
  (∀ role, item.2 = some role → ',' ∉ role.data ∧ ':' ∉ role.data) ∧
  (userItem item).dropWhile isTrimmed = userItem item ∧
  (userItem item).reverse.dropWhile isTrimmed = (userItem item).reverse

/-- No identity in the role table holds a colon. -/
def identitiesColonFree (sm : SecurityManager) : Prop :=
  ∀ entry ∈ sm.allowedUsers, ':' ∉ entry.1.data

/-- Every room in the room table has exactly one permission. -/
def roomsSinglePermission (sm : SecurityManager) : Prop :=
  ∀ entry ∈ sm.allowedRooms, entry.2.length = 1

/-- The role table after the items have been set one after the other: the role written
in the item, and `user` for an item without role. -/
def setUserItems (m : JsMap String) (items : List (String × Option String)) : JsMap String :=
  items.foldl (fun table item => JsMap.set table item.1 (item.2.getD "user")) m

/-! ## router.js: `handleCommand` -/

/-- The event of an incoming message, as `handleCommand` reads it: `getSender()`,
`getRoomId()` and `getContent().body` (`none` when absent). -/
structure MatrixEvent where
  sender : String
  roomId : String
  body : Option String
  deriving Repr, DecidableEq

/-- What `handleCommand` did, one entry per call, in order: `this.sendResponse(roomId,
text)`, `recordBotRequest(command, status)`, and the call of the registered handler. -/
inductive RouterAction where
  | sendResponse (roomId text : String)
  | recordBotRequest (command status : String)
  | runHandler (commandName : String)
  deriving Repr, DecidableEq

/-- The object `handleCommand` expects under `securityCheck.checks`, reduced to what it
reads: `rateLimit?.reason`, the text of `rateLimit.retryAfter`, `userAccess?.reason`,
and whether `messageValidation?.issues` includes `message_too_long`. -/
structure SecurityChecks where
  rateLimitReason : Option String
  retryAfter : String
  userAccessReason : Option String
  messageTooLong : Bool
  deriving Repr, DecidableEq

/-- Property `checks` of the object `checkSecurity` returns. None of the `return`
statements of `checkSecurity` sets it, so the read yields `undefined`. -/
def SecurityDecision.checks (_decision : SecurityDecision) : Option SecurityChecks := none

/-- The `if` chain of `handleCommand` that picks the notice of a denial. -/
def denialNotice (checks : SecurityChecks) : String :=
  if checks.rateLimitReason = some "rate_limit_exceeded" then
    "Занадто багато запитів. Спробуйте через " ++ checks.retryAfter ++ " секунд"
  else if checks.userAccessReason = some "user_blocked" then "Ваш акаунт заблоковано"
  else if checks.messageTooLong then "Повідомлення занадто довге"
  else "Доступ заборонено"

/-- The notice of the `catch` block of `handleCommand`. -/
def internalErrorNotice : String :=
  "❌ Сталася помилка при виконанні команди. Спробуйте пізніше."

/-- The `catch` block of `handleCommand`: the notice goes to the room, and the request is
recorded as `error` under the command word as it was typed. -/
def errorPath (command : String) (event : MatrixEvent) : List RouterAction :=
  [.sendResponse event.roomId internalErrorNotice, .recordBotRequest command "error"]

/-- Method `CommandRouter.handleCommand(command, args, event, room)` at clock reading
`now`, on the security manager `sm`: the actions taken, in order, and the manager
afterwards. `commands commandName` is the read `this.commands[commandName]` together
with what calling the handler does: `none` for a falsy entry, `some (.error e)` for a
handler that throws. Sending a response is taken to succeed. `commandName` is exact for
command words whose letters are ASCII.

On a denial `securityCheck.checks` is `undefined`, and reading `.rateLimit` of it
throws a `TypeError`, which the `catch` block of the method handles. -/
def handleCommand (sm : SecurityManager) (commands : String → Option (Except JsError Unit))
    (command : String) (args : List String) (event : MatrixEvent) (now : Int) :
    List RouterAction × SecurityManager :=
  let commandName := jsToLowerCase command
  let message : String := match event.body with
    | some body => body
    | none => ""
  let securityCheck :=
    checkSecurity sm event.sender event.roomId commandName (some args) (.string message) now
  if securityCheck.1.allowed = false then
    match securityCheck.1.checks with
    | none => (errorPath command event, securityCheck.2)
    | some checks =>
      ([.sendResponse event.roomId ("❌ " ++ denialNotice checks),
        .recordBotRequest commandName "blocked"], securityCheck.2)
  else
    match commands commandName with
    | none =>
      ([.sendResponse event.roomId
          ("❌ Невідома команда: " ++ commandName ++
            "\nВикористовуйте !help для списку доступних команд."),
        .recordBotRequest commandName "unknown"], securityCheck.2)
    | some (.ok _) =>
      ([.runHandler commandName, .recordBotRequest commandName "success"], securityCheck.2)
    | some (.error _) => (.runHandler commandName :: errorPath command event, securityCheck.2)

/-- The table `this.commands` of the router with handlers that return normally. -/
def registeredCommands (commandName : String) : Option (Except JsError Unit) :=
  if commandName ∈ ["help", "ask", "find", "read", "status", "ping"] then some (.ok ())
  else none

/-- The message `!ask hi` of the sender `@eve` in room `!room`. -/
def askEvent : MatrixEvent := { sender := "@eve", roomId := "!room", body := some "!ask hi" }

/-! ## utils/retry.js: `calculateDelay` in the arithmetic of Numbers

`calculateDelay` computes with Numbers, IEEE 754 doubles: the result of every `*`, `+`
and `-` is rounded to a double. The definitions below take the rounding as a
parameter, so that a property proved for every sound rounding holds for doubles and for
exact arithmetic alike. -/

/-- The arithmetic of the host: `fl` rounds the exact result of an operation on two
Numbers to a Number, `pow` is `Math.pow` for an exponent that is a non-negative integer
(ECMAScript leaves its precision to the implementation). -/
structure Arithmetic where
  fl : ℚ → ℚ
  pow : ℚ → Nat → ℚ

/-- Exact arithmetic: nothing is rounded. -/
def Arithmetic.exact : Arithmetic :=
  { fl := fun x => x, pow := fun b n => b ^ n }

/-- Round to the nearest integer, a tie to the even one. -/
def roundHalfEven (q : ℚ) : ℤ :=
  if q - ⌊q⌋ < 1 / 2 then ⌊q⌋
  else if 1 / 2 < q - ⌊q⌋ then ⌊q⌋ + 1
  else if ⌊q⌋ % 2 = 0 then ⌊q⌋ else ⌊q⌋ + 1

/-- The distance between neighbouring doubles in the binade of a positive `x`: the
significand has 53 bits. -/
def ulp (x : ℚ) : ℚ := 2 ^ (Int.log 2 x - 52)

/-- A positive `x` rounded to the nearest number with a significand of 53 bits, a tie to
the even significand. -/
def roundMagnitude (x : ℚ) : ℚ := roundHalfEven (x / ulp x) * ulp x

/-- Rounding to the nearest double, ties to even (the rounding of IEEE 754 binary64), with
an exponent that is not bounded: overflow to `Infinity` and the gradual underflow below
`2^-1022` are left out. -/
def roundDouble (x : ℚ) : ℚ :=
  if 0 < x then roundMagnitude x
  else if x < 0 then - roundMagnitude (-x)
  else 0

/-- The arithmetic of doubles, with `Math.pow` taken as the correctly rounded power. -/
def Arithmetic.binary64 : Arithmetic :=
  { fl := roundDouble, pow := fun b n => roundDouble (b ^ n) }

/-- What the bounds on `calculateDelay` use of the arithmetic: rounding is monotone,
keeps `0` and `1/2`, keeps a Number, and the half and the negative of a Number are
Numbers; a power of a base that is at least 1 is at least 1. -/
def Arithmetic.Sound (A : Arithmetic) : Prop :=
  (∀ x y, x ≤ y → A.fl x ≤ A.fl y) ∧
  A.fl 0 = 0 ∧
  A.fl (1 / 2) = 1 / 2 ∧
  (∀ x, A.fl (A.fl x) = A.fl x) ∧
  (∀ x, A.fl x = x → A.fl (x / 2) = x / 2) ∧
  (∀ x, A.fl x = x → A.fl (-x) = -x) ∧
  (∀ b n, 1 ≤ b → 1 ≤ A.pow b n)

/-- The local `exponentialDelay` of `calculateDelay`, computed in the arithmetic `A`:
`Math.min(config.baseDelay * Math.pow(config.backoffMultiplier, attempt - 1),
config.maxDelay)`. -/
def exponentialDelayIn (A : Arithmetic) (attempt : Nat) (config : RetryConfig) : ℚ :=
  min (A.fl (config.baseDelay * A.pow config.backoffMultiplier (attempt - 1)))
    config.maxDelay

/-- Function `calculateDelay(attempt, config)` computed in the arithmetic `A`, with the
value of `Math.random()` as `random`: the product `exponentialDelay * config.jitter *
(Math.random() - 0.5)` is evaluated from the left, every operation is rounded. -/
def calculateDelayIn (A : Arithmetic) (attempt : Nat) (config : RetryConfig)
    (random : ℚ) : ℚ :=
  let jitter := A.fl (A.fl (exponentialDelayIn A attempt config * config.jitter) *
    A.fl (random - 1 / 2))
  max 0 (A.fl (exponentialDelayIn A attempt config + jitter))

/-- The default policy with the jitter one quarter, `{...DEFAULT_CONFIG, jitter: 0.25}`. -/
def quarterJitterConfig : RetryConfig := { DEFAULT_CONFIG with jitter := 1 / 4 }

/-- The largest multiple of `2^-52` below 1, the largest value that a `Math.random()`
with 52 random bits (as that of V8) returns. -/
def largestDraw : ℚ := 1 - 1 / 2 ^ 52

/-- The default policy as the host holds it: the literal `0.1` denotes the double nearest
to one tenth, `3602879701896397 / 2^55`. -/
def hostDefaultConfig : RetryConfig :=
  { DEFAULT_CONFIG with jitter := 3602879701896397 / 2 ^ 55 }

/-! ## Theorems -/

/-! ### The `Map` operations -/

theorem JsMap.get_set_same {α : Type} (m : JsMap α) (key : String) (v : α) :
    JsMap.get (JsMap.set m key v) key = some v := by
  induction m with
  | nil => simp [JsMap.set, JsMap.get]
  | cons p rest ih =>
    obtain ⟨k, w⟩ := p
    by_cases hk : k = key
    · simp [JsMap.set, JsMap.get, hk]
    · simp [JsMap.set, JsMap.get, hk, ih]

theorem JsMap.get_set_other {α : Type} (m : JsMap α) (key other : String) (v : α)
    (h : other ≠ key) : JsMap.get (JsMap.set m other v) key = JsMap.get m key := by
  induction m with
  | nil => simp [JsMap.set, JsMap.get, h]
  | cons p rest ih =>
    obtain ⟨k, w⟩ := p
    by_cases hk : k = other
    · subst hk
      simp [JsMap.set, JsMap.get, h]
    · by_cases hk2 : k = key
      · subst hk2
        simp [JsMap.set, JsMap.get, hk]
      · simp [JsMap.set, JsMap.get, hk, hk2, ih]

/-! ### One call of `checkRateLimit` -/

/-- Creating the empty entry of a new key does not change what is read for it. -/
theorem getD_ensureEntry (m : JsMap (List Int)) (key : String) :
    (JsMap.get (if JsMap.has m key = true then m else JsMap.set m key []) key).getD []
      = (JsMap.get m key).getD [] := by
  by_cases hhas : JsMap.has m key = true
  · rw [if_pos hhas]
  · rw [if_neg hhas, JsMap.get_set_same]
    have hnone : JsMap.get m key = none := by
      simpa [JsMap.has] using hhas
    rw [hnone]
    rfl

theorem get_ensureEntry_other (m : JsMap (List Int)) (key other : String) (h : other ≠ key) :
    JsMap.get (if JsMap.has m other = true then m else JsMap.set m other []) key
      = JsMap.get m key := by
  by_cases hhas : JsMap.has m other = true
  · rw [if_pos hhas]
  · rw [if_neg hhas, JsMap.get_set_other _ _ _ _ h]

theorem checkRateLimit_result (sm : SecurityManager) (userId command : String)
    (limit windowMs now : Int) :
    (checkRateLimit sm userId command limit windowMs now).1 =
      if (((storedTimes sm (rateKey userId command)).filter
            (fun ts => decide (now - ts < windowMs))).length : Int) ≥ limit then
        { allowed := false, remaining := 0,
          resetTime := (((storedTimes sm (rateKey userId command)).filter
            (fun ts => decide (now - ts < windowMs))).head?).map (fun t => t + windowMs) }
      else
        { allowed := true,
          remaining := limit - ((((storedTimes sm (rateKey userId command)).filter
            (fun ts => decide (now - ts < windowMs))).length : Int) + 1),
          resetTime := some (now + windowMs) } := by
  unfold checkRateLimit storedTimes
  simp only [getD_ensureEntry]
  by_cases hlen : (((((JsMap.get sm.rateLimits (rateKey userId command)).getD []).filter
            (fun ts => decide (now - ts < windowMs))).length : Int) ≥ limit)
  · rw [if_pos hlen, if_pos hlen]
  · rw [if_neg hlen, if_neg hlen]
    simp

theorem storedTimes_checkRateLimit_same (sm : SecurityManager) (userId command : String)
    (limit windowMs now : Int) :
    storedTimes (checkRateLimit sm userId command limit windowMs now).2 (rateKey userId command) =
      if (((storedTimes sm (rateKey userId command)).filter
            (fun ts => decide (now - ts < windowMs))).length : Int) ≥ limit then
        storedTimes sm (rateKey userId command)
      else
        (storedTimes sm (rateKey userId command)).filter
            (fun ts => decide (now - ts < windowMs)) ++ [now] := by
  unfold checkRateLimit storedTimes
  simp only [getD_ensureEntry]
  by_cases hlen : (((((JsMap.get sm.rateLimits (rateKey userId command)).getD []).filter
            (fun ts => decide (now - ts < windowMs))).length : Int) ≥ limit)
  · rw [if_pos hlen, if_pos hlen]
    exact getD_ensureEntry _ _
  · rw [if_neg hlen, if_neg hlen]
    simp only [JsMap.get_set_same, Option.getD_some]

theorem storedTimes_checkRateLimit_other (sm : SecurityManager) (userId command : String)
    (limit windowMs now : Int) (key : String) (h : rateKey userId command ≠ key) :
    storedTimes (checkRateLimit sm userId command limit windowMs now).2 key
      = storedTimes sm key := by
  unfold checkRateLimit storedTimes
  simp only [getD_ensureEntry]
  by_cases hlen : (((((JsMap.get sm.rateLimits (rateKey userId command)).getD []).filter
            (fun ts => decide (now - ts < windowMs))).length : Int) ≥ limit)
  · rw [if_pos hlen]
    simp only [get_ensureEntry_other _ _ _ h]
  · rw [if_neg hlen]
    simp only [JsMap.get_set_other _ _ _ _ h, get_ensureEntry_other _ _ _ h]

/-! ### Sequences of `checkRateLimit` calls -/

theorem runRateCalls_snoc (sm : SecurityManager) (calls : List RateCall) (c : RateCall) :
    runRateCalls sm (calls ++ [c]) = rateStep (runRateCalls sm calls) c := by
  simp [runRateCalls, List.foldl_append]

theorem grantedTimes_snoc (log : List (RateCall × RateLimitResult)) (c : RateCall)
    (r : RateLimitResult) (key : String) :
    grantedTimes (log ++ [(c, r)]) key
      = grantedTimes log key ++ (if r.allowed = true ∧ c.key = key then [c.now] else []) := by
  unfold grantedTimes
  by_cases h : r.allowed = true ∧ c.key = key
  · simp [List.filter_append, List.filter_cons, h]
  · rw [if_neg h]
    have h2 : (r.allowed && decide (c.key = key)) = false := by
      simpa [Bool.and_eq_true] using h
    simp [List.filter_append, List.filter_cons, h2]

theorem callTimes_snoc (calls : List RateCall) (c : RateCall) (key : String) :
    callTimes (calls ++ [c]) key
      = callTimes calls key ++ (if c.key = key then [c.now] else []) := by
  unfold callTimes
  by_cases h : c.key = key <;> simp [List.filter_append, List.filter_cons, h]

/-- The number of stored timestamps inside the window, as the call at `c` counts them. -/
theorem rateStep_allowed (t : RateTrace) (c : RateCall) :
    (checkRateLimit t.sm c.userId c.command c.limit c.windowMs c.now).1.allowed = true ↔
      (((storedTimes t.sm c.key).filter
          (fun ts => decide (c.now - ts < c.windowMs))).length : Int) < c.limit := by
  rw [checkRateLimit_result]
  unfold RateCall.key
  split_ifs with h
  · simp only [Bool.false_eq_true, false_iff, not_lt]
    exact h
  · simp only [true_iff]
    exact lt_of_not_ge h

/-- Filtering at a later clock reading absorbs an earlier filtering with the same window. -/
theorem filter_window_filter (l : List Int) (earlier later W : Int) (h : earlier ≤ later) :
    (l.filter (fun ts => decide (earlier - ts < W))).filter (fun ts => decide (later - ts < W))
      = l.filter (fun ts => decide (later - ts < W)) := by
  rw [List.filter_filter]
  apply List.filter_congr
  intro x _
  by_cases hx : later - x < W
  · have : earlier - x < W := by omega
    simp [hx, this]
  · simp [hx]

/-- Invariant of the sliding-window log. As long as the calls on `key` use one window
`W` and see a non-decreasing clock, the stored list and the list of all granted
timestamps agree on every window that ends at or after the last call. -/
theorem stored_filter_eq_granted (sm0 : SecurityManager) (key : String) (W : Int)
    (h0 : storedTimes sm0 key = []) (calls : List RateCall)
    (hW : ∀ c ∈ calls, c.key = key → c.windowMs = W)
    (hmono : (callTimes calls key).Pairwise (fun a b => a ≤ b)) (now : Int)
    (hnow : ∀ t ∈ callTimes calls key, t ≤ now) :
    (storedTimes (runRateCalls sm0 calls).sm key).filter (fun ts => decide (now - ts < W))
      = (grantedTimes (runRateCalls sm0 calls).log key).filter
          (fun ts => decide (now - ts < W)) := by
  induction calls using List.reverseRecOn generalizing now with
  | nil => simp [runRateCalls, h0, grantedTimes]
  | append_singleton cs c ih =>
    have hWcs : ∀ d ∈ cs, d.key = key → d.windowMs = W :=
      fun d hd => hW d (List.mem_append_left _ hd)
    rw [callTimes_snoc] at hmono hnow
    have hmonocs : (callTimes cs key).Pairwise (fun a b => a ≤ b) :=
      (List.pairwise_append.mp hmono).1
    have hnowcs : ∀ t ∈ callTimes cs key, t ≤ now :=
      fun t ht => hnow t (List.mem_append_left _ ht)
    rw [runRateCalls_snoc]
    unfold rateStep
    simp only [grantedTimes_snoc]
    by_cases hk : c.key = key
    · have hcW : c.windowMs = W := hW c (by simp) hk
      rw [if_pos hk] at hmono hnow
      have hle : ∀ t ∈ callTimes cs key, t ≤ c.now := by
        intro t ht
        exact (List.pairwise_append.mp hmono).2.2 t ht c.now (by simp)
      have hcnow : c.now ≤ now := hnow c.now (by simp)
      have ihc := ih hWcs hmonocs c.now hle
      have ihn := ih hWcs hmonocs now hnowcs
      have hkey : rateKey c.userId c.command = key := hk
      rw [← hkey, storedTimes_checkRateLimit_same, checkRateLimit_result, hkey, hcW]
      by_cases hlen : (((storedTimes (runRateCalls sm0 cs).sm key).filter
          (fun ts => decide (c.now - ts < W))).length : Int) ≥ c.limit
      · rw [if_pos hlen, if_pos hlen]
        simp [ihn]
      · rw [if_neg hlen, if_neg hlen]
        simp only [hk, and_self, if_true, List.filter_append]
        rw [filter_window_filter _ _ _ _ hcnow, ihn]
    · have hkey : rateKey c.userId c.command ≠ key := hk
      rw [if_neg hk, List.append_nil] at hmono hnow
      rw [storedTimes_checkRateLimit_other _ _ _ _ _ _ _ hkey]
      simp [hk, ih hWcs hmonocs now hnowcs]

/-- The granted timestamps are picked, in order, from the clock readings of the calls. -/
theorem grantedTimes_sublist_callTimes (sm0 : SecurityManager) (calls : List RateCall)
    (key : String) :
    (grantedTimes (runRateCalls sm0 calls).log key).Sublist (callTimes calls key) := by
  induction calls using List.reverseRecOn with
  | nil => simp [runRateCalls, grantedTimes, callTimes]
  | append_singleton cs c ih =>
    rw [runRateCalls_snoc, callTimes_snoc]
    unfold rateStep
    simp only [grantedTimes_snoc]
    apply List.Sublist.append ih
    by_cases hk : c.key = key
    · by_cases ha : (checkRateLimit (runRateCalls sm0 cs).sm c.userId c.command c.limit
          c.windowMs c.now).1.allowed = true
      · simp [hk, ha]
      · simp [hk, ha]
    · simp [hk]

/-- The head of a list in non-decreasing order is its least element. -/
theorem head_le_of_pairwise (l : List Int) (m : Int) (hl : l.Pairwise (fun a b => a ≤ b))
    (hm : l.head? = some m) : ∀ t ∈ l, m ≤ t := by
  cases l with
  | nil => simp at hm
  | cons a rest =>
    simp only [List.head?_cons, Option.some.injEq] at hm
    subst hm
    intro t ht
    rcases List.mem_cons.mp ht with h | h
    · exact le_of_eq h.symm
    · exact (List.pairwise_cons.mp hl).1 t h

/-- The admission law of one call, in terms of the calls granted before it. -/
theorem rateLimit_window_law (sm0 : SecurityManager) (history : List RateCall) (c : RateCall)
    (L W : Int) (hL : 1 ≤ L) (h0 : storedTimes sm0 c.key = [])
    (hsame : ∀ d ∈ history ++ [c], d.key = c.key → d.limit = L ∧ d.windowMs = W)
    (hmono : (callTimes (history ++ [c]) c.key).Pairwise (fun a b => a ≤ b)) :
    ((checkRateLimit (runRateCalls sm0 history).sm c.userId c.command c.limit c.windowMs
        c.now).1.allowed = true ↔
      ((((grantedTimes (runRateCalls sm0 history).log c.key).filter
          (fun t => decide (c.now - t < W))).length : Int) < L)) ∧
    ((checkRateLimit (runRateCalls sm0 history).sm c.userId c.command c.limit c.windowMs
        c.now).1.allowed = true →
      (checkRateLimit (runRateCalls sm0 history).sm c.userId c.command c.limit c.windowMs
        c.now).1.remaining =
          L - ((((grantedTimes (runRateCalls sm0 history).log c.key).filter
            (fun t => decide (c.now - t < W))).length : Int) + 1) ∧
      storedTimes (checkRateLimit (runRateCalls sm0 history).sm c.userId c.command c.limit
        c.windowMs c.now).2 c.key =
          (grantedTimes (runRateCalls sm0 history).log c.key).filter
            (fun t => decide (c.now - t < W)) ++ [c.now]) ∧
    ((checkRateLimit (runRateCalls sm0 history).sm c.userId c.command c.limit c.windowMs
        c.now).1.allowed = false →
      (checkRateLimit (runRateCalls sm0 history).sm c.userId c.command c.limit c.windowMs
        c.now).1.remaining = 0 ∧
      ∃ oldest : Int,
        ((grantedTimes (runRateCalls sm0 history).log c.key).filter
            (fun t => decide (c.now - t < W))).head? = some oldest ∧
        (∀ t ∈ (grantedTimes (runRateCalls sm0 history).log c.key).filter
            (fun t => decide (c.now - t < W)), oldest ≤ t) ∧
        (checkRateLimit (runRateCalls sm0 history).sm c.userId c.command c.limit c.windowMs
          c.now).1.resetTime = some (oldest + W)) := by
  obtain ⟨hcL, hcW⟩ := hsame c (by simp) rfl
  have hWh : ∀ d ∈ history, d.key = c.key → d.windowMs = W :=
    fun d hd hk => (hsame d (List.mem_append_left _ hd) hk).2
  rw [callTimes_snoc, if_pos rfl] at hmono
  have hmonoh : (callTimes history c.key).Pairwise (fun a b => a ≤ b) :=
    (List.pairwise_append.mp hmono).1
  have hle : ∀ t ∈ callTimes history c.key, t ≤ c.now := by
    intro t ht
    exact (List.pairwise_append.mp hmono).2.2 t ht c.now (by simp)
  have hinv := stored_filter_eq_granted sm0 c.key W h0 history hWh hmonoh c.now hle
  have hsorted : ((grantedTimes (runRateCalls sm0 history).log c.key).filter
      (fun t => decide (c.now - t < W))).Pairwise (fun a b => a ≤ b) :=
    (hmonoh.sublist (grantedTimes_sublist_callTimes sm0 history c.key)).sublist
      (List.filter_sublist _)
  have hkey : rateKey c.userId c.command = c.key := rfl
  rw [← hkey, storedTimes_checkRateLimit_same, checkRateLimit_result, hkey, hcL, hcW, hinv]
  by_cases hlen : ((((grantedTimes (runRateCalls sm0 history).log c.key).filter
      (fun t => decide (c.now - t < W))).length : Int) ≥ L)
  · rw [if_pos hlen, if_pos hlen]
    refine ⟨?_, ?_, ?_⟩
    · simp only [Bool.false_eq_true, false_iff, not_lt]
      exact hlen
    · intro h
      simp at h
    · intro _
      refine ⟨rfl, ?_⟩
      cases hs : (grantedTimes (runRateCalls sm0 history).log c.key).filter
          (fun t => decide (c.now - t < W)) with
      | nil =>
        rw [hs] at hlen
        simp at hlen
        omega
      | cons m rest =>
        refine ⟨m, rfl, ?_, rfl⟩
        rw [hs] at hsorted
        exact head_le_of_pairwise _ m hsorted rfl
  · rw [if_neg hlen, if_neg hlen]
    refine ⟨?_, ?_, ?_⟩
    · simp only [true_iff]
      exact lt_of_not_ge hlen
    · intro _
      exact ⟨rfl, rfl⟩
    · intro h
      simp at h

theorem callTimes_rapidCalls (userId command : String) (times : List Int) :
    callTimes (rapidCalls userId command times) (rateKey userId command) = times := by
  induction times with
  | nil => rfl
  | cons t rest ih =>
    have : callTimes (rapidCalls userId command (t :: rest)) (rateKey userId command)
        = t :: callTimes (rapidCalls userId command rest) (rateKey userId command) := by
      simp [callTimes, rapidCalls, rapidCall, RateCall.key]
    rw [this, ih]

theorem rapidCalls_snoc (userId command : String) (times : List Int) (t : Int) :
    rapidCalls userId command (times ++ [t])
      = rapidCalls userId command times ++ [rapidCall userId command t] := by
  simp [rapidCalls]

/-- The scenario of the test: with limit 3 and window 60000 ms, of calls that all fall
inside one window exactly the first three are let through. -/
theorem rapidCalls_first_three (sm0 : SecurityManager) (userId command : String)
    (times : List Int) (h0 : storedTimes sm0 (rateKey userId command) = [])
    (hsorted : times.Pairwise (fun a b => a ≤ b))
    (hrapid : ∀ a ∈ times, ∀ b ∈ times, b - a < 60000) :
    (runRateCalls sm0 (rapidCalls userId command times)).log.map (fun e => e.2.allowed)
        = (List.range times.length).map (fun i => decide (i < 3)) ∧
    grantedTimes (runRateCalls sm0 (rapidCalls userId command times)).log
        (rateKey userId command) = times.take 3 := by
  induction times using List.reverseRecOn with
  | nil => simp [rapidCalls, runRateCalls, grantedTimes]
  | append_singleton ts t ih =>
    have hsortedts : ts.Pairwise (fun a b => a ≤ b) := (List.pairwise_append.mp hsorted).1
    have hrapidts : ∀ a ∈ ts, ∀ b ∈ ts, b - a < 60000 :=
      fun a ha b hb => hrapid a (List.mem_append_left _ ha) b (List.mem_append_left _ hb)
    obtain ⟨ihlog, ihgranted⟩ := ih hsortedts hrapidts
    have hk : (rapidCall userId command t).key = rateKey userId command := rfl
    have hlaw := rateLimit_window_law sm0 (rapidCalls userId command ts)
      (rapidCall userId command t) 3 60000 (by norm_num) h0
      (by
        intro d hd _
        rw [← rapidCalls_snoc] at hd
        simp only [rapidCalls, List.mem_map] at hd
        obtain ⟨x, _, rfl⟩ := hd
        exact ⟨rfl, rfl⟩)
      (by
        rw [← rapidCalls_snoc, hk, callTimes_rapidCalls]
        exact hsorted)
    simp only [hk] at hlaw
    rw [ihgranted] at hlaw
    have hnowt : (rapidCall userId command t).now = t := rfl
    have hall : (ts.take 3).filter (fun x => decide (t - x < 60000)) = ts.take 3 := by
      rw [List.filter_eq_self]
      intro a ha
      have : t - a < 60000 :=
        hrapid a (List.mem_append_left _ (List.mem_of_mem_take ha)) t (by simp)
      simpa using this
    rw [hnowt, hall] at hlaw
    have hiff : (checkRateLimit (runRateCalls sm0 (rapidCalls userId command ts)).sm
        (rapidCall userId command t).userId (rapidCall userId command t).command
        (rapidCall userId command t).limit (rapidCall userId command t).windowMs t).1.allowed
          = decide (ts.length < 3) := by
      have h1 := hlaw.1
      simp only [List.length_take] at h1
      by_cases hn : ts.length < 3
      · rw [decide_eq_true hn]
        apply h1.mpr
        omega
      · rw [decide_eq_false hn]
        cases hb : (checkRateLimit (runRateCalls sm0 (rapidCalls userId command ts)).sm
            (rapidCall userId command t).userId (rapidCall userId command t).command
            (rapidCall userId command t).limit (rapidCall userId command t).windowMs
            t).1.allowed with
        | false => rfl
        | true =>
          have := h1.mp hb
          omega
    rw [rapidCalls_snoc, runRateCalls_snoc]
    unfold rateStep
    simp only [grantedTimes_snoc, List.map_append, List.map_cons, List.map_nil, hk, hnowt,
      ihlog, ihgranted, hiff, List.length_append, List.length_singleton, List.range_succ]
    refine ⟨trivial, ?_⟩
    by_cases hn : ts.length < 3
    · have htake : ts.take 3 = ts := List.take_of_length_le (by omega)
      have htake2 : (ts ++ [t]).take 3 = ts ++ [t] :=
        List.take_of_length_le (by simp; omega)
      simp [hn, htake, htake2]
    · have htake2 : (ts ++ [t]).take 3 = ts.take 3 :=
        List.take_append_of_le_length (by omega)
      simp [hn, htake2]

/-- In every interval `(t - W, t]` at most `L` granted timestamps of the key lie. -/
theorem granted_window_count_le (sm0 : SecurityManager) (key : String) (L W : Int)
    (hL : 0 ≤ L) (h0 : storedTimes sm0 key = []) (calls : List RateCall)
    (hsame : ∀ c ∈ calls, c.key = key → c.limit = L ∧ c.windowMs = W)
    (hmono : (callTimes calls key).Pairwise (fun a b => a ≤ b)) (t : Int) :
    (((grantedTimes (runRateCalls sm0 calls).log key).filter
        (fun ts => decide (t - W < ts ∧ ts ≤ t))).length : Int) ≤ L := by
  induction calls using List.reverseRecOn with
  | nil => simpa [runRateCalls, grantedTimes] using hL
  | append_singleton cs c ih =>
    have hsamecs : ∀ d ∈ cs, d.key = key → d.limit = L ∧ d.windowMs = W :=
      fun d hd => hsame d (List.mem_append_left _ hd)
    have hWcs : ∀ d ∈ cs, d.key = key → d.windowMs = W := fun d hd hk => (hsamecs d hd hk).2
    rw [callTimes_snoc] at hmono
    have hmonocs : (callTimes cs key).Pairwise (fun a b => a ≤ b) :=
      (List.pairwise_append.mp hmono).1
    have ihcs := ih hsamecs hmonocs
    rw [runRateCalls_snoc]
    unfold rateStep
    simp only [grantedTimes_snoc]
    by_cases hgrant : (checkRateLimit (runRateCalls sm0 cs).sm c.userId c.command c.limit
        c.windowMs c.now).1.allowed = true ∧ c.key = key
    · obtain ⟨hallowed, hk⟩ := hgrant
      obtain ⟨hcL, hcW⟩ := hsame c (by simp) hk
      rw [if_pos hk] at hmono
      have hle : ∀ x ∈ callTimes cs key, x ≤ c.now := by
        intro x hx
        exact (List.pairwise_append.mp hmono).2.2 x hx c.now (by simp)
      have hinv := stored_filter_eq_granted sm0 key W h0 cs hWcs hmonocs c.now hle
      have hcount := (rateStep_allowed (runRateCalls sm0 cs) c).mp hallowed
      rw [hk, hcW, hcL, hinv] at hcount
      rw [if_pos ⟨hallowed, hk⟩, List.filter_append]
      by_cases hin : t - W < c.now ∧ c.now ≤ t
      · have hsub : ((grantedTimes (runRateCalls sm0 cs).log key).filter
            (fun ts => decide (t - W < ts ∧ ts ≤ t))).length ≤
            ((grantedTimes (runRateCalls sm0 cs).log key).filter
              (fun ts => decide (c.now - ts < W))).length := by
          rw [← List.countP_eq_length_filter, ← List.countP_eq_length_filter]
          apply List.countP_mono_left
          intro x _ hx
          simp only [decide_eq_true_eq] at hx ⊢
          omega
        simp only [List.filter_cons, hin, and_self, decide_True, if_true, List.filter_nil,
          List.length_append, List.length_singleton]
        push_cast
        omega
      · simp only [List.filter_cons, hin, decide_False, List.filter_nil, List.append_nil]
        simpa using ihcs
    · rw [if_neg hgrant, List.append_nil]
      exact ihcs

/-- Right after a granted call the stored list holds at most `limit` timestamps, all of
them inside the window that ends at `now`. -/
theorem stored_after_grant (sm : SecurityManager) (userId command : String)
    (limit windowMs now : Int) (hW : 0 < windowMs)
    (hallowed : (checkRateLimit sm userId command limit windowMs now).1.allowed = true) :
    ((storedTimes (checkRateLimit sm userId command limit windowMs now).2
        (rateKey userId command)).length : Int) ≤ limit ∧
    ∀ ts ∈ storedTimes (checkRateLimit sm userId command limit windowMs now).2
        (rateKey userId command), now - ts < windowMs := by
  rw [checkRateLimit_result] at hallowed
  rw [storedTimes_checkRateLimit_same]
  by_cases hlen : (((storedTimes sm (rateKey userId command)).filter
      (fun ts => decide (now - ts < windowMs))).length : Int) ≥ limit
  · rw [if_pos hlen] at hallowed
    simp at hallowed
  · rw [if_neg hlen]
    refine ⟨?_, ?_⟩
    · simp only [List.length_append, List.length_singleton]
      push_cast
      omega
    · intro ts hts
      rcases List.mem_append.mp hts with h | h
      · simpa using (List.mem_filter.mp h).2
      · simp only [List.mem_singleton] at h
        subst h
        simpa using hW

/-! ### The retry loop -/

theorem opState_succ_left {σ α : Type} (operation : Operation σ α) (s : σ) (n : Nat) :
    opState operation s (n + 1) = opState operation (operation s).2 n := by
  induction n with
  | zero => rfl
  | succ n ih =>
    show (operation (opState operation s (n + 1))).2 = _
    rw [ih]
    rfl

theorem opOutcome_succ_left {σ α : Type} (operation : Operation σ α) (s : σ) (n : Nat) :
    opOutcome operation s (n + 1) = opOutcome operation (operation s).2 n := by
  unfold opOutcome
  rw [opState_succ_left]

/-- One iteration that fails with a retryable error before the last attempt. -/
theorem retryLoop_retry {σ α : Type} (fc : RetryConfig) (operation : Operation σ α)
    (random : Nat → ℚ) (remaining attempt : Nat) (lastError : Option JsError)
    (delays : List ℚ) (s : σ) (calls : Nat) (e : JsError)
    (hfail : (operation s).1 = .error e) (hretry : isRetryableError e fc = true)
    (hattempt : attempt ≠ fc.maxAttempts) :
    retryLoop fc operation random (remaining + 1) attempt lastError delays s calls
      = retryLoop fc operation random remaining (attempt + 1) (some e)
          (delays ++ [calculateDelay attempt fc (random delays.length)]) (operation s).2
          (calls + 1) := by
  rw [retryLoop]
  rcases hop : operation s with ⟨res, s1⟩
  rw [hop] at hfail
  simp only at hfail
  subst hfail
  simp [hattempt, hretry]

/-- One iteration that fails for good: on the last attempt, or with a non-retryable error. -/
theorem retryLoop_give_up {σ α : Type} (fc : RetryConfig) (operation : Operation σ α)
    (random : Nat → ℚ) (remaining attempt : Nat) (lastError : Option JsError)
    (delays : List ℚ) (s : σ) (calls : Nat) (e : JsError)
    (hfail : (operation s).1 = .error e)
    (hstop : attempt = fc.maxAttempts ∨ isRetryableError e fc = false) :
    retryLoop fc operation random (remaining + 1) attempt lastError delays s calls
      = { outcome := .error (some e), calls := calls + 1, delays := delays,
          state := (operation s).2 } := by
  rw [retryLoop]
  rcases hop : operation s with ⟨res, s1⟩
  rw [hop] at hfail
  simp only at hfail
  subst hfail
  simp only [hstop, if_true]

/-- One iteration that succeeds. -/
theorem retryLoop_ok {σ α : Type} (fc : RetryConfig) (operation : Operation σ α)
    (random : Nat → ℚ) (remaining attempt : Nat) (lastError : Option JsError)
    (delays : List ℚ) (s : σ) (calls : Nat) (v : α)
    (hok : (operation s).1 = .ok v) :
    retryLoop fc operation random (remaining + 1) attempt lastError delays s calls
      = { outcome := .ok v, calls := calls + 1, delays := delays,
          state := (operation s).2 } := by
  rw [retryLoop]
  rcases hop : operation s with ⟨res, s1⟩
  rw [hop] at hok
  simp only at hok
  subst hok
  rfl

/-- After `j` retryable failures and a success the loop returns the value; it has
invoked the operation `j + 1` times and awaited `j` delays. -/
theorem retryLoop_succeeds {σ α : Type} (fc : RetryConfig) (operation : Operation σ α)
    (random : Nat → ℚ) (v : α) (j : Nat) :
    ∀ (remaining attempt : Nat) (lastError : Option JsError) (delays : List ℚ) (s : σ)
      (calls : Nat),
      j < remaining → remaining + attempt = fc.maxAttempts + 1 →
      (∀ i < j, ∃ e, opOutcome operation s i = .error e ∧ isRetryableError e fc = true) →
      opOutcome operation s j = .ok v →
      (retryLoop fc operation random remaining attempt lastError delays s calls).outcome
          = .ok v ∧
      (retryLoop fc operation random remaining attempt lastError delays s calls).calls
          = calls + j + 1 ∧
      (retryLoop fc operation random remaining attempt lastError delays s calls).delays
          = delays ++ (List.range j).map
              (fun i => calculateDelay (attempt + i) fc (random (delays.length + i))) ∧
      (retryLoop fc operation random remaining attempt lastError delays s calls).state
          = opState operation s (j + 1) := by
  induction j with
  | zero =>
    intro remaining attempt lastError delays s calls hrem _ _ hok
    obtain ⟨r, rfl⟩ : ∃ r, remaining = r + 1 := ⟨remaining - 1, by omega⟩
    rw [retryLoop_ok fc operation random r attempt lastError delays s calls v hok]
    simp [opState]
  | succ j ih =>
    intro remaining attempt lastError delays s calls hrem hsum hfails hok
    obtain ⟨r, rfl⟩ : ∃ r, remaining = r + 1 := ⟨remaining - 1, by omega⟩
    obtain ⟨e, he, hretry⟩ := hfails 0 (by omega)
    rw [retryLoop_retry fc operation random r attempt lastError delays s calls e he hretry
      (by omega)]
    have hfails2 : ∀ i < j, ∃ e, opOutcome operation (operation s).2 i = .error e ∧
        isRetryableError e fc = true := by
      intro i hi
      rw [← opOutcome_succ_left]
      exact hfails (i + 1) (by omega)
    have hok2 : opOutcome operation (operation s).2 j = .ok v := by
      rw [← opOutcome_succ_left]
      exact hok
    obtain ⟨h1, h2, h3, h4⟩ := ih r (attempt + 1) (some e)
      (delays ++ [calculateDelay attempt fc (random delays.length)]) (operation s).2
      (calls + 1) (by omega) (by omega) hfails2 hok2
    refine ⟨h1, by rw [h2]; omega, ?_, by rw [h4, ← opState_succ_left]⟩
    rw [h3, List.range_succ_eq_map, List.map_cons, List.map_map, List.append_assoc]
    simp only [List.singleton_append, List.length_append, List.length_singleton, add_zero]
    congr 2
    apply List.map_congr_left
    intro i _
    have ha : attempt + 1 + i = attempt + (i + 1) := by omega
    have hd : delays.length + 1 + i = delays.length + (i + 1) := by omega
    simp only [Function.comp, Nat.succ_eq_add_one, ha, hd]

/-- Whatever the operation does, the loop invokes it at most `remaining` times more, and at
least once when `remaining` is positive; it awaits fewer delays than it makes calls. -/
theorem retryLoop_calls_bounds {σ α : Type} (fc : RetryConfig) (operation : Operation σ α)
    (random : Nat → ℚ) (remaining : Nat) :
    ∀ (attempt : Nat) (lastError : Option JsError) (delays : List ℚ) (s : σ) (calls : Nat),
      (0 < remaining →
        calls + 1 ≤ (retryLoop fc operation random remaining attempt lastError delays s
          calls).calls) ∧
      (retryLoop fc operation random remaining attempt lastError delays s calls).calls
        ≤ calls + remaining := by
  induction remaining with
  | zero =>
    intro attempt lastError delays s calls
    simp [retryLoop]
  | succ r ih =>
    intro attempt lastError delays s calls
    rcases hop : (operation s).1 with e | v
    · by_cases hstop : attempt = fc.maxAttempts ∨ isRetryableError e fc = false
      · rw [retryLoop_give_up fc operation random r attempt lastError delays s calls e hop
          hstop]
        simp
      · have hne : attempt ≠ fc.maxAttempts := fun h => hstop (Or.inl h)
        have hretry : isRetryableError e fc = true := by
          cases hb : isRetryableError e fc with
          | true => rfl
          | false => exact absurd (Or.inr hb) hstop
        rw [retryLoop_retry fc operation random r attempt lastError delays s calls e hop
          hretry hne]
        have h := ih (attempt + 1) (some e)
          (delays ++ [calculateDelay attempt fc (random delays.length)]) (operation s).2
          (calls + 1)
        constructor
        · intro _
          by_cases hr : 0 < r
          · have := h.1 hr
            omega
          · have hr0 : r = 0 := by omega
            subst hr0
            simp [retryLoop]
        · have := h.2
          omega
    · rw [retryLoop_ok fc operation random r attempt lastError delays s calls v hop]
      simp

/-- When every call fails with a retryable error the loop uses all its attempts: it stops
at `attempt = maxAttempts` with the error of that call, and has awaited one delay fewer
than it has made calls. -/
theorem retryLoop_exhausts {σ α : Type} (fc : RetryConfig) (operation : Operation σ α)
    (random : Nat → ℚ) (r : Nat) :
    ∀ (attempt : Nat) (lastError : Option JsError) (delays : List ℚ) (s : σ) (calls : Nat),
      (r + 1) + attempt = fc.maxAttempts + 1 →
      (∀ i < r + 1, ∃ e, opOutcome operation s i = .error e ∧ isRetryableError e fc = true) →
      (retryLoop fc operation random (r + 1) attempt lastError delays s calls).calls
          = calls + (r + 1) ∧
      (retryLoop fc operation random (r + 1) attempt lastError delays s calls).delays.length
          = delays.length + r ∧
      ∃ e, opOutcome operation s r = .error e ∧
        (retryLoop fc operation random (r + 1) attempt lastError delays s calls).outcome
          = .error (some e) := by
  induction r with
  | zero =>
    intro attempt lastError delays s calls hsum hfails
    obtain ⟨e, he, _⟩ := hfails 0 (by omega)
    rw [retryLoop_give_up fc operation random 0 attempt lastError delays s calls e he
      (Or.inl (by omega))]
    exact ⟨rfl, rfl, e, he, rfl⟩
  | succ r ih =>
    intro attempt lastError delays s calls hsum hfails
    obtain ⟨e, he, hretry⟩ := hfails 0 (by omega)
    rw [retryLoop_retry fc operation random (r + 1) attempt lastError delays s calls e he
      hretry (by omega)]
    have hfails2 : ∀ i < r + 1, ∃ e, opOutcome operation (operation s).2 i = .error e ∧
        isRetryableError e fc = true := by
      intro i hi
      rw [← opOutcome_succ_left]
      exact hfails (i + 1) (by omega)
    obtain ⟨h1, h2, e2, he2, h3⟩ := ih (attempt + 1) (some e)
      (delays ++ [calculateDelay attempt fc (random delays.length)]) (operation s).2
      (calls + 1) (by omega) hfails2
    refine ⟨by rw [h1]; omega, by rw [h2]; simp; omega, e2, ?_, h3⟩
    rw [opOutcome_succ_left]
    exact he2

/-! ### The digest -/

theorem leBytes_length (n x : Nat) : (leBytes n x).length = n := by
  induction n generalizing x with
  | zero => rfl
  | succ n ih => simp [leBytes, ih]

theorem leBytes_lt (n x : Nat) : ∀ b ∈ leBytes n x, b < 256 := by
  induction n generalizing x with
  | zero => simp [leBytes]
  | succ n ih =>
    intro b hb
    simp only [leBytes, List.mem_cons] at hb
    rcases hb with h | h
    · omega
    · exact ih _ b h

theorem md5_length (msg : List Nat) : (md5 msg).length = 16 := by
  simp [md5, leBytes_length]

theorem md5_lt (msg : List Nat) : ∀ b ∈ md5 msg, b < 256 := by
  intro b hb
  simp only [md5, List.mem_append] at hb
  rcases hb with ((h | h) | h) | h <;> exact leBytes_lt _ _ b h

theorem hexDigit_mem (d : Nat) (h : d < 16) : hexDigit d ∈ "0123456789abcdef".data := by
  interval_cases d <;> decide

theorem hexOfBytes_length (bytes : List Nat) : (hexOfBytes bytes).length = 2 * bytes.length := by
  unfold hexOfBytes
  rw [String.length]
  induction bytes with
  | nil => rfl
  | cons b rest ih =>
    simp only [List.flatMap_cons, List.length_append, List.length_cons, List.length_nil, ih]
    omega

theorem hexOfBytes_chars (bytes : List Nat) (hb : ∀ b ∈ bytes, b < 256) :
    ∀ c ∈ (hexOfBytes bytes).data, c ∈ "0123456789abcdef".data := by
  intro c hc
  unfold hexOfBytes at hc
  simp only [List.mem_flatMap, List.mem_cons, List.mem_singleton, List.not_mem_nil,
    or_false] at hc
  obtain ⟨b, hbm, h | h⟩ := hc
  · rw [h]
    exact hexDigit_mem _ (by have := hb b hbm; omega)
  · rw [h]
    exact hexDigit_mem _ (by omega)

set_option maxRecDepth 100000 in
/-- Test vectors of RFC 1321, section A.5. -/
theorem md5Hex_test_vectors :
    md5Hex "" = "d41d8cd98f00b204e9800998ecf8427e" ∧
    md5Hex "abc" = "900150983cd24fb0d6963f7d28e17f72" ∧
    md5Hex "message digest" = "f96b697d7cb7938d525a2f31aaf161d0" := by
  decide

/-- The text `JSON.stringify` gives for the value of the cache test. -/
theorem stringify_testData :
    JSON.stringify testData
      = "\x7b\"message\":\"Привіт з кешу!\",\"timestamp\":1700000000000\x7d" := by
  decide

/-! ### `JSON.parse` reads back what `JSON.stringify` writes -/

theorem hexValue_hexDigit (d : Nat) (h : d < 16) : hexValue (hexDigit d) = some d := by
  interval_cases d <;> rfl

/-- Reading back one escaped character. -/
theorem parseStringBody_quoteChar (c : Char) (tail : List Char) :
    parseStringBody (quoteChar c ++ tail)
      = (parseStringBody tail).map (fun r => (c :: r.1, r.2)) := by
  unfold quoteChar
  split_ifs with h1 h2 h3 h4 h5 h6 h7 h8
  · subst h1
    conv_lhs => unfold parseStringBody
    simp [unescape]
  · subst h2
    conv_lhs => unfold parseStringBody
    simp [unescape]
  · subst h3
    conv_lhs => unfold parseStringBody
    simp [unescape]
  · subst h4
    conv_lhs => unfold parseStringBody
    simp [unescape]
  · subst h5
    conv_lhs => unfold parseStringBody
    simp [unescape]
  · subst h6
    conv_lhs => unfold parseStringBody
    simp [unescape]
  · subst h7
    conv_lhs => unfold parseStringBody
    simp [unescape]
  · have hhi : c.toNat / 16 < 16 := by omega
    have hlo : c.toNat % 16 < 16 := by omega
    have h0 : hexValue '0' = some 0 := rfl
    have hval : ((0 * 16 + 0) * 16 + c.toNat / 16) * 16 + c.toNat % 16 = c.toNat := by omega
    have hns : ¬ (0xD800 ≤ c.toNat ∧ c.toNat < 0xE000) := by omega
    conv_lhs => unfold parseStringBody
    simp only [List.cons_append, List.nil_append, h0, hexValue_hexDigit _ hhi,
      hexValue_hexDigit _ hlo, hval, hns, if_false, Char.ofNat_toNat]
    simp
  · conv_lhs => unfold parseStringBody
    simp only [List.cons_append, List.nil_append, h1, h2, h8, if_false]

/-- Reading back a string literal after its opening quote. -/
theorem parseStringBody_quote (s rest : List Char) :
    parseStringBody (s.flatMap quoteChar ++ '"' :: rest) = some (s, rest) := by
  induction s with
  | nil =>
    conv_lhs => unfold parseStringBody
    simp
  | cons c s ih =>
    rw [List.flatMap_cons, List.append_assoc, parseStringBody_quoteChar, ih]
    rfl

theorem natDigitsRev_lt (fuel n : Nat) : ∀ d ∈ natDigitsRev fuel n, d < 10 := by
  induction fuel generalizing n with
  | zero => simp [natDigitsRev]
  | succ fuel ih =>
    intro d hd
    unfold natDigitsRev at hd
    split_ifs at hd with h
    · simp only [List.mem_singleton] at hd
      omega
    · rcases List.mem_cons.mp hd with h1 | h1
      · omega
      · exact ih _ d h1

theorem natOfDigits_snoc (ds : List Nat) (d : Nat) :
    natOfDigits (ds ++ [d]) = 10 * natOfDigits ds + d := by
  simp [natOfDigits, List.foldl_append]

theorem natOfDigits_natDigitsRev (fuel n : Nat) (h : n < fuel) :
    natOfDigits (natDigitsRev fuel n).reverse = n := by
  induction fuel generalizing n with
  | zero => omega
  | succ fuel ih =>
    unfold natDigitsRev
    split_ifs with hn
    · simp [natOfDigits]
    · rw [List.reverse_cons, natOfDigits_snoc, ih (n / 10) (by omega)]
      omega

/-- A positive number has a first digit other than zero. -/
theorem natDigitsRev_leading (fuel n : Nat) (h : n < fuel) (hpos : 1 ≤ n) :
    ∃ d ds, (natDigitsRev fuel n).reverse = d :: ds ∧ d ≠ 0 := by
  induction fuel generalizing n with
  | zero => omega
  | succ fuel ih =>
    unfold natDigitsRev
    split_ifs with hn
    · exact ⟨n, [], rfl, by omega⟩
    · obtain ⟨d, ds, hds, hd⟩ := ih (n / 10) (by omega) (by omega)
      exact ⟨d, ds ++ [n % 10], by rw [List.reverse_cons, hds]; rfl, hd⟩

theorem digitChar_spec (d : Nat) (h : d < 10) :
    ('0' ≤ digitChar d ∧ digitChar d ≤ '9') ∧ (digitChar d).toNat - 48 = d := by
  interval_cases d <;> exact ⟨by decide, rfl⟩

theorem parseDigits_digits (ds : List Nat) (rest : List Char) (hds : ∀ d ∈ ds, d < 10)
    (hrest : noDigitAhead rest) :
    parseDigits (ds.map digitChar ++ rest) = (ds, rest) := by
  induction ds with
  | nil =>
    cases rest with
    | nil => rfl
    | cons c tail =>
      have := hrest c tail rfl
      simp [parseDigits, this]
  | cons d ds ih =>
    have hd := digitChar_spec d (hds d (by simp))
    have ih2 := ih (fun x hx => hds x (by simp [hx]))
    rw [List.map_cons, List.cons_append, parseDigits, if_pos hd.1, ih2, hd.2]

theorem natToChars_head (n : Nat) :
    ∃ d tail, d < 10 ∧ natToChars n = digitChar d :: tail := by
  unfold natToChars
  have hne : natDigitsRev (n + 1) n ≠ [] := by
    unfold natDigitsRev
    split_ifs <;> simp
  rcases hrev : (natDigitsRev (n + 1) n).reverse with _ | ⟨d, ds⟩
  · exact absurd (List.reverse_eq_nil_iff.mp hrev) hne
  · refine ⟨d, ds.map digitChar, ?_, rfl⟩
    exact natDigitsRev_lt (n + 1) n d (List.mem_reverse.mp (by rw [hrev]; simp))

theorem natOfDigits_cons (d : Nat) (ds : List Nat) :
    natOfDigits (d :: ds) = d * 10 ^ ds.length + natOfDigits ds := by
  induction ds using List.reverseRecOn with
  | nil => simp [natOfDigits]
  | append_singleton ds x ih =>
    rw [← List.cons_append, natOfDigits_snoc, natOfDigits_snoc, ih, List.length_append,
      List.length_singleton, pow_succ]
    ring

theorem natOfDigits_append (a b : List Nat) :
    natOfDigits (a ++ b) = natOfDigits a * 10 ^ b.length + natOfDigits b := by
  induction b using List.reverseRecOn with
  | nil => simp [natOfDigits]
  | append_singleton b x ih =>
    rw [← List.append_assoc, natOfDigits_snoc, natOfDigits_snoc, ih, List.length_append,
      List.length_singleton, pow_succ]
    ring

theorem natOfDigits_zeros (z : Nat) : natOfDigits (List.replicate z 0) = 0 := by
  induction z with
  | zero => rfl
  | succ z ih =>
    rw [List.replicate_succ, natOfDigits_cons, ih]
    simp

/-- The digits of a natural number, most significant first. -/
theorem natToChars_digits (n : Nat) :
    ∃ d ds, natToChars n = (d :: ds).map digitChar ∧ (∀ x ∈ d :: ds, x < 10) ∧
      natOfDigits (d :: ds) = n ∧ (1 ≤ n → d ≠ 0) := by
  have hne : natDigitsRev (n + 1) n ≠ [] := by
    unfold natDigitsRev
    split_ifs <;> simp
  have hlt : ∀ x ∈ (natDigitsRev (n + 1) n).reverse, x < 10 := fun x hx =>
    natDigitsRev_lt (n + 1) n x (List.mem_reverse.mp hx)
  have hval := natOfDigits_natDigitsRev (n + 1) n (by omega)
  rcases hrev : (natDigitsRev (n + 1) n).reverse with _ | ⟨d, ds⟩
  · exact absurd (List.reverse_eq_nil_iff.mp hrev) hne
  · rw [hrev] at hlt hval
    refine ⟨d, ds, ?_, hlt, hval, ?_⟩
    · unfold natToChars
      rw [hrev]
    · intro hpos
      obtain ⟨d2, ds2, h2, hd2⟩ := natDigitsRev_leading (n + 1) n (by omega) hpos
      rw [hrev] at h2
      cases h2
      exact hd2

theorem noDigitAhead_of_head (c : Char) (tail : List Char) (h : ¬ ('0' ≤ c ∧ c ≤ '9')) :
    noDigitAhead (c :: tail) := by
  intro c2 tail2 heq
  cases heq
  exact h

theorem noDigitAhead_nil : noDigitAhead [] := by
  intro c tail h
  cases h

theorem noNumberAhead_nil : noNumberAhead [] := by
  intro c tail h
  cases h

theorem noNumberAhead_of_head (c : Char) (tail : List Char)
    (h : ¬ ('0' ≤ c ∧ c ≤ '9') ∧ c ≠ '.' ∧ c ≠ 'e' ∧ c ≠ 'E') :
    noNumberAhead (c :: tail) := by
  intro c2 tail2 heq
  cases heq
  exact h

theorem noDigitAhead_of_noNumberAhead (rest : List Char) (h : noNumberAhead rest) :
    noDigitAhead rest :=
  fun c tail heq => (h c tail heq).1

theorem parseFraction_absent (rest : List Char) (h : noNumberAhead rest) :
    parseFraction rest = some ([], rest) := by
  cases rest with
  | nil => rfl
  | cons c tail =>
    have hc := (h c tail rfl).2.1
    simp [parseFraction, hc]

theorem parseExponent_absent (rest : List Char) (h : noNumberAhead rest) :
    parseExponent rest = some (0, rest) := by
  cases rest with
  | nil => rfl
  | cons c tail =>
    have hc := h c tail rfl
    simp [parseExponent, hc.2.2.1, hc.2.2.2]

theorem parseFraction_point (r : List Char) (fs : List Nat) (r2 : List Char)
    (h : parseDigits r = (fs, r2)) (hne : fs ≠ []) :
    parseFraction ('.' :: r) = some (fs, r2) := by
  simp [parseFraction, h, hne]

theorem parseFraction_exponent_ahead (r : List Char) :
    parseFraction ('e' :: r) = some ([], 'e' :: r) := by
  simp [parseFraction]

theorem parseExponentDigits_natToChars (negative : Bool) (m : Nat) (rest : List Char)
    (hrest : noDigitAhead rest) :
    parseExponentDigits negative (natToChars m ++ rest) =
      some (if negative then -(m : Int) else (m : Int), rest) := by
  obtain ⟨d, ds, hchars, hlt, hval, _⟩ := natToChars_digits m
  have hp := parseDigits_digits (d :: ds) rest hlt hrest
  rw [← hchars] at hp
  unfold parseExponentDigits
  rw [hp]
  cases negative <;> simp [hval]

theorem parseExponent_plus (r : List Char) :
    parseExponent ('e' :: '+' :: r) = parseExponentDigits false r := by
  simp [parseExponent]

theorem parseExponent_minus (r : List Char) :
    parseExponent ('e' :: '-' :: r) = parseExponentDigits true r := by
  simp [parseExponent]

/-- What `parseUnsigned` answers, from what its three parts read. -/
theorem parseUnsigned_parts (negative : Bool) (input r1 r2 r3 : List Char) (d : Nat)
    (ds fs : List Nat) (x : Int) (hd : parseDigits input = (d :: ds, r1))
    (hlead : ¬ (d = 0 ∧ ds ≠ [])) (hf : parseFraction r1 = some (fs, r2))
    (hx : parseExponent r2 = some (x, r3)) :
    parseUnsigned negative input =
      some (JsNumber.ofDecimal negative (natOfDigits (d :: ds ++ fs))
        (x - (fs.length : Int)), r3) := by
  unfold parseUnsigned
  rw [hd]
  simp only [hlead, if_false, hf, hx]

theorem stripZeros_pow (s : Nat) (hs : s % 10 ≠ 0) :
    ∀ (z fuel : Nat) (e : Int), z ≤ fuel → stripZeros fuel (s * 10 ^ z) e = (s, e + z) := by
  intro z
  induction z with
  | zero =>
    intro fuel e _
    cases fuel with
    | zero => simp [stripZeros]
    | succ f => simp [stripZeros, hs]
  | succ z ih =>
    intro fuel e hz
    obtain ⟨f, rfl⟩ : ∃ f, fuel = f + 1 := ⟨fuel - 1, by omega⟩
    have hs0 : s ≠ 0 := fun h => hs (by rw [h])
    have h1 : s * 10 ^ (z + 1) % 10 = 0 := by
      rw [pow_succ, ← mul_assoc]
      exact Nat.mul_mod_left _ _
    have h2 : s * 10 ^ (z + 1) ≠ 0 := Nat.mul_ne_zero hs0 (by positivity)
    have h3 : s * 10 ^ (z + 1) / 10 = s * 10 ^ z := by
      rw [pow_succ, ← mul_assoc]
      exact Nat.mul_div_cancel _ (by norm_num)
    rw [stripZeros, if_pos ⟨h1, h2⟩, h3, ih f (e + 1) (by omega)]
    congr 1
    push_cast
    ring

/-- The number of a significand whose last digit is not zero, with zeros appended. -/
theorem ofDecimal_pow (negative : Bool) (high : Nat) (low : Fin 9) (z : Nat) (e : Int) :
    JsNumber.ofDecimal negative ((10 * high + low.val + 1) * 10 ^ z) e =
      .decimal negative high low (e + z) := by
  have hlow := low.isLt
  have hs : (10 * high + low.val + 1) % 10 ≠ 0 := by omega
  have hne : (10 * high + low.val + 1) * 10 ^ z ≠ 0 :=
    Nat.mul_ne_zero (by omega) (by positivity)
  have hz : z ≤ (10 * high + low.val + 1) * 10 ^ z := by
    have h1 : z < 10 ^ z := Nat.lt_pow_self (by norm_num) z
    have h2 : 10 ^ z ≤ (10 * high + low.val + 1) * 10 ^ z := Nat.le_mul_of_pos_left _ (by omega)
    omega
  unfold JsNumber.ofDecimal
  rw [if_neg hne, stripZeros_pow _ hs z _ e hz]
  have h1 : (10 * high + low.val + 1) / 10 = high := by omega
  have h2 : (10 * high + low.val + 1) % 10 - 1 = low.val := by omega
  simp only [h1, h2]
  congr 1
  apply Fin.ext
  simp [Fin.ofNat]

theorem ofDecimal_exact (negative : Bool) (high : Nat) (low : Fin 9) (e : Int) :
    JsNumber.ofDecimal negative (10 * high + low.val + 1) e = .decimal negative high low e := by
  have := ofDecimal_pow negative high low 0 e
  simpa using this

theorem replicate_zero_chars (z : Nat) :
    List.replicate z '0' = (List.replicate z 0).map digitChar := by
  rw [List.map_replicate]
  rfl

theorem mem_replicate_zero_lt (z : Nat) : ∀ x ∈ List.replicate z 0, x < 10 := by
  intro x hx
  rw [List.eq_of_mem_replicate hx]
  norm_num

theorem parseExponent_printed (expo : Int) (rest : List Char) (hrest : noDigitAhead rest) :
    parseExponent ('e' :: (if expo < 0 then '-' else '+') :: (natToChars expo.natAbs ++ rest))
      = some (expo, rest) := by
  by_cases h : expo < 0
  · rw [if_pos h, parseExponent_minus, parseExponentDigits_natToChars _ _ _ hrest]
    simp only [if_true]
    congr 2
    omega
  · rw [if_neg h, parseExponent_plus, parseExponentDigits_natToChars _ _ _ hrest]
    simp only [Bool.false_eq_true, if_false]
    congr 2
    omega

theorem ofDecimal_of_eq (negative : Bool) (high : Nat) (low : Fin 9) (M : Nat) (E e : Int)
    (hM : M = 10 * high + low.val + 1) (hE : E = e) :
    JsNumber.ofDecimal negative M E = .decimal negative high low e := by
  rw [hM, hE]
  exact ofDecimal_exact negative high low e

/-- Reading back a printed number other than zero, after its sign. -/
theorem parseUnsigned_decimalToChars (negative : Bool) (high : Nat) (low : Fin 9) (e : Int)
    (rest : List Char) (hrest : noNumberAhead rest) :
    parseUnsigned negative (decimalToChars (natToChars (10 * high + low.val + 1)) e ++ rest)
      = some (.decimal negative high low e, rest) := by
  obtain ⟨d, ds, hchars, hlt, hval, hd0⟩ := natToChars_digits (10 * high + low.val + 1)
  have hd : d ≠ 0 := hd0 (by omega)
  have hrestD := noDigitAhead_of_noNumberAhead rest hrest
  have hltds : ∀ x ∈ ds, x < 10 := fun x hx => hlt x (List.mem_cons_of_mem _ hx)
  have hk : (((d :: ds).map digitChar).length : Int) = (ds.length : Int) + 1 := by
    simp
  rw [hchars]
  unfold decimalToChars
  rw [hk]
  by_cases c1 : 0 ≤ e ∧ (ds.length : Int) + 1 + e ≤ 21
  · -- plain digits, zeros appended
    rw [if_pos c1]
    obtain ⟨z, hz⟩ : ∃ z : Nat, e = z := ⟨e.toNat, by omega⟩
    subst hz
    have htext : (d :: ds).map digitChar ++ List.replicate (z : Int).toNat '0' ++ rest =
        (d :: (ds ++ List.replicate z 0)).map digitChar ++ rest := by
      rw [Int.toNat_ofNat, replicate_zero_chars, ← List.map_append]
      rfl
    rw [htext]
    have hp := parseDigits_digits (d :: (ds ++ List.replicate z 0)) rest
      (by
        intro x hx
        rcases List.mem_cons.mp hx with h | h
        · exact hlt x (by rw [h]; exact List.mem_cons_self _ _)
        · rcases List.mem_append.mp h with h | h
          · exact hltds x h
          · exact mem_replicate_zero_lt z x h) hrestD
    rw [parseUnsigned_parts negative _ rest rest rest d (ds ++ List.replicate z 0) [] 0 hp
      (fun h => hd h.1) (parseFraction_absent rest hrest) (parseExponent_absent rest hrest)]
    congr 2
    have hM : natOfDigits (d :: (ds ++ List.replicate z 0) ++ []) =
        (10 * high + low.val + 1) * 10 ^ z := by
      rw [List.append_nil, ← List.cons_append, natOfDigits_append, natOfDigits_zeros, hval,
        List.length_replicate]
      ring
    rw [hM, ofDecimal_pow]
    congr 1
    simp
  · rw [if_neg c1]
    by_cases c2 : 0 < (ds.length : Int) + 1 + e ∧ (ds.length : Int) + 1 + e ≤ 21
    · -- a point inside the digits
      rw [if_pos c2]
      obtain ⟨q, hq⟩ : ∃ q : Nat, (ds.length : Int) + 1 + e = q + 1 :=
        ⟨((ds.length : Int) + e).toNat, by omega⟩
      have hqlen : q < ds.length := by omega
      have htext : List.take ((ds.length : Int) + 1 + e).toNat ((d :: ds).map digitChar) ++
            '.' :: List.drop ((ds.length : Int) + 1 + e).toNat ((d :: ds).map digitChar) ++ rest =
          (d :: ds.take q).map digitChar ++ '.' :: ((ds.drop q).map digitChar ++ rest) := by
        have : ((ds.length : Int) + 1 + e).toNat = q + 1 := by omega
        rw [this]
        simp [List.map_take, List.map_drop]
      rw [htext]
      have hp := parseDigits_digits (d :: ds.take q) ('.' :: ((ds.drop q).map digitChar ++ rest))
        (by
          intro x hx
          rcases List.mem_cons.mp hx with h | h
          · exact hlt x (by rw [h]; exact List.mem_cons_self _ _)
          · exact hltds x (List.mem_of_mem_take h))
        (noDigitAhead_of_head _ _ (by decide))
      have hfd := parseDigits_digits (ds.drop q) rest
        (fun x hx => hltds x (List.mem_of_mem_drop hx)) hrestD
      have hfne : ds.drop q ≠ [] := by
        intro h
        have := List.drop_eq_nil_iff.mp h
        omega
      rw [parseUnsigned_parts negative _ _ rest rest d (ds.take q) (ds.drop q) 0 hp
        (fun h => hd h.1) (parseFraction_point _ _ _ hfd hfne) (parseExponent_absent rest hrest)]
      congr 2
      apply ofDecimal_of_eq
      · rw [List.cons_append, List.take_append_drop, hval]
      · rw [List.length_drop]
        omega
    · rw [if_neg c2]
      by_cases c3 : -6 < (ds.length : Int) + 1 + e ∧ (ds.length : Int) + 1 + e ≤ 0
      · -- zeros between the point and the digits
        rw [if_pos c3]
        obtain ⟨m, hm⟩ : ∃ m : Nat, -((ds.length : Int) + 1 + e) = m :=
          ⟨(-((ds.length : Int) + 1 + e)).toNat, by omega⟩
        have htext : '0' :: '.' :: (List.replicate (-((ds.length : Int) + 1 + e)).toNat '0' ++
              (d :: ds).map digitChar) ++ rest =
            [0].map digitChar ++
              '.' :: ((List.replicate m 0 ++ d :: ds).map digitChar ++ rest) := by
          rw [hm, Int.toNat_ofNat, replicate_zero_chars, ← List.map_append]
          rfl
        rw [htext]
        have hp := parseDigits_digits [0]
          ('.' :: ((List.replicate m 0 ++ d :: ds).map digitChar ++ rest))
          (by simp) (noDigitAhead_of_head _ _ (by decide))
        have hfd := parseDigits_digits (List.replicate m 0 ++ d :: ds) rest
          (by
            intro x hx
            rcases List.mem_append.mp hx with h | h
            · exact mem_replicate_zero_lt m x h
            · exact hlt x h) hrestD
        rw [parseUnsigned_parts negative _ _ rest rest 0 [] (List.replicate m 0 ++ d :: ds) 0 hp
          (fun h => h.2 rfl) (parseFraction_point _ _ _ hfd (by simp))
          (parseExponent_absent rest hrest)]
        congr 2
        apply ofDecimal_of_eq
        · rw [List.singleton_append, natOfDigits_cons, natOfDigits_append, natOfDigits_zeros,
            hval]
          simp
        · rw [List.length_append, List.length_replicate, List.length_cons]
          push_cast
          omega
      · -- scientific notation
        rw [if_neg c3]
        have hexp := parseExponent_printed ((ds.length : Int) + 1 + e - 1) rest hrestD
        cases ds with
        | nil =>
          have htext : scientificDigits ([d].map digitChar) ++
                'e' :: (if ((([] : List Nat).length : Int) + 1 + e - 1) < 0 then '-' else '+') ::
                  natToChars ((([] : List Nat).length : Int) + 1 + e - 1).natAbs ++ rest =
              [d].map digitChar ++
                'e' :: (if ((([] : List Nat).length : Int) + 1 + e - 1) < 0 then '-' else '+') ::
                  (natToChars ((([] : List Nat).length : Int) + 1 + e - 1).natAbs ++ rest) := by
            simp [scientificDigits]
          rw [htext]
          have hp := parseDigits_digits [d]
            ('e' :: (if ((([] : List Nat).length : Int) + 1 + e - 1) < 0 then '-' else '+') ::
              (natToChars ((([] : List Nat).length : Int) + 1 + e - 1).natAbs ++ rest))
            hlt (noDigitAhead_of_head _ _ (by decide))
          rw [parseUnsigned_parts negative _ _ _ rest d [] [] _ hp (fun h => hd h.1)
            (parseFraction_exponent_ahead _) hexp]
          congr 2
          apply ofDecimal_of_eq
          · rw [List.append_nil, hval]
          · simp
        | cons x xs =>
          have htext : scientificDigits ((d :: x :: xs).map digitChar) ++
                'e' :: (if (((x :: xs).length : Int) + 1 + e - 1) < 0 then '-' else '+') ::
                  natToChars (((x :: xs).length : Int) + 1 + e - 1).natAbs ++ rest =
              [d].map digitChar ++ '.' :: ((x :: xs).map digitChar ++
                'e' :: (if (((x :: xs).length : Int) + 1 + e - 1) < 0 then '-' else '+') ::
                  (natToChars (((x :: xs).length : Int) + 1 + e - 1).natAbs ++ rest)) := by
            simp [scientificDigits]
          rw [htext]
          have hp := parseDigits_digits [d]
            ('.' :: ((x :: xs).map digitChar ++
              'e' :: (if (((x :: xs).length : Int) + 1 + e - 1) < 0 then '-' else '+') ::
                (natToChars (((x :: xs).length : Int) + 1 + e - 1).natAbs ++ rest)))
            (fun y hy => hlt y (by
              rw [List.mem_singleton.mp hy]
              exact List.mem_cons_self _ _))
            (noDigitAhead_of_head _ _ (by decide))
          have hfd := parseDigits_digits (x :: xs)
            ('e' :: (if (((x :: xs).length : Int) + 1 + e - 1) < 0 then '-' else '+') ::
              (natToChars (((x :: xs).length : Int) + 1 + e - 1).natAbs ++ rest))
            hltds (noDigitAhead_of_head _ _ (by decide))
          rw [parseUnsigned_parts negative _ _ _ rest d [] (x :: xs) _ hp (fun h => hd h.1)
            (parseFraction_point _ _ _ hfd (by simp)) hexp]
          congr 2
          apply ofDecimal_of_eq
          · rw [List.singleton_append, hval]
          · rw [List.length_cons]
            push_cast
            omega

theorem skipWhiteSpace_cons (c : Char) (tail : List Char) (h : isJsonWhiteSpace c = false) :
    skipWhiteSpace (c :: tail) = c :: tail := by
  rw [skipWhiteSpace]
  simp [h]

/-- A digit is none of the characters that open another kind of value, close a list or
are white space. -/
theorem digitChar_ne (d : Nat) (h : d < 10) :
    digitChar d ≠ '"' ∧ digitChar d ≠ '[' ∧ digitChar d ≠ '{' ∧ digitChar d ≠ '-' ∧
    digitChar d ≠ 'n' ∧ digitChar d ≠ 't' ∧ digitChar d ≠ 'f' ∧ digitChar d ≠ ']' ∧
    digitChar d ≠ '}' ∧ isJsonWhiteSpace (digitChar d) = false := by
  interval_cases d <;> decide

/-- A printed positive number starts with a digit. -/
theorem decimalToChars_head (d : Nat) (ds : List Nat) (e : Int) :
    ∃ x tail, (x = d ∨ x = 0) ∧
      decimalToChars ((d :: ds).map digitChar) e = digitChar x :: tail := by
  unfold decimalToChars
  by_cases c1 : 0 ≤ e ∧ (((d :: ds).map digitChar).length : Int) + e ≤ 21
  · rw [if_pos c1]
    exact ⟨d, _, Or.inl rfl, rfl⟩
  · rw [if_neg c1]
    by_cases c2 : 0 < (((d :: ds).map digitChar).length : Int) + e ∧
        (((d :: ds).map digitChar).length : Int) + e ≤ 21
    · rw [if_pos c2]
      obtain ⟨q, hq⟩ : ∃ q : Nat,
          ((((d :: ds).map digitChar).length : Int) + e).toNat = q + 1 :=
        ⟨((((d :: ds).map digitChar).length : Int) + e).toNat - 1, by omega⟩
      rw [hq]
      exact ⟨d, _, Or.inl rfl, rfl⟩
    · rw [if_neg c2]
      by_cases c3 : -6 < (((d :: ds).map digitChar).length : Int) + e ∧
          (((d :: ds).map digitChar).length : Int) + e ≤ 0
      · rw [if_pos c3]
        exact ⟨0, _, Or.inr rfl, rfl⟩
      · rw [if_neg c3]
        cases ds with
        | nil => exact ⟨d, _, Or.inl rfl, rfl⟩
        | cons y ys => exact ⟨d, _, Or.inl rfl, rfl⟩

/-- A printed number starts with a minus sign or a digit. -/
theorem toChars_head (x : JsNumber) :
    ∃ c tail, x.toChars = c :: tail ∧ (c = '-' ∨ ∃ d, d < 10 ∧ c = digitChar d) := by
  cases x with
  | zero => exact ⟨'0', [], rfl, Or.inr ⟨0, by norm_num, rfl⟩⟩
  | decimal negative high low e =>
    obtain ⟨d, ds, hchars, hlt, _, _⟩ := natToChars_digits (10 * high + low.val + 1)
    obtain ⟨y, tail, hy, htail⟩ := decimalToChars_head d ds e
    have hylt : y < 10 := by
      rcases hy with h | h
      · rw [h]
        exact hlt d (List.mem_cons_self _ _)
      · rw [h]
        norm_num
    cases negative
    · refine ⟨digitChar y, tail, ?_, Or.inr ⟨y, hylt, rfl⟩⟩
      simp only [JsNumber.toChars, Bool.false_eq_true, if_false]
      rw [hchars, htail]
    · exact ⟨'-', decimalToChars (natToChars (10 * high + low.val + 1)) e,
        by simp only [JsNumber.toChars, if_true], Or.inl rfl⟩

/-- Reading back a printed number. -/
theorem parseNumber_toChars (x : JsNumber) (rest : List Char) (hrest : noNumberAhead rest) :
    parseNumber (x.toChars ++ rest) = some (x, rest) := by
  cases x with
  | zero =>
    have hp := parseDigits_digits [0] rest (by simp) (noDigitAhead_of_noNumberAhead rest hrest)
    have h := parseUnsigned_parts false _ rest rest rest 0 [] [] 0 hp (fun h => h.2 rfl)
      (parseFraction_absent rest hrest) (parseExponent_absent rest hrest)
    show parseNumber ('0' :: rest) = _
    rw [parseNumber, if_neg (by decide)]
    exact h
  | decimal negative high low e =>
    have h := parseUnsigned_decimalToChars negative high low e rest hrest
    cases negative
    · obtain ⟨d, ds, hchars, hlt, _, _⟩ := natToChars_digits (10 * high + low.val + 1)
      obtain ⟨y, tail, hy, htail⟩ := decimalToChars_head d ds e
      have hylt : y < 10 := by
        rcases hy with h | h
        · rw [h]
          exact hlt d (List.mem_cons_self _ _)
        · rw [h]
          norm_num
      simp only [JsNumber.toChars, Bool.false_eq_true, if_false]
      rw [hchars, htail] at h ⊢
      rw [List.cons_append] at h ⊢
      rw [parseNumber, if_neg (digitChar_ne y hylt).2.2.2.1]
      exact h
    · simp only [JsNumber.toChars, if_true]
      rw [List.cons_append, parseNumber, if_pos rfl]
      exact h

/-- A serialized value is not empty and starts neither with a closing bracket nor with
white space. -/
theorem serializeJSON_head (v : Json) :
    ∃ c tail, serializeJSON v = c :: tail ∧ c ≠ ']' ∧ c ≠ '}' ∧
      isJsonWhiteSpace c = false := by
  cases v with
  | null => exact ⟨'n', ['u', 'l', 'l'], by rw [serializeJSON], by decide, by decide,
      by decide⟩
  | bool b =>
    cases b
    · exact ⟨'f', ['a', 'l', 's', 'e'], by simp [serializeJSON], by decide, by decide,
        by decide⟩
    · exact ⟨'t', ['r', 'u', 'e'], by simp [serializeJSON], by decide, by decide,
        by decide⟩
  | num x =>
    obtain ⟨c, tail, hc, hhead⟩ := toChars_head x
    refine ⟨c, tail, by rw [serializeJSON, hc], ?_⟩
    rcases hhead with h | ⟨d, hd, h⟩
    · rw [h]
      exact ⟨by decide, by decide, by decide⟩
    · rw [h]
      exact ⟨(digitChar_ne d hd).2.2.2.2.2.2.2.1, (digitChar_ne d hd).2.2.2.2.2.2.2.2.1,
        (digitChar_ne d hd).2.2.2.2.2.2.2.2.2⟩
  | str s =>
    exact ⟨'"', s.data.flatMap quoteChar ++ ['"'], by simp [serializeJSON, quoteJSONString],
      by decide, by decide, by decide⟩
  | arr items =>
    exact ⟨'[', serializeItems items ++ [']'], by simp [serializeJSON], by decide, by decide,
      by decide⟩
  | obj fields =>
    exact ⟨'{', serializeFields fields ++ ['}'], by simp [serializeJSON], by decide,
      by decide, by decide⟩

theorem parseValue_scalar_null (fuel : Nat) (rest : List Char) :
    parseValue (fuel + 1) ('n' :: 'u' :: 'l' :: 'l' :: rest) = some (Json.null, rest) := by
  conv_lhs => unfold parseValue
  rw [skipWhiteSpace_cons _ _ (by decide)]
  simp

theorem parseValue_scalar_true (fuel : Nat) (rest : List Char) :
    parseValue (fuel + 1) ('t' :: 'r' :: 'u' :: 'e' :: rest) = some (Json.bool true, rest) := by
  conv_lhs => unfold parseValue
  rw [skipWhiteSpace_cons _ _ (by decide)]
  simp

theorem parseValue_scalar_false (fuel : Nat) (rest : List Char) :
    parseValue (fuel + 1) ('f' :: 'a' :: 'l' :: 's' :: 'e' :: rest)
      = some (Json.bool false, rest) := by
  conv_lhs => unfold parseValue
  rw [skipWhiteSpace_cons _ _ (by decide)]
  simp

theorem parseValue_string (fuel : Nat) (s : String) (rest : List Char) :
    parseValue (fuel + 1) (quoteJSONString s ++ rest) = some (Json.str s, rest) := by
  have h : quoteJSONString s ++ rest = '"' :: (s.data.flatMap quoteChar ++ '"' :: rest) := by
    simp [quoteJSONString]
  rw [h]
  conv_lhs => unfold parseValue
  rw [skipWhiteSpace_cons _ _ (by decide)]
  simp [parseStringBody_quote]

theorem parseValue_num (fuel : Nat) (x : JsNumber) (rest : List Char)
    (hrest : noNumberAhead rest) :
    parseValue (fuel + 1) (x.toChars ++ rest) = some (Json.num x, rest) := by
  have hparse := parseNumber_toChars x rest hrest
  obtain ⟨c, tail, hc, hhead⟩ := toChars_head x
  rw [hc, List.cons_append] at hparse ⊢
  conv_lhs => unfold parseValue
  rcases hhead with h | ⟨d, hd, h⟩
  · subst h
    rw [skipWhiteSpace_cons _ _ (by decide)]
    simp [hparse]
  · have hne := digitChar_ne d hd
    rw [← h] at hne
    rw [skipWhiteSpace_cons _ _ hne.2.2.2.2.2.2.2.2.2]
    simp [hne.1, hne.2.1, hne.2.2.1, hne.2.2.2.2.1, hne.2.2.2.2.2.1,
      hne.2.2.2.2.2.2.1, hparse]

theorem parseValue_array_empty (fuel : Nat) (rest : List Char) :
    parseValue (fuel + 1) ('[' :: ']' :: rest) = some (Json.arr [], rest) := by
  conv_lhs => unfold parseValue
  rw [skipWhiteSpace_cons _ _ (by decide)]
  simp [skipWhiteSpace_cons _ _ (by decide : isJsonWhiteSpace ']' = false)]

theorem parseValue_object_empty (fuel : Nat) (rest : List Char) :
    parseValue (fuel + 1) ('{' :: '}' :: rest) = some (Json.obj [], rest) := by
  conv_lhs => unfold parseValue
  rw [skipWhiteSpace_cons _ _ (by decide)]
  simp [skipWhiteSpace_cons _ _ (by decide : isJsonWhiteSpace '}' = false)]

/-- An opening bracket followed by something other than the closing one starts the
element list. -/
theorem parseValue_array_items (fuel : Nat) (c : Char) (tail : List Char) (hc : c ≠ ']')
    (hws : isJsonWhiteSpace c = false) :
    parseValue (fuel + 1) ('[' :: c :: tail)
      = (parseItems fuel (c :: tail)).map (fun r => (Json.arr r.1, r.2)) := by
  conv_lhs => unfold parseValue
  rw [skipWhiteSpace_cons _ _ (by decide)]
  simp [skipWhiteSpace_cons _ _ hws, hc]

theorem parseValue_object_fields (fuel : Nat) (c : Char) (tail : List Char) (hc : c ≠ '}')
    (hws : isJsonWhiteSpace c = false) :
    parseValue (fuel + 1) ('{' :: c :: tail)
      = (parseFields fuel (c :: tail)).map (fun r => (Json.obj r.1, r.2)) := by
  conv_lhs => unfold parseValue
  rw [skipWhiteSpace_cons _ _ (by decide)]
  simp [skipWhiteSpace_cons _ _ hws, hc]

theorem parseItems_step_more (fuel : Nat) (input rest : List Char) (v : Json)
    (h : parseValue fuel input = some (v, ',' :: rest)) :
    parseItems (fuel + 1) input = (parseItems fuel rest).map (fun r => (v :: r.1, r.2)) := by
  conv_lhs => unfold parseItems
  simp [h, skipWhiteSpace_cons _ _ (by decide : isJsonWhiteSpace ',' = false)]

theorem parseItems_step_last (fuel : Nat) (input rest : List Char) (v : Json)
    (h : parseValue fuel input = some (v, ']' :: rest)) :
    parseItems (fuel + 1) input = some ([v], rest) := by
  conv_lhs => unfold parseItems
  simp [h, skipWhiteSpace_cons _ _ (by decide : isJsonWhiteSpace ']' = false)]

theorem parseFields_step_more (fuel : Nat) (k : String) (input rest : List Char) (v : Json)
    (h : parseValue fuel input = some (v, ',' :: rest)) :
    parseFields (fuel + 1) (quoteJSONString k ++ ':' :: input)
      = (parseFields fuel rest).map (fun r => ((k, v) :: r.1, r.2)) := by
  have hq : quoteJSONString k ++ ':' :: input
      = '"' :: (k.data.flatMap quoteChar ++ '"' :: ':' :: input) := by
    simp [quoteJSONString]
  rw [hq]
  conv_lhs => unfold parseFields
  rw [skipWhiteSpace_cons _ _ (by decide)]
  simp [parseStringBody_quote, h,
    skipWhiteSpace_cons _ _ (by decide : isJsonWhiteSpace ':' = false),
    skipWhiteSpace_cons _ _ (by decide : isJsonWhiteSpace ',' = false)]

theorem parseFields_step_last (fuel : Nat) (k : String) (input rest : List Char) (v : Json)
    (h : parseValue fuel input = some (v, '}' :: rest)) :
    parseFields (fuel + 1) (quoteJSONString k ++ ':' :: input) = some ([(k, v)], rest) := by
  have hq : quoteJSONString k ++ ':' :: input
      = '"' :: (k.data.flatMap quoteChar ++ '"' :: ':' :: input) := by
    simp [quoteJSONString]
  rw [hq]
  conv_lhs => unfold parseFields
  rw [skipWhiteSpace_cons _ _ (by decide)]
  simp [parseStringBody_quote, h,
    skipWhiteSpace_cons _ _ (by decide : isJsonWhiteSpace ':' = false),
    skipWhiteSpace_cons _ _ (by decide : isJsonWhiteSpace '}' = false)]

theorem serializeItems_cons_cons (x y : Json) (rest : List Json) :
    serializeItems (x :: y :: rest) = serializeJSON x ++ ',' :: serializeItems (y :: rest) := by
  rw [serializeItems]

theorem serializeItems_single (x : Json) : serializeItems [x] = serializeJSON x := by
  rw [serializeItems]

theorem serializeFields_cons_cons (k : String) (v : Json) (y : String × Json)
    (rest : List (String × Json)) :
    serializeFields ((k, v) :: y :: rest)
      = quoteJSONString k ++ ':' :: serializeJSON v ++ ',' :: serializeFields (y :: rest) := by
  rw [serializeFields]

theorem serializeFields_single (k : String) (v : Json) :
    serializeFields [(k, v)] = quoteJSONString k ++ ':' :: serializeJSON v := by
  rw [serializeFields]

theorem noNumberAhead_comma (tail : List Char) : noNumberAhead (',' :: tail) :=
  noNumberAhead_of_head _ _ (by decide)

theorem noNumberAhead_bracket (tail : List Char) : noNumberAhead (']' :: tail) :=
  noNumberAhead_of_head _ _ (by decide)

theorem noNumberAhead_brace (tail : List Char) : noNumberAhead ('}' :: tail) :=
  noNumberAhead_of_head _ _ (by decide)

mutual
/-- `parseValue` reads a serialized value back, given enough fuel. -/
theorem parseValue_serializeJSON : (v : Json) → (fuel : Nat) → (rest : List Char) →
    valueFuel v ≤ fuel → noNumberAhead rest →
    parseValue fuel (serializeJSON v ++ rest) = some (v, rest)
  | .null, fuel, rest, hf, _ => by
    obtain ⟨f, rfl⟩ : ∃ f, fuel = f + 1 := ⟨fuel - 1, by simp [valueFuel] at hf; omega⟩
    rw [serializeJSON]
    exact parseValue_scalar_null f rest
  | .bool b, fuel, rest, hf, _ => by
    obtain ⟨f, rfl⟩ : ∃ f, fuel = f + 1 := ⟨fuel - 1, by simp [valueFuel] at hf; omega⟩
    rw [serializeJSON]
    cases b
    · exact parseValue_scalar_false f rest
    · exact parseValue_scalar_true f rest
  | .num x, fuel, rest, hf, hrest => by
    obtain ⟨f, rfl⟩ : ∃ f, fuel = f + 1 := ⟨fuel - 1, by simp [valueFuel] at hf; omega⟩
    rw [serializeJSON]
    exact parseValue_num f x rest hrest
  | .str s, fuel, rest, hf, _ => by
    obtain ⟨f, rfl⟩ : ∃ f, fuel = f + 1 := ⟨fuel - 1, by simp [valueFuel] at hf; omega⟩
    rw [serializeJSON]
    exact parseValue_string f s rest
  | .arr items, fuel, rest, hf, _ => by
    rw [valueFuel] at hf
    obtain ⟨f, rfl⟩ : ∃ f, fuel = f + 1 := ⟨fuel - 1, by omega⟩
    rw [serializeJSON]
    by_cases hnil : items = []
    · subst hnil
      exact parseValue_array_empty f rest
    · have hitems := parseItems_serializeItems items f rest hnil (by omega)
      obtain ⟨x, xs, rfl⟩ := List.exists_cons_of_ne_nil hnil
      obtain ⟨c, tail, hc, hne, _, hws⟩ : ∃ c tail, serializeItems (x :: xs) = c :: tail ∧
          c ≠ ']' ∧ c ≠ '}' ∧ isJsonWhiteSpace c = false := by
        obtain ⟨c, tail, hc, h1, h2, h3⟩ := serializeJSON_head x
        cases xs with
        | nil => exact ⟨c, tail, by rw [serializeItems_single, hc], h1, h2, h3⟩
        | cons y ys =>
          exact ⟨c, tail ++ ',' :: serializeItems (y :: ys),
            by rw [serializeItems_cons_cons, hc]; rfl, h1, h2, h3⟩
      rw [hc] at hitems ⊢
      simp only [List.cons_append, List.append_assoc, List.nil_append] at hitems ⊢
      rw [parseValue_array_items f c _ hne hws, hitems]
      rfl
  | .obj fields, fuel, rest, hf, _ => by
    rw [valueFuel] at hf
    obtain ⟨f, rfl⟩ : ∃ f, fuel = f + 1 := ⟨fuel - 1, by omega⟩
    rw [serializeJSON]
    by_cases hnil : fields = []
    · subst hnil
      exact parseValue_object_empty f rest
    · have hfields := parseFields_serializeFields fields f rest hnil (by omega)
      obtain ⟨⟨k, v⟩, xs, rfl⟩ := List.exists_cons_of_ne_nil hnil
      obtain ⟨tail, hc⟩ : ∃ tail, serializeFields ((k, v) :: xs) = '"' :: tail := by
        cases xs with
        | nil => exact ⟨_, by rw [serializeFields_single]; rfl⟩
        | cons y ys => exact ⟨_, by rw [serializeFields_cons_cons]; rfl⟩
      rw [hc] at hfields ⊢
      simp only [List.cons_append, List.append_assoc, List.nil_append] at hfields ⊢
      rw [parseValue_object_fields f '"' _ (by decide) (by decide), hfields]
      rfl
/-- `parseItems` reads the elements of a non-empty array back. -/
theorem parseItems_serializeItems : (items : List Json) → (fuel : Nat) → (rest : List Char) →
    items ≠ [] → itemsFuel items ≤ fuel →
    parseItems fuel (serializeItems items ++ ']' :: rest) = some (items, rest)
  | [], _, _, hne, _ => absurd rfl hne
  | x :: xs, fuel, rest, _, hf => by
    rw [itemsFuel] at hf
    obtain ⟨f, rfl⟩ : ∃ f, fuel = f + 1 := ⟨fuel - 1, by omega⟩
    by_cases hnil : xs = []
    · subst hnil
      rw [serializeItems_single]
      exact parseItems_step_last f _ rest x
        (parseValue_serializeJSON x f (']' :: rest) (by omega) (noNumberAhead_bracket rest))
    · have htail := parseItems_serializeItems xs f rest hnil (by omega)
      obtain ⟨y, ys, rfl⟩ := List.exists_cons_of_ne_nil hnil
      rw [serializeItems_cons_cons, List.append_assoc, List.cons_append]
      rw [parseItems_step_more f _ _ x
        (parseValue_serializeJSON x f _ (by omega) (noNumberAhead_comma _)), htail]
      rfl
/-- `parseFields` reads the properties of a non-empty object back. -/
theorem parseFields_serializeFields : (fields : List (String × Json)) → (fuel : Nat) →
    (rest : List Char) → fields ≠ [] → fieldsFuel fields ≤ fuel →
    parseFields fuel (serializeFields fields ++ '}' :: rest) = some (fields, rest)
  | [], _, _, hne, _ => absurd rfl hne
  | (k, v) :: xs, fuel, rest, _, hf => by
    rw [fieldsFuel] at hf
    obtain ⟨f, rfl⟩ : ∃ f, fuel = f + 1 := ⟨fuel - 1, by omega⟩
    by_cases hnil : xs = []
    · subst hnil
      rw [serializeFields_single, List.append_assoc, List.cons_append]
      exact parseFields_step_last f k _ rest v
        (parseValue_serializeJSON v f ('}' :: rest) (by omega) (noNumberAhead_brace rest))
    · have htail := parseFields_serializeFields xs f rest hnil (by omega)
      obtain ⟨y, ys, rfl⟩ := List.exists_cons_of_ne_nil hnil
      rw [serializeFields_cons_cons]
      simp only [List.append_assoc, List.cons_append]
      rw [parseFields_step_more f k _ _ v
        (parseValue_serializeJSON v f _ (by omega) (noNumberAhead_comma _)), htail]
      rfl
end


mutual
theorem valueFuel_le_length : (v : Json) → valueFuel v ≤ (serializeJSON v).length
  | .null => by simp [valueFuel, serializeJSON]
  | .bool b => by cases b <;> simp [valueFuel, serializeJSON]
  | .num x => by
    obtain ⟨c, tail, hc, _, _⟩ := serializeJSON_head (.num x)
    rw [hc]
    simp [valueFuel]
  | .str s => by simp [valueFuel, serializeJSON, quoteJSONString]
  | .arr items => by
    have := itemsFuel_le_length items
    rw [valueFuel, serializeJSON]
    simp only [List.length_cons, List.length_append, List.length_nil]
    omega
  | .obj fields => by
    have := fieldsFuel_le_length fields
    rw [valueFuel, serializeJSON]
    simp only [List.length_cons, List.length_append, List.length_nil]
    omega
theorem itemsFuel_le_length : (items : List Json) →
    itemsFuel items ≤ (serializeItems items).length + 1
  | [] => by simp [itemsFuel]
  | x :: xs => by
    have hx := valueFuel_le_length x
    have hxs := itemsFuel_le_length xs
    rw [itemsFuel]
    cases xs with
    | nil =>
      rw [serializeItems_single]
      simp only [itemsFuel] at hxs ⊢
      omega
    | cons y ys =>
      rw [serializeItems_cons_cons]
      simp only [List.length_cons, List.length_append]
      omega
theorem fieldsFuel_le_length : (fields : List (String × Json)) →
    fieldsFuel fields ≤ (serializeFields fields).length + 1
  | [] => by simp [fieldsFuel]
  | (k, v) :: xs => by
    have hv := valueFuel_le_length v
    have hxs := fieldsFuel_le_length xs
    rw [fieldsFuel]
    cases xs with
    | nil =>
      rw [serializeFields_single]
      simp only [fieldsFuel, List.length_cons, List.length_append] at hxs ⊢
      omega
    | cons y ys =>
      rw [serializeFields_cons_cons]
      simp only [List.length_cons, List.length_append]
      omega
end

/-- Round trip of the JSON codec: parsing the text of a value gives the value back. -/
theorem JSON_parse_stringify (v : Json) : JSON.parse (JSON.stringify v) = .ok v := by
  unfold JSON.parse JSON.stringify
  have h := parseValue_serializeJSON v ((serializeJSON v).length + 1) []
    (by have := valueFuel_le_length v; omega) noNumberAhead_nil
  rw [List.append_nil] at h
  simp only [h]
  rfl

/-- The text of a value is never the empty string. -/
theorem JSON_stringify_ne_empty (v : Json) : JSON.stringify v ≠ "" := by
  obtain ⟨c, tail, hc, _, _⟩ := serializeJSON_head v
  intro h
  have : (JSON.stringify v).data = "".data := by rw [h]
  simp [JSON.stringify, hc] at this

/-- How numbers are printed and what `JSON.parse` reads: plain digits up to 21 digits
before the point, scientific notation from `1e+21` on and below `0.000001`; white space
between the tokens; a leading zero, a missing digit and a leading plus sign are refused. -/
theorem JSON_number_examples :
    JSON.stringify (.num (.ofInt 1700000000000)) = "1700000000000" ∧
    JSON.stringify (.num (.ofDecimal false 15 (-1))) = "1.5" ∧
    JSON.stringify (.num (.ofDecimal false 1 20)) = "100000000000000000000" ∧
    JSON.stringify (.num (.ofDecimal false 1 21)) = "1e+21" ∧
    JSON.stringify (.num (.ofDecimal false 1 (-6))) = "0.000001" ∧
    JSON.stringify (.num (.ofDecimal true 1 (-7))) = "-1e-7" ∧
    JSON.stringify (.num (.ofDecimal false 12345 (-12))) = "1.2345e-8" ∧
    JSON.parse "1.5" = .ok (.num (.ofDecimal false 15 (-1))) ∧
    JSON.parse "-0.25e2" = .ok (.num (.ofInt (-25))) ∧
    JSON.parse " [1.5 , 1E3,\n\x7b \"a\" : 10 \x7d ] " =
      .ok (.arr [.num (.ofDecimal false 15 (-1)), .num (.ofInt 1000),
        .obj [("a", .num (.ofInt 10))]]) ∧
    JSON.parse "01" = .error jsonSyntaxError ∧
    JSON.parse "1." = .error jsonSyntaxError ∧
    JSON.parse ".5" = .error jsonSyntaxError ∧
    JSON.parse "+1" = .error jsonSyntaxError ∧
    JSON.parse "1 2" = .error jsonSyntaxError := by
  refine ⟨by decide, by decide, by decide, by decide, by decide, by decide, by decide,
    rfl, rfl, rfl, rfl, rfl, rfl, rfl, rfl⟩

/-- C1: a blocked identity is denied with reason `user_blocked` and role `null`,
for every role table, block-list and required permission. -/
theorem c1_blocked_user_denied (sm : SecurityManager) (userId requiredPermission : String)
    (h : userId ∈ sm.blockedUsers) :
    checkUserAccess sm userId requiredPermission
      = { allowed := false, reason := "user_blocked", role := none } := by
  simp [checkUserAccess, h]

/-- C1 witness: `@root:x` is configured as admin and is in the block-list. -/
theorem c1_blocked_user_denied_witness :
    "@root:x" ∈ ({ SecurityManager.fresh 5000 with
        allowedUsers := [("@root:x", "admin")], blockedUsers := ["@spam:x", "@root:x"] }
        : SecurityManager).blockedUsers ∧
    checkUserAccess { SecurityManager.fresh 5000 with
        allowedUsers := [("@root:x", "admin")], blockedUsers := ["@spam:x", "@root:x"] }
        "@root:x" "help"
      = { allowed := false, reason := "user_blocked", role := none } :=
  ⟨by decide, c1_blocked_user_denied _ _ _ (by decide)⟩

/-- C2: admission law of `checkRateLimit`. On a key whose calls all use limit `L ≥ 1`
and window `W` and see a non-decreasing clock, starting with nothing recorded for the
key and with no sweep in between, the call at `c.now` is let through iff fewer than `L`
of the calls granted before on that key have a timestamp `t` with `c.now - t < W`;
a granted call stores `now` after those timestamps and reports
`remaining = L - (count + 1)`; a denied call reports `remaining = 0` and
`resetTime = oldest + W`, `oldest` being the first and least of those timestamps.
Scenario: with `L = 3`, `W = 60000`, of calls inside one window the `i`-th (from 0)
is let through iff `i < 3`. -/
theorem c2_rate_limit_admission_law (sm0 : SecurityManager) (history : List RateCall)
    (c : RateCall) (L W : Int) (hL : 1 ≤ L) (h0 : storedTimes sm0 c.key = [])
    (hsame : ∀ d ∈ history ++ [c], d.key = c.key → d.limit = L ∧ d.windowMs = W)
    (hmono : (callTimes (history ++ [c]) c.key).Pairwise (fun a b => a ≤ b)) :
    (((checkRateLimit (runRateCalls sm0 history).sm c.userId c.command c.limit c.windowMs
        c.now).1.allowed = true ↔
      ((((grantedTimes (runRateCalls sm0 history).log c.key).filter
          (fun t => decide (c.now - t < W))).length : Int) < L)) ∧
    ((checkRateLimit (runRateCalls sm0 history).sm c.userId c.command c.limit c.windowMs
        c.now).1.allowed = true →
      (checkRateLimit (runRateCalls sm0 history).sm c.userId c.command c.limit c.windowMs
        c.now).1.remaining =
          L - ((((grantedTimes (runRateCalls sm0 history).log c.key).filter
            (fun t => decide (c.now - t < W))).length : Int) + 1) ∧
      storedTimes (checkRateLimit (runRateCalls sm0 history).sm c.userId c.command c.limit
        c.windowMs c.now).2 c.key =
          (grantedTimes (runRateCalls sm0 history).log c.key).filter
            (fun t => decide (c.now - t < W)) ++ [c.now]) ∧
    ((checkRateLimit (runRateCalls sm0 history).sm c.userId c.command c.limit c.windowMs
        c.now).1.allowed = false →
      (checkRateLimit (runRateCalls sm0 history).sm c.userId c.command c.limit c.windowMs
        c.now).1.remaining = 0 ∧
      ∃ oldest : Int,
        ((grantedTimes (runRateCalls sm0 history).log c.key).filter
            (fun t => decide (c.now - t < W))).head? = some oldest ∧
        (∀ t ∈ (grantedTimes (runRateCalls sm0 history).log c.key).filter
            (fun t => decide (c.now - t < W)), oldest ≤ t) ∧
        (checkRateLimit (runRateCalls sm0 history).sm c.userId c.command c.limit c.windowMs
          c.now).1.resetTime = some (oldest + W))) ∧
    (∀ (sm1 : SecurityManager) (userId command : String) (times : List Int),
      storedTimes sm1 (rateKey userId command) = [] →
      times.Pairwise (fun a b => a ≤ b) →
      (∀ a ∈ times, ∀ b ∈ times, b - a < 60000) →
      (runRateCalls sm1 (rapidCalls userId command times)).log.map (fun e => e.2.allowed)
        = (List.range times.length).map (fun i => decide (i < 3))) :=
  ⟨rateLimit_window_law sm0 history c L W hL h0 hsame hmono,
   fun sm1 userId command times h1 hs hr =>
     (rapidCalls_first_three sm1 userId command times h1 hs hr).1⟩

/-- C2 witness: the loop of `testSecurity`, three calls and then a fourth, on a fresh
manager; the fourth call is denied and five rapid calls give three grants. -/
theorem c2_rate_limit_admission_law_witness :
    ((checkRateLimit (runRateCalls (SecurityManager.fresh 5000)
        (rapidCalls "test_user" "test_command" [1000, 1001, 1002])).sm
        "test_user" "test_command" 3 60000 1003).1.allowed = true ↔
      ((((grantedTimes (runRateCalls (SecurityManager.fresh 5000)
          (rapidCalls "test_user" "test_command" [1000, 1001, 1002])).log
          (rateKey "test_user" "test_command")).filter
          (fun t => decide ((1003 : Int) - t < 60000))).length : Int) < 3)) ∧
    (runRateCalls (SecurityManager.fresh 5000)
        (rapidCalls "test_user" "test_command" [1000, 1000, 1001, 1002, 1003])).log.map
          (fun e => e.2.allowed) = [true, true, true, false, false] :=
  ⟨(c2_rate_limit_admission_law (SecurityManager.fresh 5000)
      (rapidCalls "test_user" "test_command" [1000, 1001, 1002])
      (rapidCall "test_user" "test_command" 1003) 3 60000 (by decide) (by decide)
      (by decide) (by decide)).1.1,
   by decide⟩

/-- C3 as stated, for every limit and window, fails at the edges. With window 0 a call
is granted and stores its own timestamp `now`, for which `now - now < 0` is false; with
limit -1 nothing is granted, and the count 0 of granted calls exceeds the limit. -/
theorem c3_fails_for_zero_window_or_negative_limit :
    ((checkRateLimit (SecurityManager.fresh 5000) "u" "ask" 1 0 1000).1.allowed = true ∧
      ¬ (∀ ts ∈ storedTimes (checkRateLimit (SecurityManager.fresh 5000) "u" "ask" 1 0
          1000).2 (rateKey "u" "ask"), (1000 : Int) - ts < 0)) ∧
    ¬ ((((grantedTimes (runRateCalls (SecurityManager.fresh 5000)
          [⟨"u", "ask", -1, 60000, 1000⟩]).log (rateKey "u" "ask")).filter
          (fun ts => decide ((1000 : Int) - 60000 < ts ∧ ts ≤ 1000))).length : Int) ≤ -1) := by
  decide

/-- C3 (amended): sliding-window guarantee. For a sequence of `checkRateLimit` calls in
which the calls on `key` all use the limit `L ≥ 0` and the window `W > 0` and see a
non-decreasing clock, starting with nothing recorded for the key and with no sweep in
between: for every instant `t` at most `L` granted calls of the key have their timestamp
in `(t - W, t]`; and after every granted call of the key the stored list has length
`≤ L` and holds only timestamps `ts` with `now - ts < W`. -/
theorem c3_sliding_window_guarantee (sm0 : SecurityManager) (key : String) (L W : Int)
    (calls : List RateCall) (hL : 0 ≤ L) (hW : 0 < W) (h0 : storedTimes sm0 key = [])
    (hsame : ∀ c ∈ calls, c.key = key → c.limit = L ∧ c.windowMs = W)
    (hmono : (callTimes calls key).Pairwise (fun a b => a ≤ b)) :
    (∀ t : Int,
      (((grantedTimes (runRateCalls sm0 calls).log key).filter
          (fun ts => decide (t - W < ts ∧ ts ≤ t))).length : Int) ≤ L) ∧
    (∀ (before after : List RateCall) (c : RateCall),
      calls = before ++ c :: after → c.key = key →
      (checkRateLimit (runRateCalls sm0 before).sm c.userId c.command c.limit c.windowMs
        c.now).1.allowed = true →
      ((storedTimes (runRateCalls sm0 (before ++ [c])).sm key).length : Int) ≤ L ∧
      ∀ ts ∈ storedTimes (runRateCalls sm0 (before ++ [c])).sm key, c.now - ts < W) := by
  refine ⟨granted_window_count_le sm0 key L W hL h0 calls hsame hmono, ?_⟩
  intro before after c hcalls hk hallowed
  obtain ⟨hcL, hcW⟩ := hsame c (by rw [hcalls]; simp) hk
  rw [runRateCalls_snoc]
  unfold rateStep
  have hkey : rateKey c.userId c.command = key := hk
  have h := stored_after_grant (runRateCalls sm0 before).sm c.userId c.command c.limit
    c.windowMs c.now (by rw [hcW]; exact hW) hallowed
  rw [hkey, hcL, hcW] at h
  simpa only [hcL, hcW] using h

/-- C3 witness: limit 2, window 100, calls at 0, 10, 20 (denied), 100 and 105. -/
theorem c3_sliding_window_guarantee_witness :
    (∀ t : Int,
      (((grantedTimes (runRateCalls (SecurityManager.fresh 5000)
          [⟨"u", "ask", 2, 100, 0⟩, ⟨"u", "ask", 2, 100, 10⟩, ⟨"u", "ask", 2, 100, 20⟩,
           ⟨"v", "ask", 1, 50, 30⟩, ⟨"u", "ask", 2, 100, 100⟩,
           ⟨"u", "ask", 2, 100, 105⟩]).log "u:ask").filter
          (fun ts => decide (t - 100 < ts ∧ ts ≤ t))).length : Int) ≤ 2) ∧
    grantedTimes (runRateCalls (SecurityManager.fresh 5000)
          [⟨"u", "ask", 2, 100, 0⟩, ⟨"u", "ask", 2, 100, 10⟩, ⟨"u", "ask", 2, 100, 20⟩,
           ⟨"v", "ask", 1, 50, 30⟩, ⟨"u", "ask", 2, 100, 100⟩,
           ⟨"u", "ask", 2, 100, 105⟩]).log "u:ask" = [0, 10, 100] :=
  ⟨(c3_sliding_window_guarantee (SecurityManager.fresh 5000) "u:ask" 2 100
      [⟨"u", "ask", 2, 100, 0⟩, ⟨"u", "ask", 2, 100, 10⟩, ⟨"u", "ask", 2, 100, 20⟩,
       ⟨"v", "ask", 1, 50, 30⟩, ⟨"u", "ask", 2, 100, 100⟩, ⟨"u", "ask", 2, 100, 105⟩]
      (by decide) (by decide) (by decide) (by decide) (by decide)).1,
   by decide⟩

/-- C4: if the first `k < maxAttempts` invocations fail, each with an error that
`isRetryableError` classifies as retryable, and invocation `k + 1` returns `v`, then
`withRetry` resolves to `v`, has invoked the operation exactly `k + 1` times and has
awaited exactly `k` delays, the delays `calculateDelay` gives for attempts `1 .. k`. -/
theorem c4_retry_until_success {σ α : Type} (operation : Operation σ α)
    (config : RetryOptions) (random : Nat → ℚ) (s : σ) (k : Nat) (v : α)
    (hk : k < (mergeConfig DEFAULT_CONFIG config).maxAttempts)
    (hfails : ∀ i < k, ∃ e, opOutcome operation s i = .error e ∧
      isRetryableError e (mergeConfig DEFAULT_CONFIG config) = true)
    (hok : opOutcome operation s k = .ok v) :
    (withRetry operation config random s).outcome = .ok v ∧
    (withRetry operation config random s).calls = k + 1 ∧
    (withRetry operation config random s).delays.length = k ∧
    (withRetry operation config random s).delays = (List.range k).map
      (fun i => calculateDelay (i + 1) (mergeConfig DEFAULT_CONFIG config) (random i)) := by
  obtain ⟨h1, h2, h3, _⟩ := retryLoop_succeeds (mergeConfig DEFAULT_CONFIG config) operation
    random v k (mergeConfig DEFAULT_CONFIG config).maxAttempts 1 none [] s 0 hk
    (by omega) hfails hok
  have hd : (withRetry operation config random s).delays = (List.range k).map
      (fun i => calculateDelay (i + 1) (mergeConfig DEFAULT_CONFIG config) (random i)) := by
    unfold withRetry
    rw [h3]
    simp only [List.nil_append, List.length_nil, Nat.zero_add]
    apply List.map_congr_left
    intro i _
    rw [Nat.add_comm 1 i]
  refine ⟨h1, ?_, ?_, hd⟩
  · unfold withRetry
    rw [h2]
    omega
  · rw [hd]
    simp

/-- C4 witness: the operation of the self-test with a connection error in English, two
failures and then a value, under `{maxAttempts: 3, baseDelay: 100}`. -/
theorem c4_retry_until_success_witness :
    (withRetry (failingOperation 2 (errorWithMessage "Connection lost") "done")
      { maxAttempts := some 3, baseDelay := some 100 } (fun _ => 1 / 2) 0).outcome
        = .ok "done" ∧
    (withRetry (failingOperation 2 (errorWithMessage "Connection lost") "done")
      { maxAttempts := some 3, baseDelay := some 100 } (fun _ => 1 / 2) 0).calls = 2 + 1 ∧
    (withRetry (failingOperation 2 (errorWithMessage "Connection lost") "done")
      { maxAttempts := some 3, baseDelay := some 100 } (fun _ => 1 / 2) 0).delays.length
        = 2 :=
  have h := c4_retry_until_success
    (failingOperation 2 (errorWithMessage "Connection lost") "done")
    { maxAttempts := some 3, baseDelay := some 100 } (fun _ => 1 / 2) 0 2 "done"
    (by decide)
    (by
      intro i hi
      refine ⟨errorWithMessage "Connection lost", ?_, by decide⟩
      interval_cases i <;> rfl)
    rfl
  ⟨h.1, h.2.1, h.2.2.1⟩

/-- C5: with `maxAttempts ≥ 1`, when the first invocation fails with an error classified
as non-retryable, `withRetry` has invoked the operation exactly once, has awaited no
delay, and rejects with that very error. -/
theorem c5_non_retryable_fails_at_once {σ α : Type} (operation : Operation σ α)
    (config : RetryOptions) (random : Nat → ℚ) (s : σ) (e : JsError)
    (hmax : 1 ≤ (mergeConfig DEFAULT_CONFIG config).maxAttempts)
    (hfail : opOutcome operation s 0 = .error e)
    (hnon : isRetryableError e (mergeConfig DEFAULT_CONFIG config) = false) :
    (withRetry operation config random s).outcome = .error (some e) ∧
    (withRetry operation config random s).calls = 1 ∧
    (withRetry operation config random s).delays = [] := by
  obtain ⟨r, hr⟩ : ∃ r, (mergeConfig DEFAULT_CONFIG config).maxAttempts = r + 1 :=
    ⟨(mergeConfig DEFAULT_CONFIG config).maxAttempts - 1, by omega⟩
  have hloop := retryLoop_give_up (mergeConfig DEFAULT_CONFIG config) operation random r 1
    none [] s 0 e hfail (Or.inr hnon)
  rw [← hr] at hloop
  unfold withRetry
  rw [hloop]
  exact ⟨rfl, rfl, rfl⟩

/-- C5 witness: an operation that always throws a validation error (status 400). -/
theorem c5_non_retryable_fails_at_once_witness :
    (withRetry (failingOperation 5 badRequestError "done") {} (fun _ => 1 / 2) 0).outcome
      = .error (some badRequestError) ∧
    (withRetry (failingOperation 5 badRequestError "done") {} (fun _ => 1 / 2) 0).calls = 1 ∧
    (withRetry (failingOperation 5 badRequestError "done") {} (fun _ => 1 / 2) 0).delays
      = [] :=
  c5_non_retryable_fails_at_once (failingOperation 5 badRequestError "done") {}
    (fun _ => 1 / 2) 0 badRequestError (by decide) rfl (by decide)

/-- C6: with `maxAttempts ≥ 1`, when every invocation (up to `maxAttempts`) fails with a
retryable error, `withRetry` invokes the operation exactly `maxAttempts` times, awaits
exactly `maxAttempts - 1` delays and rejects with the error of the last invocation; and
for every operation the number of invocations is at least 1 and at most `maxAttempts`. -/
theorem c6_retry_exhaustion {σ α : Type} (operation : Operation σ α)
    (config : RetryOptions) (random : Nat → ℚ) (s : σ)
    (hmax : 1 ≤ (mergeConfig DEFAULT_CONFIG config).maxAttempts) :
    ((∀ i < (mergeConfig DEFAULT_CONFIG config).maxAttempts,
        ∃ e, opOutcome operation s i = .error e ∧
          isRetryableError e (mergeConfig DEFAULT_CONFIG config) = true) →
      (withRetry operation config random s).calls
          = (mergeConfig DEFAULT_CONFIG config).maxAttempts ∧
      (withRetry operation config random s).delays.length
          = (mergeConfig DEFAULT_CONFIG config).maxAttempts - 1 ∧
      ∃ e, opOutcome operation s ((mergeConfig DEFAULT_CONFIG config).maxAttempts - 1)
          = .error e ∧
        (withRetry operation config random s).outcome = .error (some e)) ∧
    (1 ≤ (withRetry operation config random s).calls ∧
      (withRetry operation config random s).calls
        ≤ (mergeConfig DEFAULT_CONFIG config).maxAttempts) := by
  obtain ⟨r, hr⟩ : ∃ r, (mergeConfig DEFAULT_CONFIG config).maxAttempts = r + 1 :=
    ⟨(mergeConfig DEFAULT_CONFIG config).maxAttempts - 1, by omega⟩
  constructor
  · intro hfails
    rw [hr] at hfails
    obtain ⟨h1, h2, e, he, h3⟩ := retryLoop_exhausts (mergeConfig DEFAULT_CONFIG config)
      operation random r 1 none [] s 0 (by omega) hfails
    unfold withRetry
    rw [hr]
    refine ⟨by rw [h1]; omega, by rw [h2]; simp, e, by simpa using he, h3⟩
  · have h := retryLoop_calls_bounds (mergeConfig DEFAULT_CONFIG config) operation random
      (mergeConfig DEFAULT_CONFIG config).maxAttempts 1 none [] s 0
    unfold withRetry
    exact ⟨by have := h.1 (by omega); omega, by have := h.2; omega⟩

/-- C6 witness: an operation that times out on each of its first ten invocations, under
the default policy (`maxAttempts = 3`). -/
theorem c6_retry_exhaustion_witness :
    (withRetry (failingOperation 10 (errorWithMessage "Request timeout") "done") {}
      (fun _ => 1 / 2) 0).calls = 3 ∧
    (withRetry (failingOperation 10 (errorWithMessage "Request timeout") "done") {}
      (fun _ => 1 / 2) 0).delays.length = 2 :=
  have h := (c6_retry_exhaustion
    (failingOperation 10 (errorWithMessage "Request timeout") "done") {}
    (fun _ => 1 / 2) 0 (by decide)).1
    (by
      intro i hi
      refine ⟨errorWithMessage "Request timeout", ?_, by decide⟩
      have hi3 : i < 3 := hi
      interval_cases i <;> rfl)
  ⟨h.1, h.2.1⟩

/-- C7: backoff monotonicity. For `baseDelay > 0`, `backoffMultiplier ≥ 1` and
`maxDelay ≥ baseDelay` the delay before jitter,
`e(i) = min(baseDelay * backoffMultiplier^(i-1), maxDelay)`, which `calculateDelay` perturbs
and clamps, satisfies `e(1) = baseDelay`, `e(i) ≤ e(i+1)` and `e(i) ≤ maxDelay` for every
attempt `i ≥ 1`. -/
theorem c7_backoff_monotone (config : RetryConfig) (hbase : 0 < config.baseDelay)
    (hmult : 1 ≤ config.backoffMultiplier) (hcap : config.baseDelay ≤ config.maxDelay) :
    exponentialDelay 1 config = config.baseDelay ∧
    (∀ i : Nat, 1 ≤ i →
      exponentialDelay i config
        = min (config.baseDelay * config.backoffMultiplier ^ (i - 1)) config.maxDelay ∧
      exponentialDelay i config ≤ exponentialDelay (i + 1) config ∧
      exponentialDelay i config ≤ config.maxDelay) ∧
    (∀ (i : Nat) (random : ℚ), calculateDelay i config random =
      max 0 (exponentialDelay i config
        + exponentialDelay i config * config.jitter * (random - 1 / 2))) := by
  refine ⟨?_, ?_, ?_⟩
  · simp [exponentialDelay, hcap]
  · intro i hi
    refine ⟨rfl, ?_, ?_⟩
    · unfold exponentialDelay
      apply min_le_min _ le_rfl
      apply mul_le_mul_of_nonneg_left _ hbase.le
      have : i + 1 - 1 = (i - 1) + 1 := by omega
      rw [this, pow_succ]
      exact le_mul_of_one_le_right (pow_nonneg (by linarith) _) hmult
    · exact min_le_right _ _
  · intro i random
    rfl

/-- C7 witness: the default policy, base 1000 ms, factor 2, cap 30000 ms. -/
theorem c7_backoff_monotone_witness :
    exponentialDelay 1 DEFAULT_CONFIG = DEFAULT_CONFIG.baseDelay ∧
    exponentialDelay 5 DEFAULT_CONFIG ≤ exponentialDelay (5 + 1) DEFAULT_CONFIG ∧
    exponentialDelay 5 DEFAULT_CONFIG ≤ DEFAULT_CONFIG.maxDelay :=
  have h := c7_backoff_monotone DEFAULT_CONFIG (by decide) (by decide) (by decide)
  ⟨h.1, (h.2.1 5 (by decide)).2.1, (h.2.1 5 (by decide)).2.2⟩

/-- C10: the cache degrades instead of raising. When the store is unavailable
(`isConnected` false or no client) or the store command fails, `get` answers `null` and
`set` answers `false` and leaves the manager and the store as they were; `get` also
answers `null` when the stored text is not JSON; and `get`, `set` and `delete` never
reject. -/
theorem c10_cache_degrades_without_raising (cm : CacheManager) (key : String) (value : Json)
    (ttl : Int) :
    ((cm.isConnected = false ∨ cm.client = none ∨
        (∃ client, cm.client = some client ∧ client.failing = true)) →
      cm.get key = .ok Json.null ∧ cm.set key value ttl = (.ok false, cm)) ∧
    (∀ client text e, cm.isConnected = true → cm.client = some client →
      client.get key = .ok (some text) → JSON.parse text = .error e →
      cm.get key = .ok Json.null) ∧
    (∃ v, cm.get key = .ok v) ∧
    (∃ b, (cm.set key value ttl).1 = .ok b) ∧
    (∃ b, (cm.delete key).1 = .ok b) := by
  obtain ⟨client, isConnected, keyPrefix, defaultTTL⟩ := cm
  refine ⟨?_, ?_, ?_, ?_, ?_⟩
  · rintro (h | h | ⟨c, hc, hf⟩)
    · simp only at h
      subst h
      cases client <;> exact ⟨rfl, rfl⟩
    · simp only at h
      subst h
      cases isConnected <;> exact ⟨rfl, rfl⟩
    · simp only at hc
      subst hc
      cases isConnected
      · exact ⟨rfl, rfl⟩
      · simp [CacheManager.get, CacheManager.set, RedisClient.get, RedisClient.set, hf]
  · intro c text e hconn hclient hget hparse
    simp only at hconn hclient
    subst hconn hclient
    simp only [CacheManager.get, hget]
    by_cases htext : text = ""
    · simp [htext]
    · simp [htext, hparse]
  · cases isConnected
    · exact ⟨Json.null, rfl⟩
    · cases client with
      | none => exact ⟨Json.null, rfl⟩
      | some c =>
        simp only [CacheManager.get]
        rcases hget : c.get key with e | (_ | text)
        · exact ⟨Json.null, rfl⟩
        · exact ⟨Json.null, rfl⟩
        · by_cases htext : text = ""
          · exact ⟨Json.null, by simp [htext]⟩
          · rcases hparse : JSON.parse text with e | v
            · exact ⟨Json.null, by simp [htext, hparse]⟩
            · exact ⟨v, by simp [htext, hparse]⟩
  · cases isConnected
    · exact ⟨false, rfl⟩
    · cases client with
      | none => exact ⟨false, rfl⟩
      | some c =>
        simp only [CacheManager.set]
        rcases hset : c.set key (JSON.stringify value) ttl with e | c1
        · exact ⟨false, rfl⟩
        · exact ⟨true, rfl⟩
  · cases isConnected
    · exact ⟨false, rfl⟩
    · cases client with
      | none => exact ⟨false, rfl⟩
      | some c =>
        simp only [CacheManager.delete]
        rcases hdel : c.del key with e | ⟨n, c1⟩
        · exact ⟨false, rfl⟩
        · exact ⟨decide (n > 0), rfl⟩

/-- C8 as stated fails for `null`: after `set(key, null)` has answered `true`, `get(key)`
answers `null`, the very answer of `get(key)` on a store without the key. -/
theorem c8_null_reads_as_miss :
    ((CacheManager.connected []).set "test_key" Json.null 60).1 = .ok true ∧
    ((CacheManager.connected []).set "test_key" Json.null 60).2.get "test_key"
      = (CacheManager.connected []).get "test_key" ∧
    (CacheManager.connected []).get "test_key" = .ok Json.null :=
  ⟨rfl, rfl, rfl⟩

/-- C8 (amended): cache round trip. With the store available, for every key, every
JSON-serializable value `v`, built from `null`, booleans, finite numbers, strings, arrays
and objects (`false`, `0` and the empty string included), and every `ttl`, `set` answers
`true` and an immediately following `get` answers `v`; that answer differs from the
answer of a miss, `null`, exactly when `v` is not `null`. Likewise
`setCachedResponse(userId, prompt, v)` followed by `getCachedResponse(userId, prompt)`
answers `v`. -/
theorem c8_cache_round_trip (cm : CacheManager) (client : RedisClient) (key : String)
    (v : Json) (ttl : Int) (userId prompt : String)
    (hconn : cm.isConnected = true) (hclient : cm.client = some client)
    (havail : client.failing = false) :
    (cm.set key v ttl).1 = .ok true ∧
    (cm.set key v ttl).2.get key = .ok v ∧
    ((cm.set key v ttl).2.get key = .ok Json.null ↔ v = Json.null) ∧
    (setCachedResponse cm userId prompt v ttl).1 = .ok true ∧
    getCachedResponse (setCachedResponse cm userId prompt v ttl).2 userId prompt = .ok v := by
  have hround : ∀ k : String, (cm.set k v ttl).1 = .ok true ∧
      (cm.set k v ttl).2.get k = .ok v ∧
      (cm.set k v ttl).2.keyPrefix = cm.keyPrefix := by
    intro k
    obtain ⟨c, conn, pfx, dttl⟩ := cm
    simp only at hconn hclient
    subst hconn hclient
    simp [CacheManager.set, CacheManager.get, RedisClient.set, RedisClient.get, havail,
      JsMap.get_set_same, JSON_stringify_ne_empty, JSON_parse_stringify]
  refine ⟨(hround key).1, (hround key).2.1, ?_, ?_, ?_⟩
  · rw [(hround key).2.1]
    constructor
    · intro h
      cases h
      rfl
    · intro h
      rw [h]
  · exact (hround _).1
  · unfold getCachedResponse setCachedResponse CacheManager.generateKey
    rw [(hround _).2.2]
    exact (hround _).2.1

/-- C8 witness: the round trip of `testCaching` on a connected manager with an empty
store, and the round trip of the number 1.5, stored as the text `1.5`. -/
theorem c8_cache_round_trip_witness :
    ((CacheManager.connected []).set "test_key" testData 60).1 = .ok true ∧
    ((CacheManager.connected []).set "test_key" testData 60).2.get "test_key"
      = .ok testData ∧
    JSON.stringify (.num (.ofDecimal false 15 (-1))) = "1.5" ∧
    ((CacheManager.connected []).set "ratio" (.num (.ofDecimal false 15 (-1))) 60).2.get
      "ratio" = .ok (.num (.ofDecimal false 15 (-1))) :=
  have h := c8_cache_round_trip (CacheManager.connected [])
    { entries := [], failing := false } "test_key" testData 60 "test_user" "Що таке AI?"
    rfl rfl rfl
  have h2 := c8_cache_round_trip (CacheManager.connected [])
    { entries := [], failing := false } "ratio" (.num (.ofDecimal false 15 (-1))) 60
    "test_user" "Що таке AI?" rfl rfl rfl
  ⟨h.1, h.2.1, by decide, h2.2.1⟩

set_option maxRecDepth 100000 in
/-- C9 as stated fails: the same two fields listed in the other order give another key. -/
theorem c9_field_order_changes_key :
    List.Perm [("userId", Json.str "test_user"), ("prompt", Json.str "hi")]
      [("prompt", Json.str "hi"), ("userId", Json.str "test_user")] ∧
    (CacheManager.connected []).generateKey "llm"
        (.obj [("userId", .str "test_user"), ("prompt", .str "hi")])
      ≠ (CacheManager.connected []).generateKey "llm"
        (.obj [("prompt", .str "hi"), ("userId", .str "test_user")]) :=
  ⟨List.Perm.swap _ _ _, by decide⟩

/-- C9 (amended): `generateKey(namespace, input)` is
`keyPrefix + namespace + ':' + digest`, where the digest is the MD5 of
`JSON.stringify(input)` written as 32 hexadecimal digits; it is a function of the
namespace and of that serialization, and the serialization lists the fields in the
order the object holds them, so that two inputs have the same serialization only if
they are the same value, field order included. -/
theorem c9_generateKey_form (cm : CacheManager) (namespaceTag : String) (data other : Json) :
    (∃ digest : String,
      cm.generateKey namespaceTag data = cm.keyPrefix ++ namespaceTag ++ ":" ++ digest ∧
      digest = md5Hex (JSON.stringify data) ∧ digest.length = 32 ∧
      ∀ c ∈ digest.data, c ∈ "0123456789abcdef".data) ∧
    (JSON.stringify data = JSON.stringify other →
      cm.generateKey namespaceTag data = cm.generateKey namespaceTag other) ∧
    (JSON.stringify data = JSON.stringify other ↔ data = other) := by
  refine ⟨⟨md5Hex (JSON.stringify data), rfl, rfl, ?_, ?_⟩, ?_, ?_⟩
  · unfold md5Hex
    rw [hexOfBytes_length, md5_length]
  · unfold md5Hex
    exact hexOfBytes_chars _ (md5_lt _)
  · intro h
    unfold CacheManager.generateKey
    rw [h]
  · constructor
    · intro h
      have h1 := JSON_parse_stringify data
      rw [h, JSON_parse_stringify] at h1
      cases h1
      rfl
    · intro h
      rw [h]

/-! ### Regular expressions -/

theorem drop_succ_of_drop_eq_cons {α : Type} (l : List α) (p : Nat) (u : α) (t : List α)
    (h : l.drop p = u :: t) : l.drop (p + 1) = t := by
  have : l.drop (p + 1) = (l.drop p).drop 1 := by
    rw [List.drop_drop, Nat.add_comm]
  rw [this, h]
  rfl

theorem drop_add_of_drop_eq_append {α : Type} (l : List α) (p : Nat) (a b : List α)
    (h : l.drop p = a ++ b) : l.drop (p + a.length) = b := by
  have : l.drop (p + a.length) = (l.drop p).drop a.length := by
    rw [List.drop_drop, Nat.add_comm]
  rw [this, h, List.drop_left]

theorem ends_cls_cons (ic : Bool) (input : List Nat) (k : CharClass) (p : Nat)
    (cap : Option (List Nat)) (u : Nat) (t : List Nat) (h : input.drop p = u :: t) :
    (Regex.cls k).ends ic input { pos := p, capture := cap }
      = if k.accepts ic u then [{ pos := p + 1, capture := cap }] else [] := by
  simp only [Regex.ends, h]

theorem ends_cls_nil (ic : Bool) (input : List Nat) (k : CharClass) (p : Nat)
    (cap : Option (List Nat)) (h : input.drop p = []) :
    (Regex.cls k).ends ic input { pos := p, capture := cap } = [] := by
  simp only [Regex.ends, h]

theorem ends_seq (ic : Bool) (input : List Nat) (r s : Regex) (st : MatchState) :
    (Regex.seq r s).ends ic input st = (r.ends ic input st).flatMap (s.ends ic input) := by
  simp only [Regex.ends]

theorem ends_notAhead (ic : Bool) (input : List Nat) (r : Regex) (st : MatchState) :
    (Regex.notAhead r).ends ic input st
      = if (r.ends ic input st).isEmpty then [st] else [] := by
  simp only [Regex.ends]

theorem ends_star (ic : Bool) (input : List Nat) (r : Regex) (st : MatchState) :
    (Regex.star r).ends ic input st = starLoop (r.ends ic input) input.length st := by
  simp only [Regex.ends]

/-- A sequence of pattern characters matches exactly where the text begins with them. -/
theorem ends_litChars (ic : Bool) (input : List Nat) (w : List Char) (p : Nat)
    (cap : Option (List Nat)) :
    (litChars w).ends ic input { pos := p, capture := cap }
      = if startsWithLit ic w (input.drop p) then [{ pos := p + w.length, capture := cap }]
        else [] := by
  induction w generalizing p with
  | nil => simp [litChars, Regex.ends, startsWithLit]
  | cons c w ih =>
    have hfold : litChars (c :: w) = Regex.seq (.cls (.lit c)) (litChars w) := rfl
    rw [hfold, ends_seq]
    rcases hdrop : input.drop p with _ | ⟨u, t⟩
    · rw [ends_cls_nil ic input _ p cap hdrop]
      simp [startsWithLit]
    · rw [ends_cls_cons ic input _ p cap u t hdrop]
      by_cases hacc : (CharClass.lit c).accepts ic u = true
      · rw [if_pos hacc, List.flatMap_cons, List.flatMap_nil, List.append_nil, ih (p + 1),
          drop_succ_of_drop_eq_cons input p u t hdrop]
        simp only [startsWithLit, hacc, Bool.true_and, List.length_cons]
        have : p + 1 + w.length = p + (w.length + 1) := by omega
        rw [this]
      · rw [if_neg hacc]
        simp [startsWithLit, hacc]

theorem ends_lit (ic : Bool) (input : List Nat) (s : String) (p : Nat)
    (cap : Option (List Nat)) :
    (Regex.lit s).ends ic input { pos := p, capture := cap }
      = if startsWithLit ic s.data (input.drop p)
        then [{ pos := p + s.data.length, capture := cap }] else [] :=
  ends_litChars ic input s.data p cap

theorem starLoop_self (step : MatchState → List MatchState) (fuel : Nat) (st : MatchState) :
    st ∈ starLoop step fuel st := by
  cases fuel <;> simp [starLoop]

theorem starLoop_step (step : MatchState → List MatchState) (fuel : Nat)
    (st e q : MatchState) (he : e ∈ step st) (hlt : st.pos < e.pos)
    (hq : q ∈ starLoop step fuel e) : q ∈ starLoop step (fuel + 1) st := by
  simp only [starLoop, List.mem_cons, List.mem_flatMap, List.mem_filter, decide_eq_true_eq]
  exact Or.inr ⟨e, ⟨he, hlt⟩, hq⟩

theorem starLoop_succ (step : MatchState → List MatchState) (fuel : Nat)
    (st q : MatchState) (hq : q ∈ starLoop step fuel st) :
    q ∈ starLoop step (fuel + 1) st := by
  induction fuel generalizing st with
  | zero =>
    simp only [starLoop, List.mem_singleton] at hq
    subst hq
    exact starLoop_self step 1 q
  | succ f ih =>
    simp only [starLoop, List.mem_cons, List.mem_flatMap, List.mem_filter,
      decide_eq_true_eq] at hq
    rcases hq with h | ⟨e, ⟨he, hlt⟩, hq⟩
    · subst h
      exact starLoop_self step _ q
    · exact starLoop_step step (f + 1) st e q he hlt (ih e hq)

theorem starLoop_mono (step : MatchState → List MatchState) (fuel more : Nat)
    (st q : MatchState) (hle : fuel ≤ more) (hq : q ∈ starLoop step fuel st) :
    q ∈ starLoop step more st := by
  induction more with
  | zero =>
    have : fuel = 0 := by omega
    subst this
    exact hq
  | succ m ih =>
    by_cases h : fuel = m + 1
    · subst h
      exact hq
    · exact starLoop_succ step m st q (ih (by omega))

/-- The quantifier `*` on a class runs over any stretch of code units of that class. -/
theorem starLoop_cls_run (ic : Bool) (input : List Nat) (k : CharClass)
    (cap : Option (List Nat)) (run : List Nat) :
    ∀ (p fuel : Nat) (rest : List Nat), input.drop p = run ++ rest →
      (∀ u ∈ run, k.accepts ic u = true) → run.length ≤ fuel →
      ({ pos := p + run.length, capture := cap } : MatchState)
        ∈ starLoop ((Regex.cls k).ends ic input) fuel { pos := p, capture := cap } := by
  induction run with
  | nil =>
    intro p fuel rest _ _ _
    exact starLoop_self _ _ _
  | cons u run ih =>
    intro p fuel rest hdrop hacc hfuel
    obtain ⟨f, rfl⟩ : ∃ f, fuel = f + 1 := ⟨fuel - 1, by simp at hfuel; omega⟩
    have hstep : ({ pos := p + 1, capture := cap } : MatchState)
        ∈ (Regex.cls k).ends ic input { pos := p, capture := cap } := by
      rw [ends_cls_cons ic input k p cap u (run ++ rest) hdrop, if_pos (hacc u (by simp))]
      simp
    have hrest := ih (p + 1) f rest (drop_succ_of_drop_eq_cons input p u _ hdrop)
      (fun x hx => hacc x (by simp [hx])) (by simp at hfuel; omega)
    have hpos : p + (u :: run).length = p + 1 + run.length := by simp; omega
    rw [hpos]
    exact starLoop_step _ f _ _ _ hstep (by simp) hrest

theorem length_le_of_drop_eq_append {α : Type} (l : List α) (p : Nat) (a b : List α)
    (h : l.drop p = a ++ b) : a.length ≤ l.length := by
  have := congrArg List.length h
  simp only [List.length_drop, List.length_append] at this
  omega

theorem ends_star_cls_run (ic : Bool) (input : List Nat) (k : CharClass)
    (cap : Option (List Nat)) (run rest : List Nat) (p : Nat)
    (hdrop : input.drop p = run ++ rest) (hacc : ∀ u ∈ run, k.accepts ic u = true) :
    ({ pos := p + run.length, capture := cap } : MatchState)
      ∈ (Regex.star (.cls k)).ends ic input { pos := p, capture := cap } := by
  rw [ends_star]
  exact starLoop_cls_run ic input k cap run p input.length rest hdrop hacc
    (length_le_of_drop_eq_append input p run rest hdrop)

theorem test_eq_true_iff (r : Regex) (ic : Bool) (input : List Nat) :
    r.test ic input = true ↔
      ∃ i, i ≤ input.length ∧ r.ends ic input { pos := i, capture := none } ≠ [] := by
  unfold Regex.test
  simp only [List.any_eq_true, List.mem_range, Bool.not_eq_true', List.isEmpty_eq_false]
  constructor
  · rintro ⟨i, hi, h⟩
    exact ⟨i, by omega, h⟩
  · rintro ⟨i, hi, h⟩
    exact ⟨i, by omega, h⟩


theorem startsWithLit_of_sameLetters (w : List Char) (mid post : List Nat)
    (h : sameLetters mid (w.map Char.toNat)) : startsWithLit true w (mid ++ post) = true := by
  induction w generalizing mid with
  | nil => rfl
  | cons c w ih =>
    cases mid with
    | nil => simp [sameLetters] at h
    | cons u mid =>
      simp only [sameLetters, List.map_cons, List.cons.injEq] at h
      simp only [List.cons_append, startsWithLit, CharClass.accepts, h.1, beq_self_eq_true,
        Bool.true_and]
      exact ih mid h.2

theorem drop_length_append {α : Type} (pre rest : List α) :
    (pre ++ rest).drop pre.length = rest := List.drop_left pre rest

/-- A pattern of pattern characters is found in every text that contains them in any
letter case. -/
theorem test_lit_of_contains (s : String) (input : List Nat)
    (hs : utf16 s = s.data.map Char.toNat) (h : containsIgnoringCase input s) :
    (Regex.lit s).test true input = true := by
  obtain ⟨pre, mid, post, hinput, hsame⟩ := h
  rw [test_eq_true_iff]
  refine ⟨pre.length, by rw [hinput]; simp only [List.length_append, List.length_cons]; omega, ?_⟩
  have hdrop : input.drop pre.length = mid ++ post := by
    rw [hinput, List.append_assoc, drop_length_append]
  rw [hs] at hsame
  rw [ends_lit, hdrop, startsWithLit_of_sameLetters _ _ _ hsame]
  simp

theorem test_handlerPattern (input : List Nat) (h : hasEventHandler input) :
    handlerPattern.test true input = true := by
  obtain ⟨pre, onPart, w, ws, post, hinput, hon, hw, hword, hspace⟩ := h
  obtain ⟨w0, w1, rfl⟩ := List.exists_cons_of_ne_nil hw
  rw [test_eq_true_iff]
  refine ⟨pre.length, by rw [hinput]; simp only [List.length_append, List.length_cons]; omega, ?_⟩
  have hlen : onPart.length = 2 := by
    have := congrArg List.length hon
    simpa [utf16, utf16Char] using this
  have h0 : input.drop pre.length = onPart ++ (w0 :: (w1 ++ ws ++ 61 :: post)) := by
    rw [hinput]
    simp [List.append_assoc]
  have h1 : input.drop (pre.length + 2) = w0 :: (w1 ++ (ws ++ 61 :: post)) := by
    have := drop_add_of_drop_eq_append input pre.length onPart _ h0
    rw [hlen] at this
    simpa [List.append_assoc] using this
  have h2 : input.drop (pre.length + 2 + 1) = w1 ++ (ws ++ 61 :: post) :=
    drop_succ_of_drop_eq_cons input _ _ _ h1
  have h3 : input.drop (pre.length + 2 + 1 + w1.length) = ws ++ 61 :: post :=
    drop_add_of_drop_eq_append input _ _ _ h2
  have h4 : input.drop (pre.length + 2 + 1 + w1.length + ws.length) = 61 :: post :=
    drop_add_of_drop_eq_append input _ _ _ h3
  have hmem : ({ pos := pre.length + 2 + 1 + w1.length + ws.length + 1, capture := none }
      : MatchState) ∈ handlerPattern.ends true input { pos := pre.length, capture := none } := by
    unfold handlerPattern Regex.plus
    simp only [ends_seq, List.mem_flatMap]
    refine ⟨{ pos := pre.length + 2, capture := none }, ?_,
      { pos := pre.length + 2 + 1 + w1.length, capture := none },
      ⟨{ pos := pre.length + 2 + 1, capture := none }, ?_, ?_⟩,
      { pos := pre.length + 2 + 1 + w1.length + ws.length, capture := none }, ?_, ?_⟩
    · have hon2 : sameLetters onPart ("on".data.map Char.toNat) := hon
      rw [ends_lit, h0, startsWithLit_of_sameLetters _ _ _ hon2]
      simp
    · rw [ends_cls_cons true input _ _ none w0 _ h1]
      simp [CharClass.accepts, hword w0 (by simp)]
    · exact ends_star_cls_run true input .word none w1 _ _ h2
        (fun u hu => hword u (by simp [hu]))
    · exact ends_star_cls_run true input .space none ws _ _ h3 hspace
    · rw [ends_cls_cons true input _ _ none 61 post h4]
      simp [CharClass.accepts, canonicalize]
  intro hnil
  rw [hnil] at hmem
  simp at hmem


theorem notLit_lt_accepts (u : Nat) (h : (u != 60) = true) :
    (CharClass.notLit '<').accepts true u = true := by
  have hu : u ≠ 60 := by simpa using h
  have hc : ('<' : Char).toNat = 60 := rfl
  simp only [CharClass.accepts, hc, canonicalize]
  by_cases hl : 97 ≤ u ∧ u ≤ 122
  · simp [hl]
    omega
  · simp [hl, hu]

theorem head_of_startsWith_closing (b : List Nat)
    (h : startsWithLit true "</script>".data b = true) : ∃ t, b = 60 :: t := by
  cases b with
  | nil => simp [startsWithLit] at h
  | cons u t =>
    have hd : "</script>".data = '<' :: "/script>".data := rfl
    rw [hd] at h
    simp only [startsWithLit, Bool.and_eq_true, CharClass.accepts, beq_iff_eq] at h
    have hc : ('<' : Char).toNat = 60 := rfl
    have h1 := h.1
    rw [hc] at h1
    have : u = 60 := by
      by_cases hl : 97 ≤ u ∧ u ≤ 122
      · simp [canonicalize, hl] at h1
        omega
      · simpa [canonicalize, hl] using h1
    exact ⟨t, by rw [this]⟩

theorem dropWhile_ne_cases (l : List Nat) :
    l.dropWhile (fun u => u != 60) = [] ∨ ∃ t, l.dropWhile (fun u => u != 60) = 60 :: t := by
  induction l with
  | nil => exact Or.inl rfl
  | cons x l ih =>
    by_cases hx : x = 60
    · subst hx
      exact Or.inr ⟨l, by simp [List.dropWhile]⟩
    · have : (x != 60) = true := by simpa using hx
      simpa [List.dropWhile, this] using ih

theorem closingTagAhead_dropWhile (l : List Nat) (h : closingTagAhead l) :
    closingTagAhead (l.dropWhile (fun u => u != 60)) := by
  obtain ⟨a, b, hl, hb⟩ := h
  subst hl
  induction a with
  | nil =>
    obtain ⟨t, ht⟩ := head_of_startsWith_closing b hb
    subst ht
    exact ⟨[], 60 :: t, by simp [List.dropWhile], hb⟩
  | cons x a ih =>
    by_cases hx : x = 60
    · subst hx
      exact ⟨60 :: a, b, by simp [List.dropWhile], hb⟩
    · have : (x != 60) = true := by simpa using hx
      simpa [List.dropWhile, this] using ih

theorem closingTagAhead_ne_nil (l : List Nat) (h : closingTagAhead l) : l ≠ [] := by
  obtain ⟨a, b, hl, hb⟩ := h
  obtain ⟨t, ht⟩ := head_of_startsWith_closing b hb
  subst hl ht
  simp

/-- One iteration of the group: from a `<` that does not open the closing tag to the next
`<`, or to the end of the text. -/
theorem scriptGroup_step (input : List Nat) (p : Nat) (cap : Option (List Nat))
    (t : List Nat) (hdrop : input.drop p = 60 :: t)
    (hno : startsWithLit true "</script>".data (60 :: t) = false) :
    ({ pos := p + 1 + (t.takeWhile (fun u => u != 60)).length, capture := cap } : MatchState)
      ∈ scriptGroup.ends true input { pos := p, capture := cap } := by
  unfold scriptGroup
  simp only [ends_seq, List.mem_flatMap]
  refine ⟨{ pos := p, capture := cap }, ?_, { pos := p + 1, capture := cap }, ?_, ?_⟩
  · rw [ends_notAhead, ends_lit, hdrop, hno]
    simp
  · rw [ends_cls_cons true input _ p cap 60 t hdrop]
    simp [CharClass.accepts, canonicalize]
  · have hsplit : input.drop (p + 1)
        = t.takeWhile (fun u => u != 60) ++ t.dropWhile (fun u => u != 60) := by
      rw [drop_succ_of_drop_eq_cons input p 60 t hdrop, List.takeWhile_append_dropWhile]
    exact ends_star_cls_run true input _ cap _ _ (p + 1) hsplit
      (fun u hu => notLit_lt_accepts u
        (List.mem_takeWhile_imp (p := fun u => u != 60) hu))

/-- From a `<` with a closing tag somewhere ahead, the iterations of the group reach the
first closing tag. -/
theorem scriptGroup_reaches_closing (input : List Nat) (cap : Option (List Nat)) (n : Nat) :
    ∀ (p : Nat) (t : List Nat), input.drop p = 60 :: t → (60 :: t).length ≤ n →
      closingTagAhead (60 :: t) →
      ∃ q, ({ pos := q, capture := cap } : MatchState)
          ∈ starLoop (scriptGroup.ends true input) n { pos := p, capture := cap } ∧
        startsWithLit true "</script>".data (input.drop q) = true := by
  induction n with
  | zero =>
    intro p t _ hlen _
    simp at hlen
  | succ n ih =>
    intro p t hdrop hlen hahead
    by_cases hhere : startsWithLit true "</script>".data (60 :: t) = true
    · exact ⟨p, starLoop_self _ _ _, by rw [hdrop]; exact hhere⟩
    · have hno : startsWithLit true "</script>".data (60 :: t) = false := by
        simpa using hhere
      have haheadt : closingTagAhead t := by
        obtain ⟨a, b, hl, hb⟩ := hahead
        cases a with
        | nil =>
          simp only [List.nil_append] at hl
          rw [← hl] at hb
          exact absurd hb hhere
        | cons x a =>
          simp only [List.cons_append, List.cons.injEq] at hl
          exact ⟨a, b, hl.2, hb⟩
      have hstep := scriptGroup_step input p cap t hdrop hno
      have hnext : input.drop (p + 1 + (t.takeWhile (fun u => u != 60)).length)
          = t.dropWhile (fun u => u != 60) := by
        apply drop_add_of_drop_eq_append input (p + 1) _ _
        rw [drop_succ_of_drop_eq_cons input p 60 t hdrop, List.takeWhile_append_dropWhile]
      have hahead2 := closingTagAhead_dropWhile t haheadt
      rcases dropWhile_ne_cases t with hnil | ⟨t2, ht2⟩
      · exact absurd hnil (closingTagAhead_ne_nil _ hahead2)
      · rw [ht2] at hnext hahead2
        have hlen2 : (60 :: t2).length ≤ n := by
          have h1 : (t.dropWhile (fun u => u != 60)).length ≤ t.length :=
            (List.dropWhile_sublist _).length_le
          rw [ht2] at h1
          simp only [List.length_cons] at hlen h1 ⊢
          omega
        obtain ⟨q, hq, hclose⟩ := ih _ t2 hnext hlen2 hahead2
        exact ⟨q, starLoop_step _ n _ _ _ hstep (by simp; omega) hq, hclose⟩


theorem ends_wordBoundary_between (ic : Bool) (input : List Nat) (p : Nat)
    (cap : Option (List Nat)) (x c : Nat) (t : List Nat)
    (hdrop : input.drop p = x :: c :: t) (hx : isWordChar x = true)
    (hc : isWordChar c = false) :
    Regex.wordBoundary.ends ic input { pos := p + 1, capture := cap }
      = [{ pos := p + 1, capture := cap }] := by
  have h1 := drop_succ_of_drop_eq_cons input p x _ hdrop
  simp [Regex.ends, hdrop, h1, hx, hc]

/-- A word of seven letters equal to `<script` up to case ends in a word character. -/
theorem opening_shape (opening : List Nat) (h : sameLetters opening (utf16 "<script")) :
    ∃ front x, opening = front ++ [x] ∧ front.length = 6 ∧ isWordChar x = true := by
  have hu : utf16 "<script" = [60, 115, 99, 114, 105, 112, 116] := by decide
  rw [hu] at h
  rcases opening with _ | ⟨a, _ | ⟨b, _ | ⟨c, _ | ⟨d, _ | ⟨e, _ | ⟨f, _ | ⟨g, _ | ⟨k, l⟩⟩⟩⟩⟩⟩⟩⟩
    <;> simp [sameLetters] at h
  refine ⟨[a, b, c, d, e, f], g, rfl, rfl, ?_⟩
  have hg := h.2.2.2.2.2.2
  have h116 : canonicalize true 116 = 84 := by decide
  rw [h116] at hg
  by_cases hl : 97 ≤ g ∧ g ≤ 122
  · simp [canonicalize, hl] at hg
    have : g = 116 := by omega
    subst this
    decide
  · simp [canonicalize, hl] at hg
    subst hg
    decide

/-- The script pattern is found in every text that holds a script element. -/
theorem test_scriptPattern (input : List Nat) (h : hasScriptElement input) :
    scriptPattern.test true input = true := by
  obtain ⟨pre, opening, c, body, closing, post, hinput, hopen, hc, hclose⟩ := h
  obtain ⟨front, x, hfront, hflen, hx⟩ := opening_shape opening hopen
  have holen : opening.length = 7 := by rw [hfront]; simp [hflen]
  rw [test_eq_true_iff]
  refine ⟨pre.length, by rw [hinput]; simp only [List.length_append]; omega, ?_⟩
  have h0 : input.drop pre.length = opening ++ (c :: body ++ closing ++ post) := by
    rw [hinput]
    simp [List.append_assoc]
  have hb : input.drop (pre.length + 6) = x :: c :: (body ++ closing ++ post) := by
    have h0b : input.drop pre.length = front ++ (x :: c :: (body ++ closing ++ post)) := by
      rw [h0, hfront]
      simp [List.append_assoc]
    have := drop_add_of_drop_eq_append input pre.length front _ h0b
    rw [hflen] at this
    exact this
  have h7 : input.drop (pre.length + 6 + 1) = c :: (body ++ closing ++ post) :=
    drop_succ_of_drop_eq_cons input _ _ _ hb
  have hclosing : startsWithLit true "</script>".data (closing ++ post) = true :=
    startsWithLit_of_sameLetters _ _ _ hclose
  have hahead : closingTagAhead (c :: (body ++ closing ++ post)) :=
    ⟨c :: body, closing ++ post, by simp [List.append_assoc], hclosing⟩
  have hahead2 := closingTagAhead_dropWhile _ hahead
  have hsplit : input.drop (pre.length + 6 + 1)
      = (c :: (body ++ closing ++ post)).takeWhile (fun u => u != 60)
        ++ (c :: (body ++ closing ++ post)).dropWhile (fun u => u != 60) := by
    rw [h7, List.takeWhile_append_dropWhile]
  have hnext := drop_add_of_drop_eq_append input _ _ _ hsplit
  rcases dropWhile_ne_cases (c :: (body ++ closing ++ post)) with hnil | ⟨t2, ht2⟩
  · exact absurd hnil (closingTagAhead_ne_nil _ hahead2)
  · rw [ht2] at hnext hahead2
    obtain ⟨q, hq, hqclose⟩ := scriptGroup_reaches_closing input none (60 :: t2).length _ t2
      hnext le_rfl hahead2
    have hfuel : (60 :: t2).length ≤ input.length := by
      have := congrArg List.length hnext
      simp only [List.length_drop] at this
      omega
    have hmem : ({ pos := q + "</script>".data.length, capture := none } : MatchState)
        ∈ scriptPattern.ends true input { pos := pre.length, capture := none } := by
      unfold scriptPattern
      simp only [ends_seq, List.mem_flatMap]
      refine ⟨{ pos := pre.length + 6 + 1, capture := none }, ?_,
        { pos := pre.length + 6 + 1, capture := none }, ?_,
        { pos := pre.length + 6 + 1
            + ((c :: (body ++ closing ++ post)).takeWhile (fun u => u != 60)).length,
          capture := none }, ?_,
        { pos := q, capture := none }, ?_, ?_⟩
      · have hopen2 : sameLetters opening ("<script".data.map Char.toNat) := hopen
        rw [ends_lit, h0, startsWithLit_of_sameLetters _ _ _ hopen2]
        simp
      · rw [ends_wordBoundary_between true input (pre.length + 6) none x c _ hb hx hc]
        simp
      · exact ends_star_cls_run true input _ none _ _ _ hsplit
          (fun u hu => notLit_lt_accepts u
            (List.mem_takeWhile_imp (p := fun u => u != 60) hu))
      · rw [ends_star]
        exact starLoop_mono _ _ _ _ _ hfuel hq
      · rw [ends_lit, hqclose]
        simp
    intro hnil
    rw [hnil] at hmem
    simp at hmem


/-! ### The pattern of repeated characters -/

theorem ends_group_any (input : List Nat) (p : Nat) (cap : Option (List Nat)) :
    (Regex.group (.cls .any)).ends false input { pos := p, capture := cap }
      = match input.drop p with
        | u :: _ =>
          if isLineTerminator u then [] else [{ pos := p + 1, capture := some [u] }]
        | [] => [] := by
  rcases hdrop : input.drop p with _ | ⟨u, t⟩
  · simp [Regex.ends, hdrop]
  · by_cases hlt : isLineTerminator u = true
    · simp [Regex.ends, hdrop, CharClass.accepts, hlt]
    · simp [Regex.ends, hdrop, CharClass.accepts, hlt]

theorem ends_backref_unit (input : List Nat) (p : Nat) (u : Nat) :
    Regex.backref.ends false input { pos := p, capture := some [u] }
      = if (input.drop p).take 1 = [u] then [{ pos := p + 1, capture := some [u] }]
        else [] := by
  have hc : ∀ l : List Nat, l.map (canonicalize false) = l := by
    intro l
    induction l with
    | nil => rfl
    | cons a l ih => simp [canonicalize, ih]
  simp [Regex.ends, hc]

/-- The backreference `n` times matches `n` copies of the captured code unit. -/
theorem ends_times_backref (input : List Nat) (u : Nat) (n : Nat) :
    ∀ p : Nat, (Regex.times n .backref).ends false input { pos := p, capture := some [u] }
      = if (input.drop p).take n = List.replicate n u
        then [{ pos := p + n, capture := some [u] }] else [] := by
  induction n with
  | zero =>
    intro p
    simp [Regex.times, Regex.ends]
  | succ n ih =>
    intro p
    have hfold : Regex.times (n + 1) .backref = .seq .backref (Regex.times n .backref) := rfl
    rw [hfold, ends_seq, ends_backref_unit]
    rcases hdrop : input.drop p with _ | ⟨x, t⟩
    · simp [List.replicate_succ]
    · have hnext := drop_succ_of_drop_eq_cons input p x t hdrop
      by_cases hx : x = u
      · subst hx
        simp only [List.take_succ_cons, List.take_zero, if_true, List.flatMap_cons,
          List.flatMap_nil, List.append_nil, ih (p + 1), hnext, List.replicate_succ,
          List.cons.injEq, true_and]
        have : p + 1 + n = p + (n + 1) := by omega
        rw [this]
      · simp [List.replicate_succ, hx]

theorem starLoop_ne_nil (step : MatchState → List MatchState) (fuel : Nat)
    (st : MatchState) : starLoop step fuel st ≠ [] := by
  intro h
  have := starLoop_self step fuel st
  rw [h] at this
  simp at this

/-- Where `(.)\1{10,}` matches: at a code unit that is not a line terminator and is
followed by ten more copies of itself. -/
theorem repeatedChars_ends_ne_nil (input : List Nat) (p : Nat) :
    repeatedChars.ends false input { pos := p, capture := none } ≠ [] ↔
      ∃ u, isLineTerminator u = false ∧ (input.drop p).take 11 = List.replicate 11 u := by
  unfold repeatedChars Regex.atLeast
  rw [ends_seq, ends_group_any]
  rcases hdrop : input.drop p with _ | ⟨x, t⟩
  · simp [List.replicate_succ]
  · have hnext := drop_succ_of_drop_eq_cons input p x t hdrop
    by_cases hlt : isLineTerminator x = true
    · simp only [hlt, if_true, List.flatMap_nil, ne_eq, not_true_eq_false, false_iff,
        not_exists, not_and]
      intro u hu htake
      simp only [List.take_succ_cons, List.replicate_succ, List.cons.injEq] at htake
      rw [htake.1, hu] at hlt
      exact absurd hlt (by decide)
    · have hlt2 : isLineTerminator x = false := by simpa using hlt
      simp only [hlt2, Bool.false_eq_true, if_false, List.flatMap_cons, List.flatMap_nil,
        List.append_nil, ends_seq, ends_times_backref, hnext]
      by_cases hrun : t.take 10 = List.replicate 10 x
      · rw [if_pos hrun, List.flatMap_cons, List.flatMap_nil, List.append_nil, ends_star]
        constructor
        · intro _
          exact ⟨x, hlt2, by simp [List.take_succ_cons, List.replicate_succ, hrun]⟩
        · intro _
          exact starLoop_ne_nil _ _ _
      · rw [if_neg hrun]
        simp only [List.flatMap_nil, ne_eq, not_true_eq_false, false_iff, not_exists,
          not_and]
        intro u _ htake
        simp only [List.take_succ_cons, List.replicate_succ, List.cons.injEq] at htake
        apply hrun
        rw [htake.1]
        simpa [List.replicate_succ] using htake.2

/-- `repeatedChars.test` finds exactly the runs of eleven equal code units other than
line terminators. -/
theorem test_repeatedChars (input : List Nat) :
    repeatedChars.test false input = true ↔
      ∃ u, isLineTerminator u = false ∧ hasRun input u 11 := by
  rw [test_eq_true_iff]
  constructor
  · rintro ⟨i, _, h⟩
    obtain ⟨u, hu, htake⟩ := (repeatedChars_ends_ne_nil input i).mp h
    refine ⟨u, hu, input.take i, (input.drop i).drop 11, ?_⟩
    rw [← htake, List.append_assoc, List.take_append_drop, List.take_append_drop]
  · rintro ⟨u, hu, pre, post, hinput⟩
    refine ⟨pre.length, by rw [hinput]; simp only [List.length_append]; omega, ?_⟩
    apply (repeatedChars_ends_ne_nil input pre.length).mpr
    refine ⟨u, hu, ?_⟩
    rw [hinput, List.append_assoc, drop_length_append, List.take_left']
    simp

/-! ### `validateMessage` -/

theorem utf16Char_ne_nil (c : Char) : utf16Char c ≠ [] := by
  unfold utf16Char
  split <;> simp

theorem jsLength_eq_zero_iff (s : String) : jsLength s = 0 ↔ s = "" := by
  constructor
  · intro h
    have hd : s.data = [] := by
      cases hs : s.data with
      | nil => rfl
      | cons c rest =>
        exfalso
        have : utf16 s = utf16Char c ++ rest.flatMap utf16Char := by
          simp [utf16, hs]
        have hl : (utf16 s).length = 0 := h
        rw [this, List.length_append] at hl
        have hc := utf16Char_ne_nil c
        have : (utf16Char c).length ≠ 0 := by
          simpa [List.length_eq_zero] using hc
        omega
    exact String.ext hd
  · rintro rfl
    rfl

theorem utf16_jsRepeat (c : Char) (h : c.toNat < 0x10000) (n : Nat) :
    utf16 (jsRepeat c n) = List.replicate n c.toNat := by
  induction n with
  | zero => rfl
  | succ n ih =>
    have hc : utf16Char c = [c.toNat] := by simp [utf16Char, h]
    simp only [utf16, jsRepeat, List.replicate_succ, List.flatMap_cons] at ih ⊢
    rw [ih, hc]
    rfl

theorem jsLength_jsRepeat (c : Char) (h : c.toNat < 0x10000) (n : Nat) :
    jsLength (jsRepeat c n) = n := by
  simp [jsLength, utf16_jsRepeat c h]

/-- The branches of `validateMessage` on a string that is not empty. -/
theorem validateMessage_string (sm : SecurityManager) (s : String) (hne : s ≠ "") :
    validateMessage sm (.string s) =
      if (jsLength s : Int) > sm.maxMessageLength then tooLongResult sm.maxMessageLength
      else if suspiciousPatterns.any (fun pattern => pattern.test true (utf16 s)) then
        suspiciousResult
      else if repeatedChars.test false (utf16 s) then spamResult
      else validResult := by
  have h0 : jsLength s ≠ 0 := fun h => hne ((jsLength_eq_zero_iff s).mp h)
  simp only [validateMessage, if_neg hne, if_neg h0]

/-- C11: a string that is not empty and longer than `maxMessageLength` is rejected as
`too_long` whatever it contains, no string of length at most `maxMessageLength` is
rejected as `too_long`, and the empty string under a negative `maxMessageLength`,
although longer than the maximum, is rejected as `invalid_type`. -/
theorem c11_too_long_except_for_the_empty_text (sm : SecurityManager) (s : String) :
    (s ≠ "" → sm.maxMessageLength < (jsLength s : Int) →
      validateMessage sm (.string s) = tooLongResult sm.maxMessageLength) ∧
    (0 ≤ sm.maxMessageLength → sm.maxMessageLength < (jsLength s : Int) →
      validateMessage sm (.string s) = tooLongResult sm.maxMessageLength) ∧
    ((jsLength s : Int) ≤ sm.maxMessageLength →
      (validateMessage sm (.string s)).reason ≠ "too_long") ∧
    (sm.maxMessageLength < 0 →
      sm.maxMessageLength < (jsLength "" : Int) ∧
        validateMessage sm (.string "") = invalidTypeResult ∧
        (validateMessage sm (.string "")).reason ≠ "too_long") := by
  have key : s ≠ "" → sm.maxMessageLength < (jsLength s : Int) →
      validateMessage sm (.string s) = tooLongResult sm.maxMessageLength := by
    intro hne hlen
    rw [validateMessage_string sm s hne, if_pos hlen]
  refine ⟨key, ?_, ?_, ?_⟩
  · intro hmax hlen
    apply key _ hlen
    rintro rfl
    have : jsLength "" = 0 := rfl
    rw [this] at hlen
    simp at hlen
    omega
  · intro hlen
    by_cases hne : s = ""
    · subst hne
      simp only [validateMessage, if_true]
      decide
    · rw [validateMessage_string sm s hne, if_neg (by omega)]
      split_ifs <;> decide
  · intro hmax
    refine ⟨?_, ?_, ?_⟩
    · have : jsLength "" = 0 := rfl
      rw [this]
      simpa using hmax
    · simp only [validateMessage, if_true]
    · simp only [validateMessage, if_true]
      decide

/-- The scenario of C11: with `maxMessageLength` 5000, `a` repeated 6001 times and `a`
repeated 6000 times are both rejected as `too_long`. -/
theorem c11_too_long_except_for_the_empty_text_witness :
    validateMessage (SecurityManager.fresh 5000) (.string (jsRepeat 'a' 6001)) =
        tooLongResult 5000 ∧
      validateMessage (SecurityManager.fresh 5000) (.string (jsRepeat 'a' 6000)) =
        tooLongResult 5000 :=
  ⟨(c11_too_long_except_for_the_empty_text (SecurityManager.fresh 5000)
      (jsRepeat 'a' 6001)).2.1 (by decide)
      (by rw [jsLength_jsRepeat 'a' (by decide)]; decide),
   (c11_too_long_except_for_the_empty_text (SecurityManager.fresh 5000)
      (jsRepeat 'a' 6000)).2.1 (by decide)
      (by rw [jsLength_jsRepeat 'a' (by decide)]; decide)⟩

/-- C12: `validateMessage` answers `invalid_type` to every value that is not a string
and also to the empty string, which never reaches the `empty` branch: no input at all
is answered with reason `empty`. -/
theorem c12_empty_text_rejected_as_invalid_type (sm : SecurityManager) :
    (∀ v : JsValue, (∀ s, v ≠ .string s) → validateMessage sm v = invalidTypeResult) ∧
    validateMessage sm .null = invalidTypeResult ∧
    validateMessage sm (.string "") = invalidTypeResult ∧
    validateMessage sm (.string "") ≠ emptyResult ∧
    (∀ v : JsValue, (validateMessage sm v).reason ≠ "empty") := by
  have hnon : ∀ v : JsValue, (∀ s, v ≠ .string s) →
      validateMessage sm v = invalidTypeResult := by
    intro v hv
    cases v with
    | string s => exact absurd rfl (hv s)
    | _ => rfl
  refine ⟨hnon, rfl, ?_, ?_, ?_⟩
  · simp only [validateMessage, if_true]
  · simp only [validateMessage, if_true]
    decide
  · intro v
    by_cases hv : ∃ s, v = .string s
    · obtain ⟨s, rfl⟩ := hv
      by_cases hne : s = ""
      · subst hne
        simp only [validateMessage, if_true]
        decide
      · rw [validateMessage_string sm s hne]
        split_ifs
        · show "too_long" ≠ "empty"
          decide
        all_goals decide
    · rw [hnon v (fun s hs => hv ⟨s, hs⟩)]
      decide

/-- C13: a string that is not empty, is no longer than `maxMessageLength` and holds, in
any letter case, `javascript:`, `data:text/html`, an event-handler attribute or a
`<script ...>...</script>` element is rejected as `suspicious_content`, whatever runs
of equal characters it holds besides. -/
theorem c13_suspicious_content_rejected (sm : SecurityManager) (s : String)
    (hne : s ≠ "") (hlen : (jsLength s : Int) ≤ sm.maxMessageLength)
    (h : containsIgnoringCase (utf16 s) "javascript:" ∨
      containsIgnoringCase (utf16 s) "data:text/html" ∨
      hasEventHandler (utf16 s) ∨ hasScriptElement (utf16 s)) :
    validateMessage sm (.string s) = suspiciousResult := by
  rw [validateMessage_string sm s hne, if_neg (by omega), if_pos]
  simp only [suspiciousPatterns, List.any_cons, List.any_nil, Bool.or_false,
    Bool.or_eq_true]
  rcases h with h | h | h | h
  · exact Or.inr (Or.inl (test_lit_of_contains "javascript:" _ (by decide) h))
  · exact Or.inr (Or.inr (Or.inr (test_lit_of_contains "data:text/html" _ (by decide) h)))
  · exact Or.inr (Or.inr (Or.inl (test_handlerPattern _ h)))
  · exact Or.inl (test_scriptPattern _ h)

/-- A text of twelve `a` followed by a `JavaScript:` address is rejected as
`suspicious_content`, not as `spam_detected`. -/
theorem c13_suspicious_content_rejected_witness :
    validateMessage (SecurityManager.fresh 5000)
      (.string "aaaaaaaaaaaa JavaScript:alert(1)") = suspiciousResult :=
  c13_suspicious_content_rejected (SecurityManager.fresh 5000)
    "aaaaaaaaaaaa JavaScript:alert(1)" (by decide) (by decide)
    (Or.inl ⟨utf16 "aaaaaaaaaaaa ", utf16 "JavaScript:", utf16 "alert(1)", by decide,
      by unfold sameLetters; decide⟩)

/-! ### Runs of equal characters and runs of equal code units -/

theorem utf16Char_bmp (c : Char) (h : c.toNat < 0x10000) : utf16Char c = [c.toNat] := by
  simp [utf16Char, h]

theorem char_not_surrogate (c : Char) :
    (c.toNat < 0xD800 ∨ 0xDFFF < c.toNat) ∧ c.toNat < 0x110000 := by
  have h := c.valid
  simp only [UInt32.isValidChar, Nat.isValidChar] at h
  have e : c.toNat = c.val.toNat := rfl
  omega

theorem utf16Char_astral (c : Char) (h : ¬ c.toNat < 0x10000) :
    ∃ hi lo, utf16Char c = [hi, lo] ∧ 0xD800 ≤ hi ∧ hi < 0xDC00 ∧ 0xDC00 ≤ lo ∧
      lo < 0xE000 := by
  have hv := (char_not_surrogate c).2
  refine ⟨0xD800 + (c.toNat - 0x10000) / 0x400, 0xDC00 + (c.toNat - 0x10000) % 0x400,
    by simp [utf16Char, h], ?_, ?_, ?_, ?_⟩ <;> omega

theorem char_eq_of_toNat_eq (c d : Char) (h : c.toNat = d.toNat) : c = d := by
  apply Char.ext
  apply UInt32.ext
  exact h

/-- A text whose code units start with `m` copies of the number of a character starts
with `m` copies of that character. -/
theorem chars_of_unit_run (c : Char) :
    ∀ (m : Nat) (cs : List Char) (post : List Nat),
      cs.flatMap utf16Char = List.replicate m c.toNat ++ post →
      ∃ rest, cs = List.replicate m c ++ rest := by
  intro m
  induction m with
  | zero => intro cs post _; exact ⟨cs, rfl⟩
  | succ m ih =>
    intro cs post h
    cases cs with
    | nil => simp [List.replicate_succ] at h
    | cons d rest =>
      rw [List.flatMap_cons, List.replicate_succ] at h
      by_cases hd : d.toNat < 0x10000
      · rw [utf16Char_bmp d hd] at h
        simp only [List.singleton_append, List.cons_append, List.cons.injEq] at h
        obtain ⟨rest2, hrest⟩ := ih rest post h.2
        refine ⟨rest2, ?_⟩
        rw [char_eq_of_toNat_eq d c h.1, hrest, List.replicate_succ, List.cons_append]
      · obtain ⟨hi, lo, hpair, h1, h2, _, _⟩ := utf16Char_astral d hd
        rw [hpair] at h
        simp only [List.cons_append, List.cons.injEq] at h
        have := (char_not_surrogate c).1
        omega

/-- A run of two or more equal code units in the UTF-16 form of a text is the image of
a run, of the same length, of one character of the Basic Multilingual Plane. -/
theorem chars_of_unit_run_inside (u n : Nat) :
    ∀ (cs : List Char) (pre post : List Nat),
      cs.flatMap utf16Char = pre ++ List.replicate (n + 2) u ++ post →
      ∃ c pre2 post2, c.toNat = u ∧ c.toNat < 0x10000 ∧
        cs = pre2 ++ List.replicate (n + 2) c ++ post2 := by
  intro cs
  induction cs with
  | nil =>
    intro pre post h
    have hl := congrArg List.length h
    simp at hl
    omega
  | cons d rest ih =>
    intro pre post h
    rw [List.flatMap_cons] at h
    by_cases hd : d.toNat < 0x10000
    · rw [utf16Char_bmp d hd] at h
      cases pre with
      | nil =>
        rw [List.nil_append, List.replicate_succ] at h
        simp only [List.singleton_append, List.cons_append, List.cons.injEq] at h
        obtain ⟨hu, hrest⟩ := h
        rw [← hu] at hrest
        obtain ⟨rest2, hrest2⟩ := chars_of_unit_run d (n + 1) rest post hrest
        refine ⟨d, [], rest2, hu, hd, ?_⟩
        rw [hrest2, List.nil_append, List.replicate_succ (n := n + 1), List.cons_append]
      | cons p pre2 =>
        simp only [List.singleton_append, List.cons_append, List.cons.injEq] at h
        obtain ⟨c, pre3, post3, hcu, hc, hrest⟩ := ih pre2 post h.2
        refine ⟨c, d :: pre3, post3, hcu, hc, ?_⟩
        rw [hrest]
        simp
    · obtain ⟨hi, lo, hpair, h1, h2, h3, h4⟩ := utf16Char_astral d hd
      rw [hpair] at h
      cases pre with
      | nil =>
        rw [List.nil_append, List.replicate_succ, List.replicate_succ] at h
        simp only [List.cons_append, List.cons.injEq] at h
        omega
      | cons p pre2 =>
        cases pre2 with
        | nil =>
          rw [List.replicate_succ] at h
          simp only [List.cons_append, List.nil_append, List.cons.injEq] at h
          obtain ⟨_, hlo, hrest⟩ := h
          cases rest with
          | nil => simp [List.replicate_succ] at hrest
          | cons e rest2 =>
            rw [List.flatMap_cons, List.replicate_succ] at hrest
            by_cases he : e.toNat < 0x10000
            · rw [utf16Char_bmp e he] at hrest
              simp only [List.singleton_append, List.cons_append, List.cons.injEq] at hrest
              have := (char_not_surrogate e).1
              omega
            · obtain ⟨hi2, lo2, hpair2, g1, g2, _, _⟩ := utf16Char_astral e he
              rw [hpair2] at hrest
              simp only [List.cons_append, List.cons.injEq] at hrest
              omega
        | cons q pre3 =>
          simp only [List.cons_append, List.cons.injEq] at h
          obtain ⟨c, pre4, post4, hcu, hc, hrest⟩ := ih pre3 post h.2.2
          refine ⟨c, d :: pre4, post4, hcu, hc, ?_⟩
          rw [hrest]
          simp

theorem flatMap_utf16Char_replicate (c : Char) (hc : c.toNat < 0x10000) (n : Nat) :
    (List.replicate n c).flatMap utf16Char = List.replicate n c.toNat := by
  induction n with
  | zero => rfl
  | succ n ih =>
    rw [List.replicate_succ, List.flatMap_cons, ih, utf16Char_bmp c hc, List.replicate_succ]
    rfl

/-- The code units of a text hold a run of `n + 2` equal units other than line
terminators exactly when the text holds a run of `n + 2` copies of one character of the
Basic Multilingual Plane that is no line terminator. -/
theorem unit_run_iff_char_run (s : String) (n : Nat) :
    (∃ u, isLineTerminator u = false ∧ hasRun (utf16 s) u (n + 2)) ↔
      ∃ c : Char, c.toNat < 0x10000 ∧ isLineTerminator c.toNat = false ∧
        hasCharRun s c (n + 2) := by
  constructor
  · rintro ⟨u, hu, pre, post, h⟩
    obtain ⟨c, pre2, post2, hcu, hc, hcs⟩ :=
      chars_of_unit_run_inside u n s.data pre post h
    exact ⟨c, hc, by rw [hcu]; exact hu, pre2, post2, hcs⟩
  · rintro ⟨c, hc, hlt, pre, post, h⟩
    refine ⟨c.toNat, hlt, pre.flatMap utf16Char, post.flatMap utf16Char, ?_⟩
    simp only [utf16]
    rw [h, List.flatMap_append, List.flatMap_append, flatMap_utf16Char_replicate c hc]

/-- C14: of a string that is not empty, is no longer than `maxMessageLength` and matches
no suspicious pattern, `validateMessage` answers `spam_detected` exactly when the
string holds eleven copies in a row of one character of the Basic Multilingual Plane
other than a line terminator, and answers `valid` otherwise, in particular when no
character at all occurs eleven times in a row. -/
theorem c14_spam_is_a_run_within_one_line (sm : SecurityManager) (s : String)
    (hne : s ≠ "") (hlen : (jsLength s : Int) ≤ sm.maxMessageLength)
    (hclean : suspiciousPatterns.any (fun pattern => pattern.test true (utf16 s)) = false) :
    (validateMessage sm (.string s) = spamResult ↔
      ∃ c : Char, c.toNat < 0x10000 ∧ isLineTerminator c.toNat = false ∧
        hasCharRun s c 11) ∧
    ((¬ ∃ c : Char, c.toNat < 0x10000 ∧ isLineTerminator c.toNat = false ∧
        hasCharRun s c 11) → validateMessage sm (.string s) = validResult) ∧
    ((¬ ∃ c : Char, hasCharRun s c 11) → validateMessage sm (.string s) = validResult) := by
  have hv : validateMessage sm (.string s) =
      if repeatedChars.test false (utf16 s) then spamResult else validResult := by
    rw [validateMessage_string sm s hne, if_neg (by omega), hclean]
    simp
  have hiff : repeatedChars.test false (utf16 s) = true ↔
      ∃ c : Char, c.toNat < 0x10000 ∧ isLineTerminator c.toNat = false ∧
        hasCharRun s c 11 := by
    rw [test_repeatedChars]
    exact unit_run_iff_char_run s 9
  have hvalid : (¬ ∃ c : Char, c.toNat < 0x10000 ∧ isLineTerminator c.toNat = false ∧
      hasCharRun s c 11) → validateMessage sm (.string s) = validResult := by
    intro hno
    rw [hv, if_neg (fun ht => hno (hiff.mp ht))]
  refine ⟨?_, hvalid, ?_⟩
  · rw [hv]
    constructor
    · intro h
      by_cases ht : repeatedChars.test false (utf16 s) = true
      · exact hiff.mp ht
      · rw [if_neg ht] at h
        exact absurd h (by decide)
    · intro h
      rw [if_pos (hiff.mpr h)]
  · intro hno
    apply hvalid
    rintro ⟨c, _, _, hrun⟩
    exact hno ⟨c, hrun⟩

/-- Twelve `a` in a row are rejected as `spam_detected`. -/
theorem c14_spam_is_a_run_within_one_line_witness :
    validateMessage (SecurityManager.fresh 5000) (.string "hello aaaaaaaaaaaa") =
      spamResult :=
  (c14_spam_is_a_run_within_one_line (SecurityManager.fresh 5000) "hello aaaaaaaaaaaa"
    (by decide) (by decide) (by decide)).1.mpr
    ⟨'a', by decide, by decide, "hello ".data, "a".data, by decide⟩

/-- Eleven line feeds in a row, and eleven copies of a character outside the Basic
Multilingual Plane, are texts of at most 5000 code units that match no suspicious
pattern and hold one character eleven times in a row; both are answered `valid`. -/
theorem c14_line_breaks_and_astral_runs_pass :
    (jsRepeat '\n' 11 ≠ "" ∧ (jsLength (jsRepeat '\n' 11) : Int) ≤ 5000 ∧
      suspiciousPatterns.any (fun pattern => pattern.test true (utf16 (jsRepeat '\n' 11)))
        = false ∧
      hasCharRun (jsRepeat '\n' 11) '\n' 11 ∧
      validateMessage (SecurityManager.fresh 5000) (.string (jsRepeat '\n' 11))
        = validResult) ∧
    (jsRepeat '😀' 11 ≠ "" ∧ (jsLength (jsRepeat '😀' 11) : Int) ≤ 5000 ∧
      suspiciousPatterns.any (fun pattern => pattern.test true (utf16 (jsRepeat '😀' 11)))
        = false ∧
      hasCharRun (jsRepeat '😀' 11) '😀' 11 ∧
      validateMessage (SecurityManager.fresh 5000) (.string (jsRepeat '😀' 11))
        = validResult) :=
  ⟨⟨by decide, by decide, by decide, ⟨[], [], by decide⟩, by decide⟩,
   ⟨by decide, by decide, by decide, ⟨[], [], by decide⟩, by decide⟩⟩

/-! ### `validateCommand` -/

/-- What `commandPermissions[command] || ['admin']` holds for a name that is not
inherited from `Object.prototype`. -/
theorem commandPermissionsLookup_own (command : String) (h : command ∉ objectPrototypeKeys) :
    commandPermissionsLookup command = .permissions (requiredRoles command) ∨
      (commandPermissionsLookup command = .undefined ∧ requiredRoles command = ["admin"]) := by
  by_cases h1 : command = "help"
  · subst h1; exact Or.inl (by decide)
  by_cases h2 : command = "ask"
  · subst h2; exact Or.inl (by decide)
  by_cases h3 : command = "search"
  · subst h3; exact Or.inl (by decide)
  by_cases h4 : command = "read"
  · subst h4; exact Or.inl (by decide)
  by_cases h5 : command = "status"
  · subst h5; exact Or.inl (by decide)
  by_cases h6 : command = "ping"
  · subst h6; exact Or.inl (by decide)
  by_cases h7 : command = "admin_restart"
  · subst h7; exact Or.inl (by decide)
  by_cases h8 : command = "admin_config"
  · subst h8; exact Or.inl (by decide)
  by_cases h9 : command = "admin_cache_clear"
  · subst h9; exact Or.inl (by decide)
  by_cases h10 : command = "admin_metrics"
  · subst h10; exact Or.inl (by decide)
  refine Or.inr ⟨?_, ?_⟩
  · simp only [commandPermissionsLookup, if_neg h1, if_neg h2, if_neg h3, if_neg h4,
      if_neg h5, if_neg h6, if_neg h7, if_neg h8, if_neg h9, if_neg h10, if_neg h]
  · simp [requiredRoles, h1, h2, h3, h4, h5, h6, h7, h8, h9, h10]

/-- The branches of `validateCommand` for a name that is not inherited from
`Object.prototype`. -/
theorem validateCommand_own (command : String) (args : Option (List String))
    (role : String) (h : command ∉ objectPrototypeKeys) :
    validateCommand command args role =
      if ¬ rolePermitted command role then
        { valid := false, reason := "insufficient_permissions",
          details := some ("Команда " ++ command ++ " недоступна для ролі " ++ role) }
      else if command = "ask" then
        if argsMissing args then
          { valid := false, reason := "missing_arguments",
            details := some "Потрібно вказати питання" }
        else validResult
      else if command = "search" ∨ command = "read" then
        if argsMissing args then
          { valid := false, reason := "missing_arguments",
            details := some "Потрібно вказати назву файлу" }
        else validResult
      else validResult := by
  have hp : (¬ rolePermitted command role) ↔
      (¬ ("all" ∈ requiredRoles command) ∧ ¬ (role ∈ requiredRoles command)) := by
    unfold rolePermitted
    exact not_or
  rcases commandPermissionsLookup_own command h with hl | ⟨hl, hr⟩
  · simp only [validateCommand, hl, hp]
  · simp only [validateCommand, hl, hp, hr]

/-- The answer of `validateCommand` to a name inherited from `Object.prototype`. -/
theorem validateCommand_inherited (command : String) (args : Option (List String))
    (role : String) (h : command ∈ objectPrototypeKeys) :
    validateCommand command args role = includesTypeError := by
  have hl : commandPermissionsLookup command = .inherited := by
    unfold commandPermissionsLookup
    have h' := h
    simp only [objectPrototypeKeys, List.mem_cons, List.mem_singleton, List.not_mem_nil,
      or_false] at h'
    rcases h' with h' | h' | h' | h' | h' | h' | h' | h' | h' | h' | h' | h' <;>
      subst h' <;> rfl
  simp only [validateCommand, hl]

/-- C15: for every action name that is not inherited from `Object.prototype`,
`validateCommand` answers `insufficient_permissions` exactly when the required role
set holds neither `all` nor the role; the examples of the claim follow. For the
inherited names, as `constructor`, whose required set is `admin` alone, the answer is
`validation_error` for every role: guest is not refused with
`insufficient_permissions`, and admin is not permitted. -/
theorem c15_permission_law_and_inherited_names :
    (∀ command args role, command ∉ objectPrototypeKeys →
      (((validateCommand command args role).reason = "insufficient_permissions" ∧
          (validateCommand command args role).valid = false) ↔
        ("all" ∉ requiredRoles command ∧ role ∉ requiredRoles command)) ∧
      ((validateCommand command args role).reason = "insufficient_permissions" ↔
        ("all" ∉ requiredRoles command ∧ role ∉ requiredRoles command))) ∧
    (∀ args, (validateCommand "ask" args "guest").reason = "insufficient_permissions") ∧
    (∀ args, (validateCommand "admin_restart" args "user").reason =
      "insufficient_permissions") ∧
    (∀ args, validateCommand "admin_restart" args "admin" = validResult) ∧
    (∀ args role, validateCommand "help" args role = validResult) ∧
    (requiredRoles "find" = ["admin"] ∧
      (∀ args, validateCommand "find" args "admin" = validResult) ∧
      (∀ args role, role ≠ "admin" →
        (validateCommand "find" args role).reason = "insufficient_permissions")) ∧
    (requiredRoles "constructor" = ["admin"] ∧
      (∀ args role, validateCommand "constructor" args role = includesTypeError) ∧
      (validateCommand "constructor" (some []) "guest").reason ≠
        "insufficient_permissions" ∧
      (validateCommand "constructor" (some []) "admin").valid = false) := by
  have law : ∀ command args role, command ∉ objectPrototypeKeys →
      ((validateCommand command args role).reason = "insufficient_permissions" ↔
        ("all" ∉ requiredRoles command ∧ role ∉ requiredRoles command)) := by
    intro command args role h
    rw [validateCommand_own command args role h]
    have hp : (¬ rolePermitted command role) ↔
        ("all" ∉ requiredRoles command ∧ role ∉ requiredRoles command) := by
      unfold rolePermitted
      exact not_or
    by_cases hperm : rolePermitted command role
    · rw [if_neg (not_not.mpr hperm)]
      constructor
      · intro hr
        exfalso
        revert hr
        split_ifs <;> decide
      · intro hr
        exact absurd hperm (hp.mpr hr)
    · rw [if_pos hperm]
      exact ⟨fun _ => hp.mp hperm, fun _ => rfl⟩
  have lawValid : ∀ command args role, command ∉ objectPrototypeKeys →
      (validateCommand command args role).reason = "insufficient_permissions" →
      (validateCommand command args role).valid = false := by
    intro command args role h
    rw [validateCommand_own command args role h]
    split_ifs <;> first | (intro _; rfl) | (intro hr; exact absurd hr (by decide))
  refine ⟨?_, ?_, ?_, ?_, ?_, ⟨rfl, ?_, ?_⟩, ⟨rfl, ?_, ?_, ?_⟩⟩
  · intro command args role h
    refine ⟨⟨fun hr => (law command args role h).mp hr.1, fun hr => ?_⟩, law command args role h⟩
    have := (law command args role h).mpr hr
    exact ⟨this, lawValid command args role h this⟩
  · intro args
    exact (law "ask" args "guest" (by decide)).mpr (by decide)
  · intro args
    exact (law "admin_restart" args "user" (by decide)).mpr (by decide)
  · intro args
    rw [validateCommand_own _ _ _ (by decide)]
    rfl
  · intro args role
    have hperm : rolePermitted "help" role := Or.inl (by decide)
    rw [validateCommand_own _ _ _ (by decide), if_neg (not_not.mpr hperm)]
    rfl
  · intro args
    rw [validateCommand_own _ _ _ (by decide)]
    rfl
  · intro args role hrole
    apply (law "find" args role (by decide)).mpr
    refine ⟨by decide, ?_⟩
    show role ∉ ["admin"]
    simpa using hrole
  · intro args role
    exact validateCommand_inherited "constructor" args role (by decide)
  · rw [validateCommand_inherited "constructor" _ _ (by decide)]
    decide
  · rw [validateCommand_inherited "constructor" _ _ (by decide)]
    rfl

theorem argsMissing_iff (args : Option (List String)) :
    argsMissing args = true ↔ args = none ∨ args = some [] := by
  cases args with
  | none => simp [argsMissing]
  | some l => cases l <;> simp [argsMissing]

/-- C16: for `ask`, `search` and `read` and a role permitted for the action,
`validateCommand` answers `missing_arguments` exactly when `args` is absent or has no
element, and `valid` otherwise; for every other action the answer does not depend on
the arguments and is never `missing_arguments`; a role that is not permitted is
answered `insufficient_permissions` whatever the arguments when the action name is not
inherited from `Object.prototype`. For an inherited name the answer is
`validation_error` whatever the role and the arguments: `constructor` asks for `admin`,
`guest` is not permitted, and `validateCommand("constructor", ["x"], "guest")` is not
answered `insufficient_permissions`. -/
theorem c16_missing_arguments_law (command : String) (args : Option (List String))
    (role : String) :
    ((command = "ask" ∨ command = "search" ∨ command = "read") →
      rolePermitted command role →
      (((validateCommand command args role).reason = "missing_arguments" ∧
          (validateCommand command args role).valid = false) ↔
        (args = none ∨ args = some [])) ∧
      (¬ (args = none ∨ args = some []) →
        validateCommand command args role = validResult)) ∧
    (¬ (command = "ask" ∨ command = "search" ∨ command = "read") →
      (∀ others, validateCommand command others role = validateCommand command args role) ∧
      (validateCommand command args role).reason ≠ "missing_arguments") ∧
    (command ∉ objectPrototypeKeys → ¬ rolePermitted command role →
      ∀ others, (validateCommand command others role).reason = "insufficient_permissions" ∧
        (validateCommand command others role).valid = false) ∧
    (command ∈ objectPrototypeKeys →
      ∀ others, validateCommand command others role = includesTypeError ∧
        (validateCommand command others role).reason ≠ "insufficient_permissions") ∧
    ("constructor" ∈ objectPrototypeKeys ∧ ¬ rolePermitted "constructor" "guest" ∧
      (validateCommand "constructor" (some ["x"]) "guest").reason = "validation_error" ∧
      (validateCommand "constructor" (some ["x"]) "guest").valid = false) := by
  refine ⟨?_, ?_, ?_, ?_, by decide, by decide, ?_, ?_⟩
  · intro hc hperm
    have hown : command ∉ objectPrototypeKeys := by
      rcases hc with h | h | h <;> subst h <;> decide
    rw [validateCommand_own command args role hown, if_neg (not_not.mpr hperm)]
    have hm := argsMissing_iff args
    by_cases hmiss : argsMissing args = true
    · have hargs := hm.mp hmiss
      rcases hc with h | h | h <;> subst h <;>
        simp only [hmiss, if_true, if_false] <;>
        exact ⟨⟨fun _ => hargs, fun _ => by decide⟩, fun hn => absurd hargs hn⟩
    · have hargs : ¬ (args = none ∨ args = some []) := fun h => hmiss (hm.mpr h)
      rcases hc with h | h | h <;> subst h <;>
        simp only [hmiss, if_true, if_false] <;>
        exact ⟨⟨fun hr => absurd hr.1 (by decide), fun h => absurd h hargs⟩, fun _ => by trivial⟩
  · intro hc
    have h1 : command ≠ "ask" := fun h => hc (Or.inl h)
    have h2 : ¬ (command = "search" ∨ command = "read") := fun h => hc (Or.inr h)
    by_cases hown : command ∈ objectPrototypeKeys
    · refine ⟨fun others => ?_, ?_⟩
      · rw [validateCommand_inherited command others role hown,
          validateCommand_inherited command args role hown]
      · rw [validateCommand_inherited command args role hown]
        decide
    · refine ⟨fun others => ?_, ?_⟩
      · rw [validateCommand_own command others role hown,
          validateCommand_own command args role hown]
        simp only [if_neg h1, if_neg h2]
      · rw [validateCommand_own command args role hown]
        simp only [if_neg h1, if_neg h2]
        split_ifs
        · decide
        · show "insufficient_permissions" ≠ "missing_arguments"
          decide
  · intro hown hperm others
    rw [validateCommand_own command others role hown, if_pos hperm]
    exact ⟨rfl, rfl⟩
  · intro hown others
    rw [validateCommand_inherited command others role hown]
    exact ⟨rfl, by decide⟩
  · rw [validateCommand_inherited "constructor" _ _ (by decide)]
    rfl
  · rw [validateCommand_inherited "constructor" _ _ (by decide)]
    rfl

/-- For `ask` and the role `user`: an absent and an empty argument list are answered
`missing_arguments`, one argument is answered `valid`. -/
theorem c16_missing_arguments_law_witness :
    (validateCommand "ask" none "user").reason = "missing_arguments" ∧
      (validateCommand "ask" (some []) "user").reason = "missing_arguments" ∧
      validateCommand "ask" (some ["why"]) "user" = validResult :=
  ⟨(((c16_missing_arguments_law "ask" none "user").1 (Or.inl rfl)
      (Or.inr (by decide))).1.mpr (Or.inl rfl)).1,
   (((c16_missing_arguments_law "ask" (some []) "user").1 (Or.inl rfl)
      (Or.inr (by decide))).1.mpr (Or.inr rfl)).1,
   ((c16_missing_arguments_law "ask" (some ["why"]) "user").1 (Or.inl rfl)
      (Or.inr (by decide))).2 (by decide)⟩

/-! ### `checkUserAccess` and `checkRoomAccess` -/

/-- What `this.roles[userRole]` holds for a name that is not inherited from
`Object.prototype`. -/
theorem rolesLookup_own (role : String) (h : role ∉ objectPrototypeKeys) :
    rolesLookup role = .permissions (rolePermissions role) ∨
      (rolesLookup role = .undefined ∧ rolePermissions role = []) := by
  by_cases h1 : role = "admin"
  · subst h1; exact Or.inl (by decide)
  by_cases h2 : role = "moderator"
  · subst h2; exact Or.inl (by decide)
  by_cases h3 : role = "user"
  · subst h3; exact Or.inl (by decide)
  by_cases h4 : role = "guest"
  · subst h4; exact Or.inl (by decide)
  refine Or.inr ⟨?_, ?_⟩
  · simp only [rolesLookup, if_neg h1, if_neg h2, if_neg h3, if_neg h4, if_neg h]
  · simp only [rolePermissions, if_neg h1, if_neg h2, if_neg h3, if_neg h4]

/-- C17 (amended): for an identity that is not blocked, `checkUserAccess` resolves the
role to the entry of the role table, or to `guest` when there is no entry or the entry
is the empty string; when that role name is not inherited from `Object.prototype`, the
call is allowed with reason `access_granted` exactly when the role's permission set
holds `all` or the required permission, is denied with reason
`insufficient_permissions` otherwise, and returns the resolved role in both cases. -/
theorem c17_role_resolution_and_permission (sm : SecurityManager) (userId p : String)
    (hfree : userId ∉ sm.blockedUsers)
    (hown : resolvedRole sm userId ∉ objectPrototypeKeys) :
    (JsMap.get sm.allowedUsers userId = none → resolvedRole sm userId = "guest") ∧
    (JsMap.get sm.allowedUsers userId = some "" → resolvedRole sm userId = "guest") ∧
    (∀ r, r ≠ "" → JsMap.get sm.allowedUsers userId = some r → resolvedRole sm userId = r) ∧
    (("all" ∈ rolePermissions (resolvedRole sm userId) ∨
        p ∈ rolePermissions (resolvedRole sm userId)) →
      checkUserAccess sm userId p =
        { allowed := true, reason := "access_granted",
          role := some (resolvedRole sm userId) }) ∧
    (¬ ("all" ∈ rolePermissions (resolvedRole sm userId) ∨
        p ∈ rolePermissions (resolvedRole sm userId)) →
      checkUserAccess sm userId p =
        { allowed := false, reason := "insufficient_permissions",
          role := some (resolvedRole sm userId) }) ∧
    ((checkUserAccess sm userId p).allowed = true ↔
      ("all" ∈ rolePermissions (resolvedRole sm userId) ∨
        p ∈ rolePermissions (resolvedRole sm userId))) := by
  have hcall : checkUserAccess sm userId p =
      if "all" ∈ rolePermissions (resolvedRole sm userId) ∨
          p ∈ rolePermissions (resolvedRole sm userId) then
        { allowed := true, reason := "access_granted",
          role := some (resolvedRole sm userId) }
      else
        { allowed := false, reason := "insufficient_permissions",
          role := some (resolvedRole sm userId) } := by
    rcases rolesLookup_own (resolvedRole sm userId) hown with hl | ⟨hl, hr⟩
    · unfold resolvedRole at hl
      simp only [checkUserAccess, if_neg hfree, hl]
      rfl
    · unfold resolvedRole at hl
      simp only [checkUserAccess, if_neg hfree, hl, hr]
      rfl
  refine ⟨?_, ?_, ?_, ?_, ?_, ?_⟩
  · intro h
    simp only [resolvedRole, h]
  · intro h
    simp only [resolvedRole, h, if_true]
  · intro r hr h
    simp only [resolvedRole, h, if_neg hr]
  · intro h
    rw [hcall, if_pos h]
  · intro h
    rw [hcall, if_neg h]
  · rw [hcall]
    split_ifs with h
    · exact ⟨fun _ => h, fun _ => rfl⟩
    · exact ⟨fun hr => absurd hr (by decide), fun hr => absurd hr h⟩

/-- A moderator asks for `search` and is granted; a user does and is not. -/
theorem c17_role_resolution_and_permission_witness :
    checkUserAccess (SecurityManager.configured
        [("@mod", "moderator"), ("@user", "user")] [] [])
        "@mod" "search" =
      { allowed := true, reason := "access_granted", role := some "moderator" } ∧
    checkUserAccess (SecurityManager.configured
        [("@mod", "moderator"), ("@user", "user")] [] [])
        "@user" "search" =
      { allowed := false, reason := "insufficient_permissions", role := some "user" } :=
  ⟨(c17_role_resolution_and_permission (SecurityManager.configured
      [("@mod", "moderator"), ("@user", "user")] [] [])
      "@mod" "search" (by decide) (by decide)).2.2.2.1 (by decide),
   (c17_role_resolution_and_permission (SecurityManager.configured
      [("@mod", "moderator"), ("@user", "user")] [] [])
      "@user" "search" (by decide) (by decide)).2.2.2.2.1 (by decide)⟩

/-- An identity whose entry in the role table is the empty string (as the
`ALLOWED_USERS` item `@alice:` gives it) is not blocked, has an entry, and the
permission set of the role name `''` is empty; yet `checkUserAccess` grants `help` and
returns the role `guest`. An entry that names a property inherited from
`Object.prototype` is answered with reason `error` and no role. -/
theorem c17_empty_entry_resolves_to_guest :
    (JsMap.get (SecurityManager.configured [("@alice", "")] [] []).allowedUsers "@alice"
        = some "" ∧
      "@alice" ∉ (SecurityManager.configured [("@alice", "")] [] []).blockedUsers ∧
      rolePermissions "" = [] ∧
      checkUserAccess (SecurityManager.configured [("@alice", "")] [] []) "@alice" "help" =
        { allowed := true, reason := "access_granted", role := some "guest" }) ∧
    (rolePermissions "constructor" = [] ∧
      checkUserAccess (SecurityManager.configured [("@bob", "constructor")] [] []) "@bob"
        "help" = { allowed := false, reason := "error", role := none }) := by
  decide

theorem JsMap.has_eq_false_iff {α : Type} (m : JsMap α) (key : String) :
    JsMap.has m key = false ↔ JsMap.get m key = none := by
  unfold JsMap.has
  cases JsMap.get m key <;> simp

/-- C18: with an empty room table `checkRoomAccess` allows every room and permission
with reason `no_restrictions`; with a table that is not empty it answers
`room_not_allowed` (denied) exactly for a room without entry, `access_granted`
(allowed) exactly for a room whose permission list holds `all` or the required
permission, and `insufficient_permissions` (denied) in the remaining case. -/
theorem c18_room_access_cases (sm : SecurityManager) (roomId p : String) :
    (sm.allowedRooms = [] →
      checkRoomAccess sm roomId p = { allowed := true, reason := "no_restrictions" }) ∧
    (sm.allowedRooms ≠ [] →
      (checkRoomAccess sm roomId p = { allowed := false, reason := "room_not_allowed" } ↔
        JsMap.has sm.allowedRooms roomId = false) ∧
      ((checkRoomAccess sm roomId p).reason = "room_not_allowed" ↔
        JsMap.has sm.allowedRooms roomId = false) ∧
      (checkRoomAccess sm roomId p = { allowed := true, reason := "access_granted" } ↔
        ∃ perms, JsMap.get sm.allowedRooms roomId = some perms ∧
          ("all" ∈ perms ∨ p ∈ perms)) ∧
      ((checkRoomAccess sm roomId p).reason = "access_granted" ↔
        ∃ perms, JsMap.get sm.allowedRooms roomId = some perms ∧
          ("all" ∈ perms ∨ p ∈ perms)) ∧
      (checkRoomAccess sm roomId p =
          { allowed := false, reason := "insufficient_permissions" } ↔
        ∃ perms, JsMap.get sm.allowedRooms roomId = some perms ∧
          ¬ ("all" ∈ perms ∨ p ∈ perms)) ∧
      ((checkRoomAccess sm roomId p).allowed = true ↔
        (checkRoomAccess sm roomId p).reason = "access_granted")) := by
  constructor
  · intro h
    simp [checkRoomAccess, h]
  · intro h
    have hlen : ¬ sm.allowedRooms.length = 0 := by
      simpa [List.length_eq_zero] using h
    rw [JsMap.has_eq_false_iff]
    simp only [checkRoomAccess, if_neg hlen]
    cases hget : JsMap.get sm.allowedRooms roomId with
    | none =>
      simp only [true_iff, iff_true]
      refine ⟨trivial, trivial, ?_, ?_, ?_, ?_⟩
      · simp
      · simp
      · simp
      · simp
    | some perms =>
      by_cases hp : "all" ∈ perms ∨ p ∈ perms
      · simp only [if_pos hp]
        refine ⟨?_, ?_, ?_, ?_, ?_, ?_⟩
        · simp
        · simp
        · simp [hp]
        · simp [hp]
        · simp only [RoomAccessResult.mk.injEq, Bool.true_eq_false, false_and, false_iff]
          rintro ⟨perms2, hsome, hno⟩
          cases hsome
          exact hno hp
        · simp
      · simp only [if_neg hp]
        refine ⟨?_, ?_, ?_, ?_, ?_, ?_⟩
        · simp
        · simp
        · simp [hp]
        · simp [hp]
        · simp only [true_iff]
          exact ⟨perms, rfl, hp⟩
        · simp

/-! ### `checkSecurity` -/

theorem checkRateLimit_maxMessageLength (sm : SecurityManager) (userId command : String)
    (limit windowMs now : Int) :
    (checkRateLimit sm userId command limit windowMs now).2.maxMessageLength =
      sm.maxMessageLength := by
  unfold checkRateLimit
  simp only
  split_ifs <;> rfl

theorem validateMessage_congr (sm other : SecurityManager) (message : JsValue)
    (h : sm.maxMessageLength = other.maxMessageLength) :
    validateMessage sm message = validateMessage other message := by
  unfold validateMessage
  rw [h]

/-- C19 (amended): `checkSecurity` runs user access, room access, the rate limiter,
message validation and command validation in this order and stops at the first check
that fails. A denial by access control leaves the manager state as it was; a denial by
the rate limiter, by message validation or by command validation, as well as a grant,
leaves the state `checkRateLimit` left, and when the limiter let the call through the
call stays recorded in the table also when validation then denies it. -/
theorem c19_access_then_limiter_then_validation (sm : SecurityManager)
    (userId roomId command : String) (args : Option (List String)) (message : JsValue)
    (now : Int) :
    ((checkUserAccess sm userId "read").allowed = false →
      checkSecurity sm userId roomId command args message now =
        (SecurityDecision.deny (checkUserAccess sm userId "read").reason
          (some "Доступ користувача заборонено"), sm)) ∧
    ((checkUserAccess sm userId "read").allowed = true →
      (checkRoomAccess sm roomId "read").allowed = false →
      checkSecurity sm userId roomId command args message now =
        (SecurityDecision.deny (checkRoomAccess sm roomId "read").reason
          (some "Доступ до кімнати заборонено"), sm)) ∧
    ((checkUserAccess sm userId "read").allowed = true →
      (checkRoomAccess sm roomId "read").allowed = true →
      (checkRateLimit sm userId command 10 60000 now).1.allowed = false →
      checkSecurity sm userId roomId command args message now =
        (SecurityDecision.deny "rate_limit_exceeded"
          (some "Перевищено ліміт запитів. Спробуйте пізніше."),
          (checkRateLimit sm userId command 10 60000 now).2)) ∧
    ((checkUserAccess sm userId "read").allowed = true →
      (checkRoomAccess sm roomId "read").allowed = true →
      (checkRateLimit sm userId command 10 60000 now).1.allowed = true →
      (validateMessage sm message).valid = false →
      checkSecurity sm userId roomId command args message now =
        (SecurityDecision.deny (validateMessage sm message).reason
          (validateMessage sm message).details,
          (checkRateLimit sm userId command 10 60000 now).2)) ∧
    ((checkUserAccess sm userId "read").allowed = true →
      (checkRoomAccess sm roomId "read").allowed = true →
      (checkRateLimit sm userId command 10 60000 now).1.allowed = true →
      (validateMessage sm message).valid = true →
      (validateCommand command args
        ((checkUserAccess sm userId "read").role.getD "null")).valid = false →
      checkSecurity sm userId roomId command args message now =
        (SecurityDecision.deny
          (validateCommand command args
            ((checkUserAccess sm userId "read").role.getD "null")).reason
          (validateCommand command args
            ((checkUserAccess sm userId "read").role.getD "null")).details,
          (checkRateLimit sm userId command 10 60000 now).2)) ∧
    ((checkUserAccess sm userId "read").allowed = true →
      (checkRoomAccess sm roomId "read").allowed = true →
      (checkRateLimit sm userId command 10 60000 now).1.allowed = true →
      (validateMessage sm message).valid = true →
      (validateCommand command args
        ((checkUserAccess sm userId "read").role.getD "null")).valid = true →
      checkSecurity sm userId roomId command args message now =
        ({ allowed := true, reason := "all_checks_passed", details := none,
           userRole := (checkUserAccess sm userId "read").role,
           rateLimit := some (checkRateLimit sm userId command 10 60000 now).1 },
          (checkRateLimit sm userId command 10 60000 now).2)) ∧
    ((checkUserAccess sm userId "read").allowed = true →
      (checkRoomAccess sm roomId "read").allowed = true →
      (checkRateLimit sm userId command 10 60000 now).1.allowed = true →
      storedTimes (checkSecurity sm userId roomId command args message now).2
          (rateKey userId command) =
        (storedTimes sm (rateKey userId command)).filter
          (fun ts => decide (now - ts < 60000)) ++ [now]) := by
  have hmv : validateMessage (checkRateLimit sm userId command 10 60000 now).2 message =
      validateMessage sm message :=
    validateMessage_congr _ _ _ (checkRateLimit_maxMessageLength sm userId command 10 60000 now)
  have hstate : (checkUserAccess sm userId "read").allowed = true →
      (checkRoomAccess sm roomId "read").allowed = true →
      (checkRateLimit sm userId command 10 60000 now).1.allowed = true →
      (checkSecurity sm userId roomId command args message now).2 =
        (checkRateLimit sm userId command 10 60000 now).2 := by
    intro hu hr hl
    simp only [checkSecurity, hu, hr, hl, hmv, Bool.true_eq_false, if_false]
    split_ifs <;> rfl
  refine ⟨?_, ?_, ?_, ?_, ?_, ?_, ?_⟩
  · intro hu
    simp only [checkSecurity, hu, if_true]
  · intro hu hr
    simp only [checkSecurity, hu, hr, Bool.true_eq_false, if_false, if_true]
  · intro hu hr hl
    simp only [checkSecurity, hu, hr, hl, Bool.true_eq_false, if_false, if_true]
  · intro hu hr hl hm
    simp only [checkSecurity, hu, hr, hl, hmv, hm, Bool.true_eq_false, if_false, if_true]
  · intro hu hr hl hm hc
    simp only [checkSecurity, hu, hr, hl, hmv, hm, hc, Bool.true_eq_false, if_false,
      if_true]
  · intro hu hr hl hm hc
    simp only [checkSecurity, hu, hr, hl, hmv, hm, hc, Bool.true_eq_false, if_false]
  · intro hu hr hl
    rw [hstate hu hr hl, storedTimes_checkRateLimit_same]
    rw [checkRateLimit_result] at hl
    by_cases hlen : (((storedTimes sm (rateKey userId command)).filter
        (fun ts => decide (now - ts < 60000))).length : Int) ≥ 10
    · rw [if_pos hlen] at hl
      simp at hl
    · rw [if_neg hlen]

/-- A blocked identity that sends a message failing `validateMessage` is denied with
reason `user_blocked`, not with the validation reason; and an identity with access
whose message fails validation is denied with the validation reason after the call has
been recorded in the rate-limit table, which was empty before. -/
theorem c19_validation_runs_last :
    (validateMessage (SecurityManager.configured [("@ann", "user")] [] ["@eve"])
        (.string "javascript:alert(1)") = suspiciousResult) ∧
    (checkSecurity (SecurityManager.configured [("@ann", "user")] [] ["@eve"])
        "@eve" "!room" "ask" (some ["hi"]) (.string "javascript:alert(1)") 1000).1 =
      SecurityDecision.deny "user_blocked" (some "Доступ користувача заборонено") ∧
    (checkSecurity (SecurityManager.configured [("@ann", "user")] [] ["@eve"])
        "@ann" "!room" "ask" (some ["hi"]) (.string "javascript:alert(1)") 1000).1 =
      SecurityDecision.deny "suspicious_content" (some "Виявлено підозрілий контент") ∧
    (SecurityManager.configured [("@ann", "user")] [] ["@eve"]).rateLimits = [] ∧
    (checkSecurity (SecurityManager.configured [("@ann", "user")] [] ["@eve"])
        "@ann" "!room" "ask" (some ["hi"]) (.string "javascript:alert(1)") 1000).2.rateLimits
      = [("@ann:ask", [1000])] := by
  decide

/-! ### `isRetryableError` -/

/-- The tests of `isRetryableError` after the test of the code. -/
theorem statusOrMessage_iff (status : Option Int) (message : Option String) :
    (match status.filter (fun status => decide (status ≠ 0)) with
      | some status => decide (status ≥ 500 ∨ status = 429)
      | none =>
        match message.filter (fun m => decide (m ≠ "")) with
        | some m =>
          jsIncludes (jsToLowerCase m) "timeout" || jsIncludes (jsToLowerCase m) "connection"
            || jsIncludes (jsToLowerCase m) "network"
            || jsIncludes (jsToLowerCase m) "econnreset"
            || jsIncludes (jsToLowerCase m) "etimedout"
        | none => false) = true ↔
      ((∃ st, status = some st ∧ st ≠ 0 ∧ (st ≥ 500 ∨ st = 429)) ∨
        ((status = none ∨ status = some 0) ∧
          ∃ m, message = some m ∧
            (jsIncludes (jsToLowerCase m) "timeout" = true ∨
              jsIncludes (jsToLowerCase m) "connection" = true ∨
              jsIncludes (jsToLowerCase m) "network" = true ∨
              jsIncludes (jsToLowerCase m) "econnreset" = true ∨
              jsIncludes (jsToLowerCase m) "etimedout" = true))) := by
  have hempty : ∀ w : String, w ≠ "" → jsIncludes (jsToLowerCase "") w = false := by
    intro w hw
    have hd : w.data ≠ [] := fun h => hw (String.ext h)
    simpa [jsIncludes, jsToLowerCase] using hd
  have hmsg : (match message.filter (fun m => decide (m ≠ "")) with
        | some m =>
          jsIncludes (jsToLowerCase m) "timeout" || jsIncludes (jsToLowerCase m) "connection"
            || jsIncludes (jsToLowerCase m) "network"
            || jsIncludes (jsToLowerCase m) "econnreset"
            || jsIncludes (jsToLowerCase m) "etimedout"
        | none => false) = true ↔
      ∃ m, message = some m ∧
        (jsIncludes (jsToLowerCase m) "timeout" = true ∨
          jsIncludes (jsToLowerCase m) "connection" = true ∨
          jsIncludes (jsToLowerCase m) "network" = true ∨
          jsIncludes (jsToLowerCase m) "econnreset" = true ∨
          jsIncludes (jsToLowerCase m) "etimedout" = true) := by
    cases message with
    | none => simp [Option.filter]
    | some m =>
      by_cases hm : m = ""
      · subst hm
        simp [Option.filter, hempty]
      · simp [Option.filter, hm, or_assoc]
  cases status with
  | none =>
    have e : Option.filter (fun status : Int => decide (status ≠ 0)) none = none := rfl
    rw [e]
    dsimp only
    rw [hmsg]
    simp
  | some st =>
    by_cases hs : st = 0
    · subst hs
      have e : Option.filter (fun status : Int => decide (status ≠ 0)) (some 0) = none := rfl
      rw [e]
      dsimp only
      rw [hmsg]
      simp
    · have e : Option.filter (fun status : Int => decide (status ≠ 0)) (some st) = some st := by
        simp [Option.filter, hs]
      rw [e]
      dsimp only
      simp [hs]

/-- C20 (amended): `isRetryableError` is true exactly when the error code is in the
retryable set, or the error carries a status (other than 0) that is at least 500 or
equal to 429, or the error carries no such status and its message, in lower case, holds
one of the five words. An error with a status below 500 other than 429 and a code
outside the set is not retryable whatever its message says. -/
theorem c20_retryable_exactly (error : JsError) (config : RetryConfig) :
    (isRetryableError error config = true ↔
      ((∃ code, error.code = some code ∧ code ≠ "" ∧ code ∈ config.retryableErrors) ∨
        (∃ status, error.status = some status ∧ status ≠ 0 ∧
          (status ≥ 500 ∨ status = 429)) ∨
        ((error.status = none ∨ error.status = some 0) ∧
          ∃ m, error.message = some m ∧
            (jsIncludes (jsToLowerCase m) "timeout" = true ∨
              jsIncludes (jsToLowerCase m) "connection" = true ∨
              jsIncludes (jsToLowerCase m) "network" = true ∨
              jsIncludes (jsToLowerCase m) "econnreset" = true ∨
              jsIncludes (jsToLowerCase m) "etimedout" = true)))) ∧
    (∀ status, error.status = some status → status ≠ 0 → status < 500 → status ≠ 429 →
      (∀ code, error.code = some code → code ∉ config.retryableErrors) →
      isRetryableError error config = false) := by
  have hcode : (match error.code.filter (fun code => decide (code ≠ "")) with
        | some code => decide (code ∈ config.retryableErrors)
        | none => false) = true ↔
      ∃ code, error.code = some code ∧ code ≠ "" ∧ code ∈ config.retryableErrors := by
    cases error.code with
    | none => simp [Option.filter]
    | some c =>
      by_cases hc : c = ""
      · simp [Option.filter, hc]
      · simp [Option.filter, hc]
  have hmain : isRetryableError error config = true ↔
      ((∃ code, error.code = some code ∧ code ≠ "" ∧ code ∈ config.retryableErrors) ∨
        (∃ status, error.status = some status ∧ status ≠ 0 ∧
          (status ≥ 500 ∨ status = 429)) ∨
        ((error.status = none ∨ error.status = some 0) ∧
          ∃ m, error.message = some m ∧
            (jsIncludes (jsToLowerCase m) "timeout" = true ∨
              jsIncludes (jsToLowerCase m) "connection" = true ∨
              jsIncludes (jsToLowerCase m) "network" = true ∨
              jsIncludes (jsToLowerCase m) "econnreset" = true ∨
              jsIncludes (jsToLowerCase m) "etimedout" = true))) := by
    unfold isRetryableError
    by_cases hit : (match error.code.filter (fun code => decide (code ≠ "")) with
        | some code => decide (code ∈ config.retryableErrors)
        | none => false) = true
    · rw [if_pos hit]
      exact ⟨fun _ => Or.inl (hcode.mp hit), fun _ => rfl⟩
    · rw [if_neg hit, statusOrMessage_iff]
      constructor
      · intro h
        exact Or.inr h
      · rintro (h | h)
        · exact absurd (hcode.mpr h) hit
        · exact h
  refine ⟨hmain, ?_⟩
  intro st hst h0 h500 h429 hno
  rw [Bool.eq_false_iff]
  intro h
  rcases hmain.mp h with ⟨c, hc, _, hin⟩ | ⟨st2, hst2, _, hge⟩ | ⟨hnone, _⟩
  · exact hno c hc hin
  · rw [hst] at hst2
    cases hst2
    omega
  · rw [hst] at hnone
    rcases hnone with hn | hn
    · cases hn
    · cases hn
      exact h0 rfl

/-- An error with status 400, and one with status 404, whose message holds `timeout`
and whose code is absent, is not retryable under the default configuration. -/
theorem c20_client_error_with_timeout_text_not_retried :
    jsIncludes (jsToLowerCase "Request timeout") "timeout" = true ∧
    isRetryableError { code := none, status := some 400, message := some "Request timeout" }
      DEFAULT_CONFIG = false ∧
    isRetryableError { code := none, status := some 404, message := some "Request timeout" }
      DEFAULT_CONFIG = false := by
  decide

/-! ### The jittered delay -/

theorem exponentialDelay_pos (config : RetryConfig) (hbase : 0 < config.baseDelay)
    (hmult : 1 ≤ config.backoffMultiplier) (hcap : config.baseDelay ≤ config.maxDelay)
    (i : Nat) : 0 < exponentialDelay i config := by
  unfold exponentialDelay
  apply lt_min
  · exact mul_pos hbase (pow_pos (by linarith) _)
  · linarith

/-! ### Rounding to the nearest double -/

theorem roundHalfEven_intCast (n : ℤ) : roundHalfEven (n : ℚ) = n := by
  unfold roundHalfEven
  simp

theorem floor_le_roundHalfEven (q : ℚ) : ⌊q⌋ ≤ roundHalfEven q := by
  unfold roundHalfEven
  split_ifs <;> omega

theorem roundHalfEven_le_floor_succ (q : ℚ) : roundHalfEven q ≤ ⌊q⌋ + 1 := by
  unfold roundHalfEven
  split_ifs <;> omega

theorem roundHalfEven_mono (q p : ℚ) (h : q ≤ p) : roundHalfEven q ≤ roundHalfEven p := by
  have hfl : ⌊q⌋ ≤ ⌊p⌋ := Int.floor_le_floor h
  rcases lt_or_eq_of_le hfl with hlt | heq
  · calc roundHalfEven q ≤ ⌊q⌋ + 1 := roundHalfEven_le_floor_succ q
      _ ≤ ⌊p⌋ := hlt
      _ ≤ roundHalfEven p := floor_le_roundHalfEven p
  · unfold roundHalfEven
    rw [heq]
    have hd : q - ⌊p⌋ ≤ p - ⌊p⌋ := by linarith
    split_ifs <;> first | omega | (exfalso; linarith)

/-- A rational closer than one half to an integer is rounded to it. -/
theorem roundHalfEven_near (q : ℚ) (n : ℤ) (h : |q - n| < 1 / 2) : roundHalfEven q = n := by
  have h1 := (abs_lt.mp h).1
  have h2 := (abs_lt.mp h).2
  by_cases hq : (n : ℚ) ≤ q
  · have hf : ⌊q⌋ = n := by
      rw [Int.floor_eq_iff]
      exact ⟨hq, by linarith⟩
    unfold roundHalfEven
    rw [hf, if_pos (by linarith)]
  · have hf : ⌊q⌋ = n - 1 := by
      rw [Int.floor_eq_iff]
      push_cast
      exact ⟨by linarith, by linarith⟩
    unfold roundHalfEven
    rw [hf]
    push_cast
    rw [if_neg (by linarith), if_pos (by linarith)]
    omega

theorem ulp_pos (x : ℚ) : 0 < ulp x := by
  unfold ulp
  positivity

/-- The binade of a positive number. -/
theorem log_eq_of_bounds (x : ℚ) (k : ℤ) (h1 : (2 : ℚ) ^ k ≤ x) (h2 : x < 2 ^ (k + 1)) :
    Int.log 2 x = k := by
  have hx : 0 < x := lt_of_lt_of_le (by positivity) h1
  have a := (Int.zpow_le_iff_le_log (b := 2) (by norm_num) hx).mp (by simpa using h1)
  have b := (Int.lt_zpow_iff_log_lt (b := 2) (by norm_num) hx).mp (by simpa using h2)
  omega

theorem log_bounds (x : ℚ) (hx : 0 < x) :
    (2 : ℚ) ^ Int.log 2 x ≤ x ∧ x < 2 ^ (Int.log 2 x + 1) := by
  have h1 := Int.zpow_log_le_self (b := 2) (r := x) (by norm_num) hx
  have h2 := Int.lt_zpow_succ_log_self (b := 2) (by norm_num) x
  exact ⟨by simpa using h1, by simpa using h2⟩

theorem two_zpow_sub (a b : ℤ) : (2 : ℚ) ^ (a - b) * 2 ^ b = 2 ^ a := by
  rw [← zpow_add₀ (by norm_num)]
  congr 1
  omega

/-- The scaled significand of a positive number lies between `2^52` and `2^53`. -/
theorem ulp_bounds (x : ℚ) (hx : 0 < x) : 2 ^ 52 * ulp x ≤ x ∧ x < 2 ^ 53 * ulp x := by
  have h := log_bounds x hx
  unfold ulp
  have e1 : (2 : ℚ) ^ 52 * 2 ^ (Int.log 2 x - 52) = 2 ^ Int.log 2 x := by
    have := two_zpow_sub (Int.log 2 x) (Int.log 2 x - 52)
    rw [show Int.log 2 x - (Int.log 2 x - 52) = 52 by omega] at this
    exact_mod_cast this
  have e2 : (2 : ℚ) ^ 53 * 2 ^ (Int.log 2 x - 52) = 2 ^ (Int.log 2 x + 1) := by
    have := two_zpow_sub (Int.log 2 x + 1) (Int.log 2 x - 52)
    rw [show Int.log 2 x + 1 - (Int.log 2 x - 52) = 53 by omega] at this
    exact_mod_cast this
  rw [e1, e2]
  exact h

theorem ulp_eq (x : ℚ) (k : ℤ) (h1 : 2 ^ 52 * (2 : ℚ) ^ k ≤ x) (h2 : x < 2 ^ 53 * 2 ^ k) :
    ulp x = 2 ^ k := by
  have e1 : (2 : ℚ) ^ 52 * 2 ^ k = 2 ^ (k + 52) := by
    have := two_zpow_sub (k + 52) k
    rw [show k + 52 - k = 52 by omega] at this
    exact_mod_cast this
  have e2 : (2 : ℚ) ^ 53 * 2 ^ k = 2 ^ (k + 52 + 1) := by
    have := two_zpow_sub (k + 52 + 1) k
    rw [show k + 52 + 1 - k = 53 by omega] at this
    exact_mod_cast this
  rw [e1] at h1
  rw [e2] at h2
  unfold ulp
  rw [log_eq_of_bounds x (k + 52) h1 h2]
  congr 1
  omega

/-- The rounding of a positive number whose scaled significand is closer than one half
to the integer `n`. -/
theorem roundMagnitude_near (x : ℚ) (k n : ℤ) (h1 : 2 ^ 52 * (2 : ℚ) ^ k ≤ x)
    (h2 : x < 2 ^ 53 * 2 ^ k) (hn : |x / 2 ^ k - n| < 1 / 2) :
    roundMagnitude x = n * 2 ^ k := by
  unfold roundMagnitude
  rw [ulp_eq x k h1 h2, roundHalfEven_near _ n hn]

theorem roundMagnitude_bounds (x : ℚ) (hx : 0 < x) :
    2 ^ 52 * ulp x ≤ roundMagnitude x ∧ roundMagnitude x ≤ 2 ^ 53 * ulp x := by
  have hu := ulp_pos x
  have hb := ulp_bounds x hx
  have hq1 : ((2 ^ 52 : ℤ) : ℚ) ≤ x / ulp x := by
    rw [le_div_iff₀ hu]
    exact_mod_cast hb.1
  have hq2 : x / ulp x ≤ ((2 ^ 53 : ℤ) : ℚ) := by
    rw [div_le_iff₀ hu]
    exact_mod_cast hb.2.le
  have r1 := roundHalfEven_mono _ _ hq1
  have r2 := roundHalfEven_mono _ _ hq2
  rw [roundHalfEven_intCast] at r1 r2
  unfold roundMagnitude
  constructor
  · have : ((2 ^ 52 : ℤ) : ℚ) ≤ (roundHalfEven (x / ulp x) : ℚ) := by exact_mod_cast r1
    have h := mul_le_mul_of_nonneg_right this hu.le
    exact_mod_cast h
  · have : (roundHalfEven (x / ulp x) : ℚ) ≤ ((2 ^ 53 : ℤ) : ℚ) := by exact_mod_cast r2
    have h := mul_le_mul_of_nonneg_right this hu.le
    exact_mod_cast h

theorem roundMagnitude_pos (x : ℚ) (hx : 0 < x) : 0 < roundMagnitude x :=
  lt_of_lt_of_le (mul_pos (by norm_num) (ulp_pos x)) (roundMagnitude_bounds x hx).1

theorem roundMagnitude_mono (x y : ℚ) (hx : 0 < x) (h : x ≤ y) :
    roundMagnitude x ≤ roundMagnitude y := by
  have hy : 0 < y := lt_of_lt_of_le hx h
  have hlog : Int.log 2 x ≤ Int.log 2 y := Int.log_mono_right hx h
  rcases lt_or_eq_of_le hlog with hlt | heq
  · have b1 := (roundMagnitude_bounds x hx).2
    have b2 := (roundMagnitude_bounds y hy).1
    have hstep : 2 ^ 53 * ulp x ≤ 2 ^ 52 * ulp y := by
      unfold ulp
      have e1 : (2 : ℚ) ^ 52 * 2 ^ (Int.log 2 y - 52) = 2 ^ Int.log 2 y := by
        have := two_zpow_sub (Int.log 2 y) (Int.log 2 y - 52)
        rw [show Int.log 2 y - (Int.log 2 y - 52) = 52 by omega] at this
        exact_mod_cast this
      have e2 : (2 : ℚ) ^ 53 * 2 ^ (Int.log 2 x - 52) = 2 ^ (Int.log 2 x + 1) := by
        have := two_zpow_sub (Int.log 2 x + 1) (Int.log 2 x - 52)
        rw [show Int.log 2 x + 1 - (Int.log 2 x - 52) = 53 by omega] at this
        exact_mod_cast this
      rw [e1, e2]
      exact zpow_le_zpow_right₀ (by norm_num) (by omega)
    linarith
  · have hu : ulp x = ulp y := by
      unfold ulp
      rw [heq]
    unfold roundMagnitude
    rw [hu]
    have hq : x / ulp y ≤ y / ulp y := div_le_div_of_nonneg_right h (ulp_pos y).le
    have := roundHalfEven_mono _ _ hq
    have hc : (roundHalfEven (x / ulp y) : ℚ) ≤ (roundHalfEven (y / ulp y) : ℚ) := by
      exact_mod_cast this
    exact mul_le_mul_of_nonneg_right hc (ulp_pos y).le

/-- A positive number with a significand of at most 53 bits is kept. -/
theorem roundMagnitude_of_dyadic (n k : ℤ) (hn0 : 0 < n) (hn : n < 2 ^ 53) :
    roundMagnitude ((n : ℚ) * 2 ^ k) = n * 2 ^ k := by
  have hx : (0 : ℚ) < n * 2 ^ k := mul_pos (by exact_mod_cast hn0) (by positivity)
  have hb := log_bounds _ hx
  have hlt : (2 : ℚ) ^ Int.log 2 ((n : ℚ) * 2 ^ k) < 2 ^ (53 + k) := by
    have e : (2 : ℚ) ^ (53 + k) = 2 ^ 53 * 2 ^ k := by
      have := two_zpow_sub (53 + k) k
      rw [show 53 + k - k = 53 by omega] at this
      exact_mod_cast this.symm
    rw [e]
    refine lt_of_le_of_lt hb.1 ?_
    have hn' : (n : ℚ) < 2 ^ 53 := by exact_mod_cast hn
    exact mul_lt_mul_of_pos_right hn' (by positivity)
  have hexp : Int.log 2 ((n : ℚ) * 2 ^ k) < 53 + k :=
    (zpow_lt_zpow_iff_right₀ (by norm_num)).mp hlt
  obtain ⟨e, he⟩ : ∃ e : ℤ, Int.log 2 ((n : ℚ) * 2 ^ k) = e := ⟨_, rfl⟩
  rw [he] at hexp
  have hu : ulp ((n : ℚ) * 2 ^ k) = 2 ^ (e - 52) := by
    unfold ulp
    rw [he]
  obtain ⟨m, hm⟩ : ∃ m : ℕ, k - (e - 52) = m := ⟨(k - (e - 52)).toNat, by omega⟩
  have hk : (2 : ℚ) ^ k = 2 ^ m * 2 ^ (e - 52) := by
    have := two_zpow_sub k (e - 52)
    rw [hm] at this
    rw [← this]
    simp
  unfold roundMagnitude
  rw [hu]
  have hq : (n : ℚ) * 2 ^ k / 2 ^ (e - 52) = ((n * 2 ^ m : ℤ) : ℚ) := by
    rw [div_eq_iff (by positivity), hk]
    push_cast
    ring
  rw [hq, roundHalfEven_intCast, hk]
  push_cast
  ring

/-- The rounding of a positive number has a significand of at most 53 bits. -/
theorem roundMagnitude_dyadic (x : ℚ) (hx : 0 < x) :
    ∃ n k : ℤ, 0 < n ∧ n < 2 ^ 53 ∧ roundMagnitude x = n * 2 ^ k := by
  have hb := roundMagnitude_bounds x hx
  have hu := ulp_pos x
  have hn1 : (2 : ℤ) ^ 52 ≤ roundHalfEven (x / ulp x) := by
    have h := hb.1
    unfold roundMagnitude at h
    have := le_of_mul_le_mul_right h hu
    exact_mod_cast this
  have hn2 : roundHalfEven (x / ulp x) ≤ (2 : ℤ) ^ 53 := by
    have h := hb.2
    unfold roundMagnitude at h
    have := le_of_mul_le_mul_right h hu
    exact_mod_cast this
  rcases lt_or_eq_of_le hn2 with hlt | heq
  · exact ⟨roundHalfEven (x / ulp x), Int.log 2 x - 52, by omega, hlt, rfl⟩
  · refine ⟨1, Int.log 2 x + 1, by norm_num, by norm_num, ?_⟩
    unfold roundMagnitude
    rw [heq]
    unfold ulp
    have := two_zpow_sub (Int.log 2 x + 1) (Int.log 2 x - 52)
    rw [show Int.log 2 x + 1 - (Int.log 2 x - 52) = 53 by omega] at this
    push_cast
    rw [one_mul]
    exact_mod_cast this

theorem roundDouble_pos (x : ℚ) (hx : 0 < x) : roundDouble x = roundMagnitude x := by
  unfold roundDouble
  rw [if_pos hx]

theorem roundDouble_neg_of (x : ℚ) (hx : x < 0) : roundDouble x = - roundMagnitude (-x) := by
  unfold roundDouble
  rw [if_neg (not_lt.mpr hx.le), if_pos hx]

theorem roundDouble_zero : roundDouble 0 = 0 := by
  unfold roundDouble
  simp

theorem roundDouble_neg (x : ℚ) : roundDouble (-x) = - roundDouble x := by
  rcases lt_trichotomy x 0 with h | h | h
  · rw [roundDouble_pos (-x) (by linarith), roundDouble_neg_of x h, neg_neg]
  · subst h
    simp [roundDouble_zero]
  · rw [roundDouble_neg_of (-x) (by linarith), roundDouble_pos x h, neg_neg]

/-- Rounding to the nearest double is monotone. -/
theorem roundDouble_mono (x y : ℚ) (h : x ≤ y) : roundDouble x ≤ roundDouble y := by
  rcases lt_trichotomy x 0 with hx | hx | hx
  · rw [roundDouble_neg_of x hx]
    have hnx := roundMagnitude_pos (-x) (by linarith)
    rcases lt_trichotomy y 0 with hy | hy | hy
    · rw [roundDouble_neg_of y hy]
      have := roundMagnitude_mono (-y) (-x) (by linarith) (by linarith)
      linarith
    · subst hy
      rw [roundDouble_zero]
      linarith
    · rw [roundDouble_pos y hy]
      have := roundMagnitude_pos y hy
      linarith
  · subst hx
    rw [roundDouble_zero]
    rcases lt_or_eq_of_le h with hy | hy
    · rw [roundDouble_pos y hy]
      exact (roundMagnitude_pos y hy).le
    · rw [← hy, roundDouble_zero]
  · rw [roundDouble_pos x hx, roundDouble_pos y (lt_of_lt_of_le hx h)]
    exact roundMagnitude_mono x y hx h

/-- A number with a significand of at most 53 bits is a double: rounding keeps it. -/
theorem roundDouble_of_dyadic (n k : ℤ) (hn : |n| < 2 ^ 53) :
    roundDouble ((n : ℚ) * 2 ^ k) = n * 2 ^ k := by
  have h1 := (abs_lt.mp hn).1
  have h2 := (abs_lt.mp hn).2
  rcases lt_trichotomy n 0 with h | h | h
  · have e : (n : ℚ) * 2 ^ k = - (((-n : ℤ) : ℚ) * 2 ^ k) := by
      push_cast
      ring
    rw [e, roundDouble_neg, roundDouble_pos _ (mul_pos (by exact_mod_cast (by omega : 0 < -n))
      (by positivity)), roundMagnitude_of_dyadic (-n) k (by omega) (by omega)]
  · subst h
    simp [roundDouble_zero]
  · rw [roundDouble_pos _ (mul_pos (by exact_mod_cast h) (by positivity)),
      roundMagnitude_of_dyadic n k h h2]

/-- Every rounded number has a significand of at most 53 bits. -/
theorem roundDouble_dyadic (x : ℚ) :
    ∃ n k : ℤ, |n| < 2 ^ 53 ∧ roundDouble x = n * 2 ^ k := by
  rcases lt_trichotomy x 0 with h | h | h
  · obtain ⟨n, k, hn0, hn, e⟩ := roundMagnitude_dyadic (-x) (by linarith)
    refine ⟨-n, k, ?_, ?_⟩
    · rw [abs_neg, abs_of_pos hn0]
      exact hn
    · rw [roundDouble_neg_of x h, e]
      push_cast
      ring
  · subst h
    exact ⟨0, 0, by norm_num, by simp [roundDouble_zero]⟩
  · obtain ⟨n, k, hn0, hn, e⟩ := roundMagnitude_dyadic x h
    refine ⟨n, k, ?_, ?_⟩
    · rw [abs_of_pos hn0]
      exact hn
    · rw [roundDouble_pos x h, e]

/-- The arithmetic of doubles is sound. -/
theorem binary64_sound : Arithmetic.binary64.Sound := by
  refine ⟨roundDouble_mono, roundDouble_zero, ?_, ?_, ?_, ?_, ?_⟩
  · have := roundDouble_of_dyadic 1 (-1) (by norm_num)
    norm_num at this
    show roundDouble (1 / 2) = 1 / 2
    norm_num
    exact this
  · intro x
    obtain ⟨n, k, hn, e⟩ := roundDouble_dyadic x
    show roundDouble (roundDouble x) = roundDouble x
    rw [e]
    exact roundDouble_of_dyadic n k hn
  · intro x hx
    obtain ⟨n, k, hn, e⟩ := roundDouble_dyadic x
    have hx' : roundDouble x = x := hx
    rw [hx'] at e
    have e2 : x / 2 = (n : ℚ) * 2 ^ (k - 1) := by
      rw [e, zpow_sub₀ (by norm_num)]
      simp
      ring
    show roundDouble (x / 2) = x / 2
    rw [e2]
    exact roundDouble_of_dyadic n (k - 1) hn
  · intro x hx
    have hx' : roundDouble x = x := hx
    show roundDouble (-x) = -x
    rw [roundDouble_neg, hx']
  · intro b n hb
    show 1 ≤ roundDouble (b ^ n)
    have h1 : roundDouble 1 = 1 := by
      have := roundDouble_of_dyadic 1 0 (by norm_num)
      simpa using this
    rw [← h1]
    exact roundDouble_mono _ _ (one_le_pow₀ hb)

/-- Exact arithmetic is sound. -/
theorem exact_sound : Arithmetic.exact.Sound :=
  ⟨fun _ _ h => h, rfl, rfl, fun _ => rfl, fun _ _ => rfl, fun _ _ => rfl,
    fun _ _ hb => one_le_pow₀ hb⟩

/-- In exact arithmetic `calculateDelayIn` is `calculateDelay`. -/
theorem calculateDelayIn_exact (attempt : Nat) (config : RetryConfig) (random : ℚ) :
    exponentialDelayIn Arithmetic.exact attempt config = exponentialDelay attempt config ∧
    calculateDelayIn Arithmetic.exact attempt config random =
      calculateDelay attempt config random :=
  ⟨rfl, rfl⟩

/-- In exact arithmetic, for every attempt `i ≥ 1`, every draw `r` in `[0,1)` and every
policy with `baseDelay > 0`, `backoffMultiplier ≥ 1`, `maxDelay ≥ baseDelay` and jitter
`j` in `[0,1]`, `calculateDelay` is `e + e*j*(r - 1/2)` with
`e = min(baseDelay * backoffMultiplier^(i-1), maxDelay)`, and lies between `e*(1 - j/2)`
and `e*(1 + j/2)`. -/
theorem calculateDelay_exact_bounds (config : RetryConfig) (i : Nat) (r : ℚ)
    (hr0 : 0 ≤ r) (hr1 : r < 1) (hbase : 0 < config.baseDelay)
    (hmult : 1 ≤ config.backoffMultiplier) (hcap : config.baseDelay ≤ config.maxDelay)
    (hj0 : 0 ≤ config.jitter) (hj1 : config.jitter ≤ 1) :
    calculateDelay i config r =
      exponentialDelay i config +
        exponentialDelay i config * config.jitter * (r - 1 / 2) ∧
    exponentialDelay i config * (1 - config.jitter / 2) ≤ calculateDelay i config r ∧
    calculateDelay i config r ≤ exponentialDelay i config * (1 + config.jitter / 2) := by
  have he : 0 < exponentialDelay i config := exponentialDelay_pos config hbase hmult hcap i
  have hej : 0 ≤ exponentialDelay i config * config.jitter := mul_nonneg he.le hj0
  have hej1 : exponentialDelay i config * config.jitter ≤ exponentialDelay i config := by
    nlinarith
  have hlow : 0 < exponentialDelay i config +
      exponentialDelay i config * config.jitter * (r - 1 / 2) := by
    nlinarith [mul_nonneg hej hr0]
  have hval : calculateDelay i config r =
      exponentialDelay i config +
        exponentialDelay i config * config.jitter * (r - 1 / 2) := by
    unfold calculateDelay
    exact max_eq_right hlow.le
  refine ⟨hval, ?_, ?_⟩
  · rw [hval]
    nlinarith [mul_nonneg hej hr0]
  · rw [hval]
    nlinarith [mul_nonneg hej (sub_nonneg.mpr hr1.le)]

/-- C21 (amended): in every sound arithmetic `A` (that of doubles and the exact one are
sound), for every attempt `i ≥ 1`, every draw `r` in `[0,1)` and every policy of Numbers
with `baseDelay > 0`, `backoffMultiplier ≥ 1`, `maxDelay ≥ baseDelay` and jitter `j` in
`[0,1]`: the delay before jitter `e` lies between `baseDelay` and `maxDelay`;
`calculateDelay` returns the rounded sum of `e` and the rounded jitter term, the clamp to
`≥ 0` never changes it; the result lies in the closed interval between `e - (e*j)/2` and
`e + (e*j)/2` as computed in `A`, is at least `e/2`, hence positive, equals `e` when
`j = 0`, and never exceeds `maxDelay + (maxDelay*j)/2` as computed in `A`. In exact
arithmetic the result is `e + e*j*(r - 1/2)` and the interval is that from
`e*(1 - j/2)` to `e*(1 + j/2)`. -/
theorem c21_rounded_delay_bounds (A : Arithmetic) (config : RetryConfig) (i : Nat) (r : ℚ)
    (hA : A.Sound) (_hi : 1 ≤ i) (hr0 : 0 ≤ r) (hr1 : r < 1) (hbase : 0 < config.baseDelay)
    (hmult : 1 ≤ config.backoffMultiplier) (hcap : config.baseDelay ≤ config.maxDelay)
    (hj0 : 0 ≤ config.jitter) (hj1 : config.jitter ≤ 1)
    (hbaseN : A.fl config.baseDelay = config.baseDelay)
    (hmaxN : A.fl config.maxDelay = config.maxDelay) :
    exponentialDelayIn A i config =
      min (A.fl (config.baseDelay * A.pow config.backoffMultiplier (i - 1)))
        config.maxDelay ∧
    config.baseDelay ≤ exponentialDelayIn A i config ∧
    exponentialDelayIn A i config ≤ config.maxDelay ∧
    calculateDelayIn A i config r =
      A.fl (exponentialDelayIn A i config +
        A.fl (A.fl (exponentialDelayIn A i config * config.jitter) * A.fl (r - 1 / 2))) ∧
    A.fl (exponentialDelayIn A i config -
        A.fl (exponentialDelayIn A i config * config.jitter) / 2) ≤
      calculateDelayIn A i config r ∧
    calculateDelayIn A i config r ≤
      A.fl (exponentialDelayIn A i config +
        A.fl (exponentialDelayIn A i config * config.jitter) / 2) ∧
    exponentialDelayIn A i config / 2 ≤ calculateDelayIn A i config r ∧
    0 < calculateDelayIn A i config r ∧
    (config.jitter = 0 → calculateDelayIn A i config r = exponentialDelayIn A i config) ∧
    calculateDelayIn A i config r ≤
      A.fl (config.maxDelay + A.fl (config.maxDelay * config.jitter) / 2) ∧
    (calculateDelayIn Arithmetic.exact i config r =
        exponentialDelayIn Arithmetic.exact i config +
          exponentialDelayIn Arithmetic.exact i config * config.jitter * (r - 1 / 2) ∧
      exponentialDelayIn Arithmetic.exact i config * (1 - config.jitter / 2) ≤
        calculateDelayIn Arithmetic.exact i config r ∧
      calculateDelayIn Arithmetic.exact i config r ≤
        exponentialDelayIn Arithmetic.exact i config * (1 + config.jitter / 2)) := by
  obtain ⟨hmono, h0, hhalf, hidem, hhalve, hneg, hpow⟩ := hA
  have hexact := calculateDelay_exact_bounds config i r hr0 hr1 hbase hmult hcap hj0 hj1
  have hcalc : calculateDelayIn A i config r =
      max 0 (A.fl (exponentialDelayIn A i config +
        A.fl (A.fl (exponentialDelayIn A i config * config.jitter) *
          A.fl (r - 1 / 2)))) := rfl
  rw [hcalc]
  refine ⟨rfl, ?_⟩
  have hpw : 1 ≤ A.pow config.backoffMultiplier (i - 1) := hpow _ _ hmult
  have hX : config.baseDelay ≤
      A.fl (config.baseDelay * A.pow config.backoffMultiplier (i - 1)) := by
    have := hmono config.baseDelay
      (config.baseDelay * A.pow config.backoffMultiplier (i - 1)) (by nlinarith)
    rwa [hbaseN] at this
  have hEN : A.fl (exponentialDelayIn A i config) = exponentialDelayIn A i config := by
    unfold exponentialDelayIn
    rcases min_choice
      (A.fl (config.baseDelay * A.pow config.backoffMultiplier (i - 1)))
      config.maxDelay with h | h
    · rw [h]
      exact hidem _
    · rw [h]
      exact hmaxN
  have hbE : config.baseDelay ≤ exponentialDelayIn A i config := le_min hX hcap
  have hEm : exponentialDelayIn A i config ≤ config.maxDelay := min_le_right _ _
  generalize exponentialDelayIn A i config = E at hEN hbE hEm ⊢
  have hEpos : 0 < E := lt_of_lt_of_le hbase hbE
  have hjitter : ∀ F : ℚ, 0 < F → A.fl F = F →
      0 ≤ A.fl (F * config.jitter) ∧ A.fl (F * config.jitter) ≤ F := by
    intro F hF hFN
    constructor
    · have := hmono 0 (F * config.jitter) (mul_nonneg hF.le hj0)
      rwa [h0] at this
    · have := hmono (F * config.jitter) F (by nlinarith)
      rwa [hFN] at this
  have ha0 := (hjitter E hEpos hEN).1
  have haE := (hjitter E hEpos hEN).2
  have haN : A.fl (A.fl (E * config.jitter)) = A.fl (E * config.jitter) := hidem _
  have haM : A.fl (E * config.jitter) ≤ A.fl (config.maxDelay * config.jitter) :=
    hmono _ _ (mul_le_mul_of_nonneg_right hEm hj0)
  generalize A.fl (E * config.jitter) = a at ha0 haE haN haM ⊢
  have hhalfN : A.fl (a / 2) = a / 2 := hhalve a haN
  have hnhalfN : A.fl (-(a / 2)) = -(a / 2) := hneg _ hhalfN
  have hd1 : A.fl (r - 1 / 2) ≤ 1 / 2 := by
    have := hmono (r - 1 / 2) (1 / 2) (by linarith)
    rwa [hhalf] at this
  have hd0 : -(1 / 2) ≤ A.fl (r - 1 / 2) := by
    have := hmono (-(1 / 2)) (r - 1 / 2) (by linarith)
    rwa [hneg _ hhalf] at this
  generalize hd : A.fl (r - 1 / 2) = d at hd0 hd1 ⊢
  have hj_up : A.fl (a * d) ≤ a / 2 := by
    have := hmono (a * d) (a / 2) (by nlinarith)
    rwa [hhalfN] at this
  have hj_lo : -(a / 2) ≤ A.fl (a * d) := by
    have := hmono (-(a / 2)) (a * d) (by nlinarith)
    rwa [hnhalfN] at this
  have hzero : config.jitter = 0 → A.fl (E + A.fl (a * d)) = E := by
    intro hj
    have ha : a = 0 := by
      have h1 := haM
      rw [hj, mul_zero, h0] at h1
      linarith
    rw [ha, zero_mul, h0, add_zero]
    exact hEN
  generalize A.fl (a * d) = jit at hj_up hj_lo hzero ⊢
  have hEhalfN : A.fl (E / 2) = E / 2 := hhalve E hEN
  have hres_lo : E / 2 ≤ A.fl (E + jit) := by
    have := hmono (E / 2) (E + jit) (by linarith)
    rwa [hEhalfN] at this
  have hval : max 0 (A.fl (E + jit)) = A.fl (E + jit) := max_eq_right (by linarith)
  rw [hval]
  refine ⟨hbE, hEm, rfl, ?_, ?_, hres_lo, by linarith, hzero, ?_, hexact⟩
  · exact hmono _ _ (by linarith)
  · exact hmono _ _ (by linarith)
  · refine le_trans (hmono _ _ (by linarith : E + jit ≤ E + a / 2)) (hmono _ _ ?_)
    linarith

/-- The rounding of a positive number whose scaled significand is closer than one half
to the integer `n`. -/
theorem roundDouble_near (x : ℚ) (k n : ℤ) (h1 : 2 ^ 52 * (2 : ℚ) ^ k ≤ x)
    (h2 : x < 2 ^ 53 * 2 ^ k) (hn : |x / 2 ^ k - n| < 1 / 2) :
    roundDouble x = n * 2 ^ k := by
  have hx : 0 < x := lt_of_lt_of_le (by positivity) h1
  rw [roundDouble_pos x hx, roundMagnitude_near x k n h1 h2 hn]

theorem roundDouble_one : roundDouble 1 = 1 := by
  have := roundDouble_of_dyadic 1 0 (by norm_num)
  simpa using this

theorem roundDouble_intCast (n : ℤ) (hn : |n| < 2 ^ 53) : roundDouble (n : ℚ) = n := by
  have := roundDouble_of_dyadic n 0 hn
  simpa using this

/-- The draw `1 - 2^-52` less one half is a double. -/
theorem roundDouble_largestDraw_sub : roundDouble (largestDraw - 1 / 2) = 1 / 2 - 1 / 2 ^ 52 := by
  have h := roundDouble_of_dyadic (2 ^ 51 - 1) (-52) (by norm_num)
  have e : (((2 ^ 51 - 1 : ℤ) : ℚ)) * 2 ^ (-52 : ℤ) = largestDraw - 1 / 2 := by
    unfold largestDraw
    norm_num
  rw [e] at h
  rw [h]
  unfold largestDraw
  norm_num

theorem exponentialDelayIn_binary64 (attempt : Nat) (config : RetryConfig) :
    exponentialDelayIn Arithmetic.binary64 attempt config =
      min (roundDouble (config.baseDelay *
        roundDouble (config.backoffMultiplier ^ (attempt - 1)))) config.maxDelay := rfl

theorem calculateDelayIn_binary64 (attempt : Nat) (config : RetryConfig) (random : ℚ) :
    calculateDelayIn Arithmetic.binary64 attempt config random =
      max 0 (roundDouble (exponentialDelayIn Arithmetic.binary64 attempt config +
        roundDouble (roundDouble
          (exponentialDelayIn Arithmetic.binary64 attempt config * config.jitter) *
          roundDouble (random - 1 / 2)))) := rfl

theorem quarterJitter_example :
    exponentialDelayIn Arithmetic.binary64 1 quarterJitterConfig = 1000 ∧
    calculateDelayIn Arithmetic.binary64 1 quarterJitterConfig largestDraw = 1125 := by
  have hb : quarterJitterConfig.baseDelay = 1000 := rfl
  have hm : quarterJitterConfig.maxDelay = 30000 := rfl
  have hp : quarterJitterConfig.backoffMultiplier = 2 := rfl
  have hj : quarterJitterConfig.jitter = 1 / 4 := rfl
  have h1000 : roundDouble 1000 = 1000 := by
    have := roundDouble_intCast 1000 (by norm_num)
    exact_mod_cast this
  have e : exponentialDelayIn Arithmetic.binary64 1 quarterJitterConfig = 1000 := by
    rw [exponentialDelayIn_binary64, hb, hm, hp, Nat.sub_self, pow_zero, roundDouble_one,
      mul_one, h1000]
    norm_num
  have ha : roundDouble (1000 * (1 / 4)) = 250 := by
    have := roundDouble_intCast 250 (by norm_num)
    rw [show (1000 : ℚ) * (1 / 4) = ((250 : ℤ) : ℚ) by norm_num, this]
    norm_num
  have hjit : roundDouble (250 * (1 / 2 - 1 / 2 ^ 52)) = 125 - 1 / 2 ^ 44 := by
    rw [roundDouble_near _ (-46) (125 * 2 ^ 46 - 4) (by norm_num) (by norm_num)
      (by norm_num [abs_lt])]
    norm_num
  have hsum : roundDouble (1000 + (125 - 1 / 2 ^ 44)) = 1125 := by
    rw [roundDouble_near _ (-42) (1125 * 2 ^ 42) (by norm_num) (by norm_num)
      (by norm_num [abs_lt])]
    norm_num
  refine ⟨e, ?_⟩
  rw [calculateDelayIn_binary64, e, hj, ha, roundDouble_largestDraw_sub, hjit, hsum]
  norm_num

/-- The double nearest to one tenth. -/
theorem roundDouble_tenth : roundDouble (1 / 10) = 3602879701896397 / 2 ^ 55 := by
  rw [roundDouble_near _ (-56) 7205759403792794 (by norm_num) (by norm_num)
    (by norm_num [abs_lt])]
  norm_num

theorem hostDefault_example :
    exponentialDelayIn Arithmetic.binary64 1 hostDefaultConfig = 1000 ∧
    calculateDelayIn Arithmetic.binary64 1 hostDefaultConfig largestDraw = 1050 := by
  have hb : hostDefaultConfig.baseDelay = 1000 := rfl
  have hm : hostDefaultConfig.maxDelay = 30000 := rfl
  have hp : hostDefaultConfig.backoffMultiplier = 2 := rfl
  have hj : hostDefaultConfig.jitter = 3602879701896397 / 2 ^ 55 := rfl
  have h1000 : roundDouble 1000 = 1000 := by
    have := roundDouble_intCast 1000 (by norm_num)
    exact_mod_cast this
  have e : exponentialDelayIn Arithmetic.binary64 1 hostDefaultConfig = 1000 := by
    rw [exponentialDelayIn_binary64, hb, hm, hp, Nat.sub_self, pow_zero, roundDouble_one,
      mul_one, h1000]
    norm_num
  have ha : roundDouble (1000 * (3602879701896397 / 2 ^ 55)) = 100 := by
    rw [roundDouble_near _ (-46) (100 * 2 ^ 46) (by norm_num) (by norm_num)
      (by norm_num [abs_lt])]
    norm_num
  have hjit : roundDouble (100 * (1 / 2 - 1 / 2 ^ 52)) = 50 - 3 / 2 ^ 47 := by
    rw [roundDouble_near _ (-47) (50 * 2 ^ 47 - 3) (by norm_num) (by norm_num)
      (by norm_num [abs_lt])]
    norm_num
  have hsum : roundDouble (1000 + (50 - 3 / 2 ^ 47)) = 1050 := by
    rw [roundDouble_near _ (-42) (1050 * 2 ^ 42) (by norm_num) (by norm_num)
      (by norm_num [abs_lt])]
    norm_num
  refine ⟨e, ?_⟩
  rw [calculateDelayIn_binary64, e, hj, ha, roundDouble_largestDraw_sub, hjit, hsum]
  norm_num

theorem noJitter_example :
    exponentialDelayIn Arithmetic.binary64 1 noJitterConfig = 1000 ∧
    calculateDelayIn Arithmetic.binary64 1 noJitterConfig 0 = 1000 := by
  have hb : noJitterConfig.baseDelay = 1000 := rfl
  have hm : noJitterConfig.maxDelay = 30000 := rfl
  have hp : noJitterConfig.backoffMultiplier = 2 := rfl
  have hj : noJitterConfig.jitter = 0 := rfl
  have h1000 : roundDouble 1000 = 1000 := by
    have := roundDouble_intCast 1000 (by norm_num)
    exact_mod_cast this
  have e : exponentialDelayIn Arithmetic.binary64 1 noJitterConfig = 1000 := by
    rw [exponentialDelayIn_binary64, hb, hm, hp, Nat.sub_self, pow_zero, roundDouble_one,
      mul_one, h1000]
    norm_num
  refine ⟨e, ?_⟩
  rw [calculateDelayIn_binary64, e, hj, mul_zero, roundDouble_zero, zero_mul,
    roundDouble_zero, add_zero, h1000]
  norm_num

/-- C21 witness: the default policy as the host holds it, first attempt, the largest
draw, in the arithmetic of doubles: the delay is positive and at most
`maxDelay + (maxDelay*j)/2` as computed in doubles. -/
theorem c21_rounded_delay_bounds_witness :
    0 < calculateDelayIn Arithmetic.binary64 1 hostDefaultConfig largestDraw ∧
    calculateDelayIn Arithmetic.binary64 1 hostDefaultConfig largestDraw ≤
      Arithmetic.binary64.fl (hostDefaultConfig.maxDelay +
        Arithmetic.binary64.fl (hostDefaultConfig.maxDelay * hostDefaultConfig.jitter) / 2) :=
  have h := c21_rounded_delay_bounds Arithmetic.binary64 hostDefaultConfig 1 largestDraw
    binary64_sound (le_refl 1) (by norm_num [largestDraw]) (by norm_num [largestDraw])
    (by norm_num [hostDefaultConfig, DEFAULT_CONFIG])
    (by norm_num [hostDefaultConfig, DEFAULT_CONFIG])
    (by norm_num [hostDefaultConfig, DEFAULT_CONFIG])
    (by norm_num [hostDefaultConfig, DEFAULT_CONFIG])
    (by norm_num [hostDefaultConfig, DEFAULT_CONFIG])
    (by
      have hb : hostDefaultConfig.baseDelay = ((1000 : ℤ) : ℚ) := by
        norm_num [hostDefaultConfig, DEFAULT_CONFIG]
      rw [hb]
      exact roundDouble_intCast 1000 (by norm_num))
    (by
      have hb : hostDefaultConfig.maxDelay = ((30000 : ℤ) : ℚ) := by
        norm_num [hostDefaultConfig, DEFAULT_CONFIG]
      rw [hb]
      exact roundDouble_intCast 30000 (by norm_num))
  ⟨h.2.2.2.2.2.2.2.1, h.2.2.2.2.2.2.2.2.2.1⟩

/-- The claim's half-open interval and its exact value fail. In the arithmetic of doubles,
with the default policy and jitter 1/4, first attempt, draw `1 - 2^-52`: the delay is 1125,
which is the upper end `e*(1 + j/2)` with `e = 1000`, not below it, and is not
`e + e*j*(r - 1/2)`; with the default policy itself (jitter the double nearest to one
tenth) the delay is 1050. With jitter 0, in doubles and in exact arithmetic alike, the
delay is `e`, which is not below `e*(1 + 0/2)`. -/
theorem c21_upper_end_is_reached :
    ((0 : ℚ) ≤ largestDraw ∧ largestDraw < 1 ∧ roundDouble largestDraw = largestDraw) ∧
    (0 < quarterJitterConfig.baseDelay ∧ 1 ≤ quarterJitterConfig.backoffMultiplier ∧
      quarterJitterConfig.baseDelay ≤ quarterJitterConfig.maxDelay ∧
      0 ≤ quarterJitterConfig.jitter ∧ quarterJitterConfig.jitter ≤ 1) ∧
    exponentialDelayIn Arithmetic.binary64 1 quarterJitterConfig = 1000 ∧
    calculateDelayIn Arithmetic.binary64 1 quarterJitterConfig largestDraw = 1125 ∧
    ¬ (calculateDelayIn Arithmetic.binary64 1 quarterJitterConfig largestDraw <
      exponentialDelayIn Arithmetic.binary64 1 quarterJitterConfig *
        (1 + quarterJitterConfig.jitter / 2)) ∧
    calculateDelayIn Arithmetic.binary64 1 quarterJitterConfig largestDraw ≠
      exponentialDelayIn Arithmetic.binary64 1 quarterJitterConfig +
        exponentialDelayIn Arithmetic.binary64 1 quarterJitterConfig *
          quarterJitterConfig.jitter * (largestDraw - 1 / 2) ∧
    (roundDouble (1 / 10) = hostDefaultConfig.jitter ∧
      exponentialDelayIn Arithmetic.binary64 1 hostDefaultConfig = 1000 ∧
      calculateDelayIn Arithmetic.binary64 1 hostDefaultConfig largestDraw = 1050) ∧
    ((0 : ℚ) ≤ noJitterConfig.jitter ∧ noJitterConfig.jitter ≤ 1 ∧
      0 < noJitterConfig.baseDelay ∧ 1 ≤ noJitterConfig.backoffMultiplier ∧
      noJitterConfig.baseDelay ≤ noJitterConfig.maxDelay ∧
      calculateDelayIn Arithmetic.binary64 1 noJitterConfig 0 =
        exponentialDelayIn Arithmetic.binary64 1 noJitterConfig ∧
      ¬ (calculateDelayIn Arithmetic.binary64 1 noJitterConfig 0 <
        exponentialDelayIn Arithmetic.binary64 1 noJitterConfig *
          (1 + noJitterConfig.jitter / 2)) ∧
      calculateDelay 1 noJitterConfig 0 = exponentialDelay 1 noJitterConfig ∧
      ¬ (calculateDelay 1 noJitterConfig 0 <
        exponentialDelay 1 noJitterConfig * (1 + noJitterConfig.jitter / 2))) := by
  have hq := quarterJitter_example
  have hd := hostDefault_example
  have hn := noJitter_example
  have hqj : quarterJitterConfig.jitter = 1 / 4 := rfl
  have hnj : noJitterConfig.jitter = 0 := rfl
  have he : exponentialDelay 1 noJitterConfig = 1000 := by
    norm_num [exponentialDelay, noJitterConfig, DEFAULT_CONFIG]
  have hv : calculateDelay 1 noJitterConfig 0 = 1000 := by
    norm_num [calculateDelay, exponentialDelay, noJitterConfig, DEFAULT_CONFIG]
  have hdraw : roundDouble largestDraw = largestDraw := by
    have h := roundDouble_of_dyadic (2 ^ 52 - 1) (-52) (by norm_num)
    have e : (((2 ^ 52 - 1 : ℤ) : ℚ)) * 2 ^ (-52 : ℤ) = largestDraw := by
      unfold largestDraw
      norm_num
    rw [e] at h
    exact h
  refine ⟨⟨by norm_num [largestDraw], by norm_num [largestDraw], hdraw⟩,
    ⟨by norm_num [quarterJitterConfig, DEFAULT_CONFIG],
      by norm_num [quarterJitterConfig, DEFAULT_CONFIG],
      by norm_num [quarterJitterConfig, DEFAULT_CONFIG],
      by norm_num [quarterJitterConfig, DEFAULT_CONFIG],
      by norm_num [quarterJitterConfig, DEFAULT_CONFIG]⟩,
    hq.1, hq.2, ?_, ?_, ⟨?_, hd.1, hd.2⟩,
    ⟨by decide, by decide, by decide, by decide, by decide, ?_, ?_, ?_, ?_⟩⟩
  · rw [hq.1, hq.2, hqj]
    norm_num
  · rw [hq.1, hq.2, hqj]
    norm_num [largestDraw]
  · rw [roundDouble_tenth]
    rfl
  · rw [hn.1, hn.2]
  · rw [hn.1, hn.2, hnj]
    norm_num
  · rw [hv, he]
  · rw [hv, he, hnj]
    norm_num

/-! ### Keys of the rate-limit table -/

theorem append_cons_inj_first {α : Type} (x : α) :
    ∀ (a a2 b b2 : List α), x ∉ a → x ∉ a2 → a ++ x :: b = a2 ++ x :: b2 →
      a = a2 ∧ b = b2 := by
  intro a
  induction a with
  | nil =>
    intro a2 b b2 _ h2 h
    cases a2 with
    | nil => exact ⟨rfl, by simpa using h⟩
    | cons y t =>
      simp only [List.nil_append, List.cons_append, List.cons.injEq] at h
      exact absurd (List.mem_cons.mpr (Or.inl h.1)) h2
  | cons y s ih =>
    intro a2 b b2 h1 h2 h
    cases a2 with
    | nil =>
      simp only [List.nil_append, List.cons_append, List.cons.injEq] at h
      exact absurd (List.mem_cons.mpr (Or.inl h.1.symm)) h1
    | cons z t =>
      simp only [List.cons_append, List.cons.injEq] at h
      obtain ⟨hs, hb⟩ := ih t b b2 (fun hm => h1 (List.mem_cons_of_mem _ hm))
        (fun hm => h2 (List.mem_cons_of_mem _ hm)) h.2
      exact ⟨by rw [h.1, hs], hb⟩

theorem append_cons_inj_last {α : Type} (x : α) (a a2 b b2 : List α) (h1 : x ∉ b)
    (h2 : x ∉ b2) (h : a ++ x :: b = a2 ++ x :: b2) : a = a2 ∧ b = b2 := by
  have hr := congrArg List.reverse h
  simp only [List.reverse_append, List.reverse_cons, List.append_assoc,
    List.singleton_append] at hr
  obtain ⟨hb, ha⟩ := append_cons_inj_first x b.reverse b2.reverse a.reverse a2.reverse
    (by simpa using h1) (by simpa using h2) hr
  exact ⟨List.reverse_injective ha, List.reverse_injective hb⟩

theorem rateKey_data (userId command : String) :
    (rateKey userId command).data = userId.data ++ ':' :: command.data := by
  simp [rateKey]

/-- Two pairs with the same table key are the same pair when the identities, or the
commands, hold no colon. -/
theorem rateKey_injective (u c u2 c2 : String)
    (hfree : (':' ∉ u.data ∧ ':' ∉ u2.data) ∨ (':' ∉ c.data ∧ ':' ∉ c2.data))
    (h : rateKey u c = rateKey u2 c2) : u = u2 ∧ c = c2 := by
  have hd : u.data ++ ':' :: c.data = u2.data ++ ':' :: c2.data := by
    rw [← rateKey_data, ← rateKey_data, h]
  rcases hfree with ⟨h1, h2⟩ | ⟨h1, h2⟩
  · obtain ⟨ha, hb⟩ := append_cons_inj_first ':' _ _ _ _ h1 h2 hd
    exact ⟨String.ext ha, String.ext hb⟩
  · obtain ⟨ha, hb⟩ := append_cons_inj_last ':' _ _ _ _ h1 h2 hd
    exact ⟨String.ext ha, String.ext hb⟩

/-- A call on another table key does not change the result of a call. -/
theorem checkRateLimit_after_other_key (sm : SecurityManager) (u c u2 c2 : String)
    (L W now L2 W2 now2 : Int) (h : rateKey u2 c2 ≠ rateKey u c) :
    (checkRateLimit (checkRateLimit sm u2 c2 L2 W2 now2).2 u c L W now).1 =
      (checkRateLimit sm u c L W now).1 := by
  rw [checkRateLimit_result, checkRateLimit_result,
    storedTimes_checkRateLimit_other sm u2 c2 L2 W2 now2 (rateKey u c) h]

/-- C28: a call of `checkRateLimit` made with another pair does not change the result
for a pair whenever the two pairs have different table keys, which is the case for all
different pairs whose identities, or whose commands, hold no colon. Pairs as
`('a:b', 'c')` and `('a', 'b:c')` share the key `a:b:c`: after one admitted call of the
first at limit 1, the first call of the second is denied, though alone it is admitted. -/
theorem c28_callers_independent_unless_keys_collide :
    (∀ (sm : SecurityManager) (u c u2 c2 : String) (L W now L2 W2 now2 : Int),
      rateKey u2 c2 ≠ rateKey u c →
      (checkRateLimit (checkRateLimit sm u2 c2 L2 W2 now2).2 u c L W now).1 =
        (checkRateLimit sm u c L W now).1) ∧
    (∀ (sm : SecurityManager) (u c u2 c2 : String) (L W now L2 W2 now2 : Int),
      (u2, c2) ≠ (u, c) →
      ((':' ∉ u.data ∧ ':' ∉ u2.data) ∨ (':' ∉ c.data ∧ ':' ∉ c2.data)) →
      (checkRateLimit (checkRateLimit sm u2 c2 L2 W2 now2).2 u c L W now).1 =
        (checkRateLimit sm u c L W now).1) ∧
    (("a:b", "c") ≠ ("a", "b:c") ∧ rateKey "a:b" "c" = rateKey "a" "b:c" ∧
      (checkRateLimit (SecurityManager.fresh 5000) "a" "b:c" 1 60000 1000).1.allowed
        = true ∧
      (checkRateLimit (SecurityManager.fresh 5000) "a:b" "c" 1 60000 0).1.allowed
        = true ∧
      (checkRateLimit (checkRateLimit (SecurityManager.fresh 5000) "a:b" "c" 1 60000 0).2
        "a" "b:c" 1 60000 1000).1.allowed = false) := by
  refine ⟨?_, ?_, ?_⟩
  · intro sm u c u2 c2 L W now L2 W2 now2 h
    exact checkRateLimit_after_other_key sm u c u2 c2 L W now L2 W2 now2 h
  · intro sm u c u2 c2 L W now L2 W2 now2 hne hfree
    apply checkRateLimit_after_other_key
    intro hkey
    have hfree2 : (':' ∉ u2.data ∧ ':' ∉ u.data) ∨ (':' ∉ c2.data ∧ ':' ∉ c.data) := by
      rcases hfree with h | h
      · exact Or.inl ⟨h.2, h.1⟩
      · exact Or.inr ⟨h.2, h.1⟩
    obtain ⟨h1, h2⟩ := rateKey_injective u2 c2 u c hfree2 hkey
    exact hne (by rw [h1, h2])
  · decide

/-! ### `checkSecurity` and the role of the caller -/

theorem rolesLookup_inherited (role : String) (h : role ∈ objectPrototypeKeys) :
    rolesLookup role = .inherited := by
  simp only [objectPrototypeKeys, List.mem_cons, List.mem_singleton, List.not_mem_nil,
    or_false] at h
  rcases h with h | h | h | h | h | h | h | h | h | h | h | h <;> subst h <;> rfl

/-- A granted `checkUserAccess` means: not blocked, and the permission set of the
resolved role holds `all` or the required permission. -/
theorem checkUserAccess_allowed (sm : SecurityManager) (userId p : String)
    (h : (checkUserAccess sm userId p).allowed = true) :
    userId ∉ sm.blockedUsers ∧
      ("all" ∈ rolePermissions (resolvedRole sm userId) ∨
        p ∈ rolePermissions (resolvedRole sm userId)) := by
  by_cases hb : userId ∈ sm.blockedUsers
  · simp [checkUserAccess, hb] at h
  refine ⟨hb, ?_⟩
  by_cases hown : resolvedRole sm userId ∈ objectPrototypeKeys
  · have hl := rolesLookup_inherited _ hown
    unfold resolvedRole at hl
    simp [checkUserAccess, hb, hl] at h
  · rcases rolesLookup_own (resolvedRole sm userId) hown with hl | ⟨hl, hr⟩
    · by_contra hno
      have hl2 := hl
      unfold resolvedRole at hl2
      simp only [checkUserAccess, if_neg hb, hl2] at h
      have hno2 := hno
      unfold resolvedRole at hno2
      rw [if_neg hno2] at h
      simp at h
    · by_contra hno
      have hl2 := hl
      unfold resolvedRole at hl2
      simp only [checkUserAccess, if_neg hb, hl2] at h
      simp at h

/-- C29: `checkSecurity` allows a request only if the caller is not blocked and the
permission set of the caller's role holds `read` or `all`; for an identity that is not
blocked and has no entry in the role table (role guest) it answers, for every room,
command, argument list, message and clock reading, `allowed = false` with reason
`insufficient_permissions`, and leaves the manager state, the rate-limit table
included, as it was. -/
theorem c29_guest_is_denied_everything (sm : SecurityManager)
    (userId roomId command : String) (args : Option (List String)) (message : JsValue)
    (now : Int) :
    ((checkSecurity sm userId roomId command args message now).1.allowed = true →
      userId ∉ sm.blockedUsers ∧
        ("all" ∈ rolePermissions (resolvedRole sm userId) ∨
          "read" ∈ rolePermissions (resolvedRole sm userId))) ∧
    (userId ∉ sm.blockedUsers → JsMap.get sm.allowedUsers userId = none →
      resolvedRole sm userId = "guest" ∧
      checkSecurity sm userId roomId command args message now =
        (SecurityDecision.deny "insufficient_permissions"
          (some "Доступ користувача заборонено"), sm)) := by
  constructor
  · intro h
    apply checkUserAccess_allowed
    by_contra hua
    have hua2 : (checkUserAccess sm userId "read").allowed = false := by
      simpa using hua
    simp [checkSecurity, hua2, SecurityDecision.deny] at h
  · intro hfree hnone
    have hrole : resolvedRole sm userId = "guest" := by
      simp only [resolvedRole, hnone]
    have hua : checkUserAccess sm userId "read" =
        { allowed := false, reason := "insufficient_permissions", role := some "guest" } := by
      simp only [checkUserAccess, if_neg hfree, hnone]
      decide
    refine ⟨hrole, ?_⟩
    simp only [checkSecurity, hua, if_true]

/-- The identity `test_user` of the self-test, with no entry in an empty role table,
is denied `help` with a harmless message. -/
theorem c29_guest_is_denied_everything_witness :
    checkSecurity (SecurityManager.fresh 5000) "test_user" "test_room" "help" (some [])
        (.string "Привіт, світ!") 1000 =
      (SecurityDecision.deny "insufficient_permissions"
        (some "Доступ користувача заборонено"), SecurityManager.fresh 5000) :=
  ((c29_guest_is_denied_everything (SecurityManager.fresh 5000) "test_user" "test_room"
    "help" (some []) (.string "Привіт, світ!") 1000).2 (by decide) (by decide)).2

/-! ### What one call of `checkRateLimit` writes -/

theorem get_checkRateLimit_other (sm : SecurityManager) (userId command : String)
    (limit windowMs now : Int) (key : String) (h : rateKey userId command ≠ key) :
    JsMap.get (checkRateLimit sm userId command limit windowMs now).2.rateLimits key
      = JsMap.get sm.rateLimits key := by
  unfold checkRateLimit
  simp only [getD_ensureEntry]
  by_cases hlen : (((((JsMap.get sm.rateLimits (rateKey userId command)).getD []).filter
            (fun ts => decide (now - ts < windowMs))).length : Int) ≥ limit)
  · rw [if_pos hlen]
    simp only [get_ensureEntry_other _ _ _ h]
  · rw [if_neg hlen]
    simp only [JsMap.get_set_other _ _ _ _ h, get_ensureEntry_other _ _ _ h]

theorem checkRateLimit_frame (sm : SecurityManager) (userId command : String)
    (limit windowMs now : Int) :
    (checkRateLimit sm userId command limit windowMs now).2.allowedUsers = sm.allowedUsers ∧
    (checkRateLimit sm userId command limit windowMs now).2.allowedRooms = sm.allowedRooms ∧
    (checkRateLimit sm userId command limit windowMs now).2.blockedUsers = sm.blockedUsers ∧
    (checkRateLimit sm userId command limit windowMs now).2.encryptionEnabled =
      sm.encryptionEnabled := by
  unfold checkRateLimit
  simp only
  split_ifs <;> exact ⟨rfl, rfl, rfl, rfl⟩

/-- A call denied at a limit of at least 1 found a list for its key, and writes nothing. -/
theorem checkRateLimit_denied_state (sm : SecurityManager) (userId command : String)
    (limit windowMs now : Int) (hL : 1 ≤ limit)
    (hden : (checkRateLimit sm userId command limit windowMs now).1.allowed = false) :
    (checkRateLimit sm userId command limit windowMs now).2 = sm := by
  rw [checkRateLimit_result] at hden
  by_cases hlen : (((storedTimes sm (rateKey userId command)).filter
      (fun ts => decide (now - ts < windowMs))).length : Int) ≥ limit
  · have hne : storedTimes sm (rateKey userId command) ≠ [] := by
      intro hnil
      rw [hnil] at hlen
      simp at hlen
      omega
    have hhas : JsMap.has sm.rateLimits (rateKey userId command) = true := by
      unfold storedTimes at hne
      unfold JsMap.has
      cases hget : JsMap.get sm.rateLimits (rateKey userId command) with
      | none => rw [hget] at hne; exact absurd rfl hne
      | some l => rfl
    unfold storedTimes at hlen
    unfold checkRateLimit
    simp only [hhas, if_true]
    rw [if_pos hlen]
  · rw [if_neg hlen] at hden
    simp at hden

/-- C30: at a limit `L ≥ 1` a denied `checkRateLimit` call leaves the manager state, the
whole rate-limit table included, as it was, so every later call answers as if the
denied call had not been made, and it reports a `resetTime` later than `now`; an
admitted call changes nothing but the list stored under its own key, which becomes the
timestamps still inside the window followed by `now`. -/
theorem c30_denied_call_writes_nothing (sm : SecurityManager) (userId command : String)
    (L W now : Int) (hL : 1 ≤ L) :
    ((checkRateLimit sm userId command L W now).1.allowed = false →
      (checkRateLimit sm userId command L W now).2 = sm ∧
      (∀ (u2 c2 : String) (L2 W2 now2 : Int),
        checkRateLimit (checkRateLimit sm userId command L W now).2 u2 c2 L2 W2 now2 =
          checkRateLimit sm u2 c2 L2 W2 now2) ∧
      ∃ t, (checkRateLimit sm userId command L W now).1.resetTime = some t ∧ now < t) ∧
    ((checkRateLimit sm userId command L W now).1.allowed = true →
      (∀ key, key ≠ rateKey userId command →
        JsMap.get (checkRateLimit sm userId command L W now).2.rateLimits key =
          JsMap.get sm.rateLimits key) ∧
      JsMap.get (checkRateLimit sm userId command L W now).2.rateLimits
          (rateKey userId command) =
        some ((storedTimes sm (rateKey userId command)).filter
          (fun ts => decide (now - ts < W)) ++ [now]) ∧
      (checkRateLimit sm userId command L W now).2.allowedUsers = sm.allowedUsers ∧
      (checkRateLimit sm userId command L W now).2.allowedRooms = sm.allowedRooms ∧
      (checkRateLimit sm userId command L W now).2.blockedUsers = sm.blockedUsers ∧
      (checkRateLimit sm userId command L W now).2.maxMessageLength =
        sm.maxMessageLength) := by
  constructor
  · intro hden
    have hstate := checkRateLimit_denied_state sm userId command L W now hL hden
    refine ⟨hstate, ?_, ?_⟩
    · intro u2 c2 L2 W2 now2
      rw [hstate]
    · rw [checkRateLimit_result] at hden ⊢
      by_cases hlen : (((storedTimes sm (rateKey userId command)).filter
          (fun ts => decide (now - ts < W))).length : Int) ≥ L
      · rw [if_pos hlen]
        cases hf : (storedTimes sm (rateKey userId command)).filter
            (fun ts => decide (now - ts < W)) with
        | nil =>
          rw [hf] at hlen
          simp at hlen
          omega
        | cons t rest =>
          refine ⟨t + W, by simp, ?_⟩
          have hmem : t ∈ (storedTimes sm (rateKey userId command)).filter
              (fun ts => decide (now - ts < W)) := by
            rw [hf]
            exact List.mem_cons_self _ _
          have := (List.mem_filter.mp hmem).2
          simp at this
          omega
      · rw [if_neg hlen] at hden
        simp at hden
  · intro hall
    refine ⟨fun key hkey => get_checkRateLimit_other sm userId command L W now key
      (fun h => hkey h.symm), ?_, (checkRateLimit_frame sm userId command L W now).1,
      (checkRateLimit_frame sm userId command L W now).2.1,
      (checkRateLimit_frame sm userId command L W now).2.2.1,
      checkRateLimit_maxMessageLength sm userId command L W now⟩
    rw [checkRateLimit_result] at hall
    by_cases hlen : (((storedTimes sm (rateKey userId command)).filter
        (fun ts => decide (now - ts < W))).length : Int) ≥ L
    · rw [if_pos hlen] at hall
      simp at hall
    · unfold storedTimes at hlen ⊢
      unfold checkRateLimit
      simp only [getD_ensureEntry]
      rw [if_neg hlen]
      simp only [JsMap.get_set_same]

/-- At limit 1 the second call inside the window is denied, leaves the state of the
first call, and reports the reset time 60000, later than its clock reading 10. -/
theorem c30_denied_call_writes_nothing_witness :
    (checkRateLimit (checkRateLimit (SecurityManager.fresh 5000) "u" "ask" 1 60000 0).2
        "u" "ask" 1 60000 10).2 =
      (checkRateLimit (SecurityManager.fresh 5000) "u" "ask" 1 60000 0).2 :=
  ((c30_denied_call_writes_nothing
    (checkRateLimit (SecurityManager.fresh 5000) "u" "ask" 1 60000 0).2 "u" "ask" 1 60000 10
    (by decide)).1 (by decide)).1

/-! ### The self-test of the retry mechanism -/

/-- The error of the self-test is not retryable under any policy: it has no code and no
status, and its message holds none of the five words. -/
theorem selfTestError_not_retryable (config : RetryConfig) :
    isRetryableError selfTestError config = false := by
  have hm : (jsIncludes (jsToLowerCase "Тестова помилка з'єднання") "timeout"
      || jsIncludes (jsToLowerCase "Тестова помилка з'єднання") "connection"
      || jsIncludes (jsToLowerCase "Тестова помилка з'єднання") "network"
      || jsIncludes (jsToLowerCase "Тестова помилка з'єднання") "econnreset"
      || jsIncludes (jsToLowerCase "Тестова помилка з'єднання") "etimedout") = false := by
    decide
  have hne : ("Тестова помилка з'єднання" : String) ≠ "" := by decide
  simp only [isRetryableError, selfTestError, errorWithMessage, Option.filter]
  simp [hne, hm]

/-- C25: the error of the self-test is classified as not retryable, so `withRetry` with
`{maxAttempts: 3, baseDelay: 100}` invokes the operation once, awaits no delay and
rejects with that error, and `testRetryMechanism` returns `false`; in general every
operation whose first invocation throws this error is given up after one invocation,
under every policy that allows at least one attempt. -/
theorem c25_self_test_gives_up_at_once (random : Nat → ℚ) :
    isRetryableError selfTestError (mergeConfig DEFAULT_CONFIG selfTestOptions) = false ∧
    (withRetry selfTestOperation selfTestOptions random 0).outcome
      = .error (some selfTestError) ∧
    (withRetry selfTestOperation selfTestOptions random 0).calls = 1 ∧
    (withRetry selfTestOperation selfTestOptions random 0).delays = [] ∧
    testRetryMechanism random = false ∧
    (∀ (σ α : Type) (operation : Operation σ α) (config : RetryOptions) (s : σ),
      1 ≤ (mergeConfig DEFAULT_CONFIG config).maxAttempts →
      opOutcome operation s 0 = .error selfTestError →
      (withRetry operation config random s).outcome = .error (some selfTestError) ∧
      (withRetry operation config random s).calls = 1) := by
  have hgen : ∀ (σ α : Type) (operation : Operation σ α) (config : RetryOptions) (s : σ),
      1 ≤ (mergeConfig DEFAULT_CONFIG config).maxAttempts →
      opOutcome operation s 0 = .error selfTestError →
      withRetry operation config random s =
        { outcome := .error (some selfTestError), calls := 0 + 1, delays := [],
          state := (operation s).2 } := by
    intro σ α operation config s hmax hfail
    obtain ⟨r, hr⟩ : ∃ r, (mergeConfig DEFAULT_CONFIG config).maxAttempts = r + 1 :=
      ⟨(mergeConfig DEFAULT_CONFIG config).maxAttempts - 1, by omega⟩
    have hloop := retryLoop_give_up (mergeConfig DEFAULT_CONFIG config) operation random r 1
      none [] s 0 selfTestError hfail (Or.inr (selfTestError_not_retryable _))
    rw [← hr] at hloop
    unfold withRetry
    exact hloop
  have hrun := hgen Nat String selfTestOperation selfTestOptions 0 (by decide) rfl
  refine ⟨selfTestError_not_retryable _, ?_, ?_, ?_, ?_, ?_⟩
  · rw [hrun]
  · rw [hrun]
  · rw [hrun]
  · unfold testRetryMechanism
    rw [hrun]
  · intro σ α operation config s hmax hfail
    rw [hgen σ α operation config s hmax hfail]
    exact ⟨rfl, rfl⟩

/-! ### The sweep of the rate-limit table -/

theorem JsMap.get_eq_none_of_not_mem {α : Type} (m : JsMap α) (key : String)
    (h : key ∉ m.map Prod.fst) : JsMap.get m key = none := by
  induction m with
  | nil => rfl
  | cons p rest ih =>
    obtain ⟨k, v⟩ := p
    simp only [List.map_cons, List.mem_cons, not_or] at h
    have hk : ¬ k = key := fun hk => h.1 hk.symm
    simp only [JsMap.get, if_neg hk]
    exact ih h.2

theorem cleanupEntry_key (now : Int) (entry kept : String × List Int)
    (h : cleanupEntry now entry = some kept) : kept.1 = entry.1 := by
  unfold cleanupEntry at h
  simp only at h
  split_ifs at h <;> cases h <;> rfl

theorem cleanupEntry_eq (now : Int) (entry : String × List Int) :
    cleanupEntry now entry =
      if entry.2.filter (fun timestamp => decide (now - timestamp < 60000)) = [] then none
      else some (entry.1, entry.2.filter (fun timestamp => decide (now - timestamp < 60000))) := by
  unfold cleanupEntry
  simp only
  by_cases h0 : (entry.2.filter (fun timestamp => decide (now - timestamp < 60000))).length = 0
  · rw [if_pos h0, if_pos (List.length_eq_zero.mp h0)]
  · rw [if_neg h0, if_neg (fun h => h0 (List.length_eq_zero.mpr h))]
    by_cases hl : (entry.2.filter (fun timestamp => decide (now - timestamp < 60000))).length
        ≠ entry.2.length
    · rw [if_pos hl]
    · rw [if_neg hl]
      have hall := List.filter_length_eq_length.mp (not_not.mp hl)
      rw [List.filter_eq_self.mpr hall]

theorem keys_filterMap_cleanup (now : Int) (m : JsMap (List Int)) (key : String)
    (h : key ∈ (m.filterMap (cleanupEntry now)).map Prod.fst) : key ∈ m.map Prod.fst := by
  simp only [List.mem_map, List.mem_filterMap] at h ⊢
  obtain ⟨kept, ⟨entry, hmem, hkept⟩, hkey⟩ := h
  exact ⟨entry, hmem, by rw [← cleanupEntry_key now entry kept hkept, hkey]⟩

theorem get_filterMap_cleanupEntry (now : Int) (key : String) (m : JsMap (List Int))
    (hkeys : (m.map Prod.fst).Nodup) :
    JsMap.get (m.filterMap (cleanupEntry now)) key =
      match JsMap.get m key with
      | none => none
      | some requests =>
        if requests.filter (fun timestamp => decide (now - timestamp < 60000)) = [] then none
        else some (requests.filter (fun timestamp => decide (now - timestamp < 60000))) := by
  induction m with
  | nil => rfl
  | cons p rest ih =>
    obtain ⟨k, v⟩ := p
    simp only [List.map_cons, List.nodup_cons] at hkeys
    have ih2 := ih hkeys.2
    by_cases hk : k = key
    · subst hk
      have hrest : JsMap.get (rest.filterMap (cleanupEntry now)) k = none :=
        JsMap.get_eq_none_of_not_mem _ _
          (fun hm => hkeys.1 (keys_filterMap_cleanup now rest k hm))
      simp only [JsMap.get, if_true]
      rw [List.filterMap_cons, cleanupEntry_eq]
      simp only
      by_cases hf : v.filter (fun timestamp => decide (now - timestamp < 60000)) = []
      · simp only [hf, if_true]
        exact hrest
      · simp only [if_neg hf, JsMap.get, if_true]
    · simp only [JsMap.get, if_neg hk]
      rw [List.filterMap_cons, cleanupEntry_eq]
      simp only
      by_cases hf : v.filter (fun timestamp => decide (now - timestamp < 60000)) = []
      · simp only [hf, if_true]
        exact ih2
      · simp only [if_neg hf, JsMap.get, if_neg hk]
        exact ih2

/-- What the table holds for a key after the sweep. -/
theorem get_cleanupRateLimits (sm : SecurityManager) (now : Int) (key : String)
    (hkeys : JsMap.keysDistinct sm.rateLimits) :
    JsMap.get (cleanupRateLimits sm now).rateLimits key =
      match JsMap.get sm.rateLimits key with
      | none => none
      | some requests =>
        if requests.filter (fun timestamp => decide (now - timestamp < 60000)) = [] then none
        else some (requests.filter (fun timestamp => decide (now - timestamp < 60000))) :=
  get_filterMap_cleanupEntry now key sm.rateLimits hkeys

/-- C26: the sweep judges expiry by the literal 60000 ms, `checkRateLimit` by its
`windowMs`. On a table without repeated keys the sweep at clock reading `sweep` removes
exactly the keys that hold no timestamp younger than 60000 ms and keeps, of every other
key, the timestamps younger than 60000 ms; for a call with a window `W ≤ 60000` made at
a clock reading `now ≥ sweep` the result (allowed, remaining, resetTime) is the same
with and without the sweep, whatever the limit. For a longer window the sweep changes
the result: with limit 1 and a window of 120000 ms, after a call at 0 a call at 80000
is denied, but a sweep at 70000 in between empties the table and the call at 80000 is
admitted. -/
theorem c26_sweep_is_safe_up_to_one_minute (sm : SecurityManager) (userId command : String)
    (L W sweep now : Int) (hkeys : JsMap.keysDistinct sm.rateLimits) (hW : W ≤ 60000)
    (hclock : sweep ≤ now) :
    (∀ key, JsMap.get (cleanupRateLimits sm sweep).rateLimits key =
      match JsMap.get sm.rateLimits key with
      | none => none
      | some requests =>
        if requests.filter (fun timestamp => decide (sweep - timestamp < 60000)) = [] then
          none
        else some (requests.filter (fun timestamp => decide (sweep - timestamp < 60000)))) ∧
    (checkRateLimit (cleanupRateLimits sm sweep) userId command L W now).1 =
      (checkRateLimit sm userId command L W now).1 ∧
    ((checkRateLimit (checkRateLimit (SecurityManager.fresh 5000) "u" "ask" 1 120000 0).2
        "u" "ask" 1 120000 80000).1.allowed = false ∧
      (cleanupRateLimits
          (checkRateLimit (SecurityManager.fresh 5000) "u" "ask" 1 120000 0).2
          70000).rateLimits = [] ∧
      (checkRateLimit (cleanupRateLimits
          (checkRateLimit (SecurityManager.fresh 5000) "u" "ask" 1 120000 0).2 70000)
          "u" "ask" 1 120000 80000).1.allowed = true) := by
  refine ⟨fun key => get_cleanupRateLimits sm sweep key hkeys, ?_, by decide⟩
  have hstored : (storedTimes (cleanupRateLimits sm sweep) (rateKey userId command)).filter
        (fun ts => decide (now - ts < W)) =
      (storedTimes sm (rateKey userId command)).filter (fun ts => decide (now - ts < W)) := by
    unfold storedTimes
    rw [get_cleanupRateLimits sm sweep _ hkeys]
    cases hget : JsMap.get sm.rateLimits (rateKey userId command) with
    | none => rfl
    | some requests =>
      simp only [Option.getD_some]
      by_cases hf : requests.filter (fun timestamp => decide (sweep - timestamp < 60000)) = []
      · rw [if_pos hf]
        simp only [Option.getD_none, List.filter_nil]
        symm
        rw [List.filter_eq_nil_iff]
        intro ts hts
        have := (List.filter_eq_nil_iff.mp hf) ts hts
        simp only [decide_eq_true_eq, not_lt] at this ⊢
        omega
      · rw [if_neg hf]
        simp only [Option.getD_some, List.filter_filter]
        apply List.filter_congr
        intro ts _
        by_cases hts : now - ts < W
        · have h60 : sweep - ts < 60000 := by omega
          simp [hts, h60]
        · simp [hts]
  rw [checkRateLimit_result, checkRateLimit_result, hstored]

/-- One call, then a sweep one second later, then a second call: same result as
without the sweep. -/
theorem c26_sweep_is_safe_up_to_one_minute_witness :
    (checkRateLimit (cleanupRateLimits
        (checkRateLimit (SecurityManager.fresh 5000) "u" "ask" 1 60000 0).2 1000)
        "u" "ask" 1 60000 2000).1 =
      (checkRateLimit (checkRateLimit (SecurityManager.fresh 5000) "u" "ask" 1 60000 0).2
        "u" "ask" 1 60000 2000).1 :=
  (c26_sweep_is_safe_up_to_one_minute
    (checkRateLimit (SecurityManager.fresh 5000) "u" "ask" 1 60000 0).2 "u" "ask"
    1 60000 1000 2000 (by decide) (by decide) (by decide)).2.1

/-! ### `clear` -/

theorem globMatch_prefix_star (p : List Char) (hp : '*' ∉ p) :
    ∀ s : List Char, globMatch (p ++ ['*']) s = p.isPrefixOf s := by
  induction p with
  | nil =>
    intro s
    simp only [List.nil_append, globMatch, if_true, List.isPrefixOf]
    rw [List.any_eq_true]
    exact ⟨s.length, List.mem_range.mpr (by omega), by simp [globMatch]⟩
  | cons c p ih =>
    intro s
    have hc : c ≠ '*' := fun h => hp (by rw [h]; exact List.mem_cons_self _ _)
    have hp2 : '*' ∉ p := fun h => hp (List.mem_cons_of_mem _ h)
    cases s with
    | nil => simp [globMatch, hc, List.isPrefixOf]
    | cons d t =>
      simp only [List.cons_append, globMatch, if_neg hc, List.isPrefixOf]
      change (d == c && globMatch (p ++ ['*']) t) = (c == d && p.isPrefixOf t)
      rw [ih hp2 t]
      by_cases hdc : d = c
      · subst hdc
        simp
      · have hcd : ¬ c = d := fun h => hdc h.symm
        have h1 : (d == c) = false := beq_false_of_ne hdc
        have h2 : (c == d) = false := beq_false_of_ne hcd
        rw [h1, h2]

/-- C22 (amended): `clear` takes no argument. On a connected manager whose client
answers, with a `keyPrefix` free of the characters special in a pattern, it removes
every key that starts with `keyPrefix`, of every namespace, keeps every other entry, and
answers `true`, also when there was nothing to remove; without connection or client,
and when the client rejects, it answers `false` and leaves everything as it was. -/
theorem c22_clear_removes_all_prefixed_keys (cm : CacheManager) :
    (∀ client, cm.isConnected = true → cm.client = some client → client.failing = false →
      (∀ c ∈ cm.keyPrefix.data, c ∉ globSpecial) →
      cm.clear = (.ok true, { cm with client := some { client with
        entries := client.entries.filter
          (fun e => !(cm.keyPrefix.data.isPrefixOf e.1.data)) } })) ∧
    ((cm.isConnected = false ∨ cm.client = none ∨
        (∃ client, cm.client = some client ∧ client.failing = true)) →
      cm.clear = (.ok false, cm)) := by
  obtain ⟨client0, isConnected, keyPrefix, defaultTTL⟩ := cm
  constructor
  · intro client hconn hclient hworks hplain
    simp only at hconn hclient hplain
    subst hconn
    subst hclient
    obtain ⟨entries0, failing⟩ := client
    simp only at hworks
    subst hworks
    have hstar : '*' ∉ keyPrefix.data := by
      intro h
      exact hplain '*' h (by decide)
    have hmatch : ∀ key : String, globMatch (keyPrefix ++ "*").data key.data
        = keyPrefix.data.isPrefixOf key.data := by
      intro key
      have : (keyPrefix ++ "*").data = keyPrefix.data ++ ['*'] := by
        simp
      rw [this]
      exact globMatch_prefix_star _ hstar _
    have hmem : ∀ e : String × String, e ∈ entries0 →
        (decide (e.1 ∈ (entries0.map Prod.fst).filter
          (fun key => keyPrefix.data.isPrefixOf key.data)))
          = keyPrefix.data.isPrefixOf e.1.data := by
      intro e he
      by_cases hpre : keyPrefix.data.isPrefixOf e.1.data = true
      · rw [hpre, decide_eq_true_eq, List.mem_filter]
        exact ⟨List.mem_map.mpr ⟨e, he, rfl⟩, hpre⟩
      · have hf : keyPrefix.data.isPrefixOf e.1.data = false := Bool.eq_false_iff.mpr hpre
        rw [hf, decide_eq_false_iff_not, List.mem_filter]
        intro h
        exact hpre h.2
    have hfilter : entries0.filter
          (fun e => !decide (e.1 ∈ (entries0.map Prod.fst).filter
            (fun key => keyPrefix.data.isPrefixOf key.data)))
        = entries0.filter (fun e => !(keyPrefix.data.isPrefixOf e.1.data)) := by
      apply List.filter_congr
      intro e he
      rw [hmem e he]
    simp only [CacheManager.clear, RedisClient.keys, RedisClient.delKeys, hmatch]
    by_cases hlen : ((entries0.map Prod.fst).filter
        (fun key => keyPrefix.data.isPrefixOf key.data)).length > 0
    · simp only [Bool.false_eq_true, if_false, if_pos hlen, hfilter]
    · simp only [Bool.false_eq_true, if_false, if_neg hlen]
      have hnil : (entries0.map Prod.fst).filter
          (fun key => keyPrefix.data.isPrefixOf key.data) = [] :=
        List.length_eq_zero.mp (by omega)
      have hall : entries0.filter (fun e => !(keyPrefix.data.isPrefixOf e.1.data))
          = entries0 := by
        rw [List.filter_eq_self]
        intro e he
        have := List.filter_eq_nil_iff.mp hnil e.1 (List.mem_map.mpr ⟨e, he, rfl⟩)
        rw [Bool.not_eq_true']
        exact Bool.eq_false_iff.mpr this
      rw [hall]
  · rintro (h | h | ⟨c, hc, hf⟩)
    · simp only at h
      subst h
      cases client0 <;> rfl
    · simp only at h
      subst h
      cases isConnected <;> rfl
    · simp only at hc
      subst hc
      cases isConnected
      · rfl
      · simp [CacheManager.clear, RedisClient.keys, hf]

/-- After `clear()` on a store with one key of namespace `llm`, one of namespace `file`
and one foreign key, both namespaces are gone and the answer is the boolean `true`,
not a count. -/
theorem c22_clear_has_no_namespace :
    (CacheManager.connected mixedStore).clear =
      (.ok true, CacheManager.connected [("other_app:session", "1")]) := by
  rfl

/-! ### `split`, `trim` and `loadSecurityConfig` -/

theorem splitChars_ne_nil (sep : Char) (l : List Char) : splitChars sep l ≠ [] := by
  cases l with
  | nil => simp [splitChars]
  | cons c rest =>
    simp only [splitChars]
    split_ifs
    · simp
    · cases splitChars sep rest <;> simp

/-- A piece holds no separator, and only characters of the text. -/
theorem splitChars_piece (sep : Char) :
    ∀ (l piece : List Char), piece ∈ splitChars sep l →
      sep ∉ piece ∧ ∀ c ∈ piece, c ∈ l := by
  intro l
  induction l with
  | nil =>
    intro piece h
    simp only [splitChars, List.mem_singleton] at h
    subst h
    simp
  | cons c rest ih =>
    intro piece h
    simp only [splitChars] at h
    by_cases hc : c = sep
    · rw [if_pos hc] at h
      rcases List.mem_cons.mp h with h | h
      · subst h
        simp
      · obtain ⟨h1, h2⟩ := ih piece h
        exact ⟨h1, fun x hx => List.mem_cons_of_mem _ (h2 x hx)⟩
    · rw [if_neg hc] at h
      cases hs : splitChars sep rest with
      | nil => exact absurd hs (splitChars_ne_nil sep rest)
      | cons first others =>
        rw [hs] at h
        simp only at h
        have hfirst := ih first (by rw [hs]; exact List.mem_cons_self _ _)
        rcases List.mem_cons.mp h with h | h
        · subst h
          refine ⟨?_, ?_⟩
          · intro hm
            rcases List.mem_cons.mp hm with hm | hm
            · exact hc hm.symm
            · exact hfirst.1 hm
          · intro x hx
            rcases List.mem_cons.mp hx with hx | hx
            · rw [hx]; exact List.mem_cons_self _ _
            · exact List.mem_cons_of_mem _ (hfirst.2 x hx)
        · obtain ⟨h1, h2⟩ := ih piece (by rw [hs]; exact List.mem_cons_of_mem _ h)
          exact ⟨h1, fun x hx => List.mem_cons_of_mem _ (h2 x hx)⟩

theorem splitChars_of_free (sep : Char) (l : List Char) (h : sep ∉ l) :
    splitChars sep l = [l] := by
  induction l with
  | nil => rfl
  | cons c rest ih =>
    have hc : c ≠ sep := fun hc => h (by rw [hc]; exact List.mem_cons_self _ _)
    simp only [splitChars, if_neg hc, ih (fun hm => h (List.mem_cons_of_mem _ hm))]

theorem splitChars_append_sep (sep : Char) (a b : List Char) (h : sep ∉ a) :
    splitChars sep (a ++ sep :: b) = a :: splitChars sep b := by
  induction a with
  | nil => simp [splitChars]
  | cons c rest ih =>
    have hc : c ≠ sep := fun hc => h (by rw [hc]; exact List.mem_cons_self _ _)
    have ih2 := ih (fun hm => h (List.mem_cons_of_mem _ hm))
    simp only [List.cons_append, splitChars, if_neg hc]
    change (match splitChars sep (rest ++ sep :: b) with
      | [] => [[c]]
      | piece :: pieces => (c :: piece) :: pieces) = _
    rw [ih2]

theorem jsTrim_chars (s : String) (c : Char) (h : c ∈ (jsTrim s).data) : c ∈ s.data := by
  simp only [jsTrim, List.mem_reverse] at h
  exact (List.dropWhile_sublist _).subset
    (List.mem_reverse.mp ((List.dropWhile_sublist _).subset h))

theorem foldl_invariant {σ β : Type} (Inv : σ → Prop) (f : σ → β → σ) :
    ∀ (l : List β) (s : σ), Inv s → (∀ s x, x ∈ l → Inv s → Inv (f s x)) →
      Inv (l.foldl f s) := by
  intro l
  induction l with
  | nil => intro s h _; exact h
  | cons x rest ih =>
    intro s h hstep
    exact ih (f s x) (hstep s x (List.mem_cons_self _ _) h)
      (fun s2 y hy => hstep s2 y (List.mem_cons_of_mem _ hy))

theorem JsMap.mem_set {α : Type} (m : JsMap α) (key : String) (v : α)
    (entry : String × α) (h : entry ∈ JsMap.set m key v) :
    entry = (key, v) ∨ entry ∈ m := by
  induction m with
  | nil =>
    simp only [JsMap.set, List.mem_singleton] at h
    exact Or.inl h
  | cons p rest ih =>
    obtain ⟨k, w⟩ := p
    simp only [JsMap.set] at h
    by_cases hk : k = key
    · rw [if_pos hk] at h
      rcases List.mem_cons.mp h with h | h
      · exact Or.inl (by rw [h, hk])
      · exact Or.inr (List.mem_cons_of_mem _ h)
    · rw [if_neg hk] at h
      rcases List.mem_cons.mp h with h | h
      · exact Or.inr (by rw [h]; exact List.mem_cons_self _ _)
      · rcases ih h with h2 | h2
        · exact Or.inl h2
        · exact Or.inr (List.mem_cons_of_mem _ h2)

theorem JsMap.mem_of_get {α : Type} (m : JsMap α) (key : String) (v : α)
    (h : JsMap.get m key = some v) : (key, v) ∈ m := by
  induction m with
  | nil => simp [JsMap.get] at h
  | cons p rest ih =>
    obtain ⟨k, w⟩ := p
    simp only [JsMap.get] at h
    by_cases hk : k = key
    · rw [if_pos hk] at h
      cases h
      rw [hk]
      exact List.mem_cons_self _ _
    · rw [if_neg hk] at h
      exact List.mem_cons_of_mem _ (ih h)

/-- One item of `ALLOWED_USERS` keeps both invariants of the tables. -/
theorem loadAllowedUser_invariant (sm : SecurityManager) (userRole : String)
    (h : identitiesColonFree sm ∧ roomsSinglePermission sm) :
    identitiesColonFree (loadAllowedUser sm userRole) ∧
      roomsSinglePermission (loadAllowedUser sm userRole) := by
  unfold loadAllowedUser jsSplit
  have hpiece := splitChars_piece ':' (jsTrim userRole).data
  cases hs : splitChars ':' (jsTrim userRole).data with
  | nil => exact h
  | cons first others =>
    have hfirst : ':' ∉ first := (hpiece first (by rw [hs]; exact List.mem_cons_self _ _)).1
    cases others with
    | nil =>
      refine ⟨?_, h.2⟩
      intro entry hentry
      rcases JsMap.mem_set _ _ _ _ hentry with he | he
      · rw [he]; exact hfirst
      · exact h.1 entry he
    | cons second more =>
      refine ⟨?_, h.2⟩
      intro entry hentry
      rcases JsMap.mem_set _ _ _ _ hentry with he | he
      · rw [he]; exact hfirst
      · exact h.1 entry he

/-- One item of `ALLOWED_ROOMS` that holds no comma keeps both invariants. -/
theorem loadAllowedRoom_invariant (sm : SecurityManager) (roomPerms : String)
    (hitem : ',' ∉ roomPerms.data)
    (h : identitiesColonFree sm ∧ roomsSinglePermission sm) :
    identitiesColonFree (loadAllowedRoom sm roomPerms) ∧
      roomsSinglePermission (loadAllowedRoom sm roomPerms) := by
  unfold loadAllowedRoom jsSplit
  have hpiece := splitChars_piece ':' (jsTrim roomPerms).data
  cases hs : splitChars ':' (jsTrim roomPerms).data with
  | nil => exact h
  | cons first others =>
    cases others with
    | nil =>
      refine ⟨h.1, ?_⟩
      intro entry hentry
      rcases JsMap.mem_set _ _ _ _ hentry with he | he
      · rw [he]; rfl
      · exact h.2 entry he
    | cons second more =>
      have hsecond : ',' ∉ second := by
        intro hm
        have h1 := (hpiece second (by rw [hs]; simp)).2 ',' hm
        exact hitem (jsTrim_chars _ _ h1)
      refine ⟨h.1, ?_⟩
      intro entry hentry
      rcases JsMap.mem_set _ _ _ _ hentry with he | he
      · rw [he]
        show ((splitChars ',' (String.mk second).data).map String.mk).length = 1
        rw [splitChars_of_free ',' _ hsecond]
        rfl
      · exact h.2 entry he

theorem loadBlockedUser_invariant (sm : SecurityManager) (user : String)
    (h : identitiesColonFree sm ∧ roomsSinglePermission sm) :
    identitiesColonFree (loadBlockedUser sm user) ∧
      roomsSinglePermission (loadBlockedUser sm user) := by
  unfold loadBlockedUser
  split_ifs
  · exact h
  · exact h

/-- Whatever the environment says, `loadSecurityConfig` lists no identity with a colon
and gives every room exactly one permission. -/
theorem loadSecurityConfig_invariant (env : ProcessEnv) (sm : SecurityManager)
    (h : identitiesColonFree sm ∧ roomsSinglePermission sm) :
    identitiesColonFree (loadSecurityConfig env sm) ∧
      roomsSinglePermission (loadSecurityConfig env sm) := by
  have h1 : ∀ s, (identitiesColonFree s ∧ roomsSinglePermission s) →
      (identitiesColonFree
          (if env.ALLOWED_USERS.getD "" ≠ "" then
            (jsSplit (env.ALLOWED_USERS.getD "") ',').foldl loadAllowedUser s else s) ∧
        roomsSinglePermission
          (if env.ALLOWED_USERS.getD "" ≠ "" then
            (jsSplit (env.ALLOWED_USERS.getD "") ',').foldl loadAllowedUser s else s)) := by
    intro s hs
    split_ifs
    · exact foldl_invariant (fun s => identitiesColonFree s ∧ roomsSinglePermission s) _ _ _
        hs (fun s2 x _ h2 => loadAllowedUser_invariant s2 x h2)
    · exact hs
  have h2 : ∀ s, (identitiesColonFree s ∧ roomsSinglePermission s) →
      (identitiesColonFree
          (if env.ALLOWED_ROOMS.getD "" ≠ "" then
            (jsSplit (env.ALLOWED_ROOMS.getD "") ',').foldl loadAllowedRoom s else s) ∧
        roomsSinglePermission
          (if env.ALLOWED_ROOMS.getD "" ≠ "" then
            (jsSplit (env.ALLOWED_ROOMS.getD "") ',').foldl loadAllowedRoom s else s)) := by
    intro s hs
    split_ifs
    · apply foldl_invariant (fun s => identitiesColonFree s ∧ roomsSinglePermission s) _ _ _ hs
      intro s2 x hx h2
      apply loadAllowedRoom_invariant s2 x _ h2
      unfold jsSplit at hx
      obtain ⟨piece, hpiece, rfl⟩ := List.mem_map.mp hx
      exact (splitChars_piece ',' _ piece hpiece).1
    · exact hs
  have h3 : ∀ s, (identitiesColonFree s ∧ roomsSinglePermission s) →
      (identitiesColonFree
          (if env.BLOCKED_USERS.getD "" ≠ "" then
            (jsSplit (env.BLOCKED_USERS.getD "") ',').foldl loadBlockedUser s else s) ∧
        roomsSinglePermission
          (if env.BLOCKED_USERS.getD "" ≠ "" then
            (jsSplit (env.BLOCKED_USERS.getD "") ',').foldl loadBlockedUser s else s)) := by
    intro s hs
    split_ifs
    · exact foldl_invariant (fun s => identitiesColonFree s ∧ roomsSinglePermission s) _ _ _
        hs (fun s2 x _ h2 => loadBlockedUser_invariant s2 x h2)
    · exact hs
  unfold loadSecurityConfig
  exact h3 _ (h2 _ (h1 _ h))

theorem fresh_invariant (maxMessageLength : Int) :
    identitiesColonFree (SecurityManager.fresh maxMessageLength) ∧
      roomsSinglePermission (SecurityManager.fresh maxMessageLength) := by
  constructor <;> intro entry h <;> simp [SecurityManager.fresh] at h

theorem jsTrim_plain (l : List Char) (h1 : l.dropWhile isTrimmed = l)
    (h2 : l.reverse.dropWhile isTrimmed = l.reverse) : jsTrim (String.mk l) = String.mk l := by
  simp only [jsTrim, h1, h2, List.reverse_reverse]

/-- What one plain item of `ALLOWED_USERS` does to the role table. -/
theorem loadAllowedUser_plain (sm : SecurityManager) (item : String × Option String)
    (h : userItemPlain item) :
    loadAllowedUser sm (String.mk (userItem item)) =
      { sm with allowedUsers := JsMap.set sm.allowedUsers item.1 (item.2.getD "user") } := by
  obtain ⟨_, hcolon, hrole, ht1, ht2⟩ := h
  unfold loadAllowedUser jsSplit
  rw [jsTrim_plain _ ht1 ht2]
  obtain ⟨identity, role⟩ := item
  cases role with
  | none =>
    simp only [userItem] at hcolon ⊢
    rw [splitChars_of_free ':' _ hcolon]
    rfl
  | some r =>
    simp only [userItem] at hcolon ⊢
    rw [splitChars_append_sep ':' _ _ hcolon, splitChars_of_free ':' _ (hrole r rfl).2]
    rfl

theorem splitChars_joinWithCommas :
    ∀ pieces : List (List Char), pieces ≠ [] → (∀ piece ∈ pieces, ',' ∉ piece) →
      splitChars ',' (joinWithCommas pieces) = pieces := by
  intro pieces
  induction pieces with
  | nil => intro h; exact absurd rfl h
  | cons piece rest ih =>
    intro _ hfree
    cases rest with
    | nil =>
      simp only [joinWithCommas]
      exact splitChars_of_free ',' piece (hfree piece (List.mem_cons_self _ _))
    | cons next more =>
      simp only [joinWithCommas]
      rw [splitChars_append_sep ',' _ _ (hfree piece (List.mem_cons_self _ _)),
        ih (by simp) (fun q hq => hfree q (List.mem_cons_of_mem _ hq))]

theorem userItem_comma_free (item : String × Option String) (h : userItemPlain item) :
    ',' ∉ userItem item := by
  obtain ⟨hcomma, _, hrole, _, _⟩ := h
  obtain ⟨identity, role⟩ := item
  cases role with
  | none => simpa [userItem] using hcomma
  | some r =>
    simp only [userItem, List.mem_append, List.mem_cons, not_or]
    exact ⟨hcomma, by decide, (hrole r rfl).1⟩

theorem foldl_loadAllowedUser_plain :
    ∀ (items : List (String × Option String)) (sm : SecurityManager),
      (∀ item ∈ items, userItemPlain item) →
      (items.map (fun item => String.mk (userItem item))).foldl loadAllowedUser sm =
        { sm with allowedUsers := setUserItems sm.allowedUsers items } := by
  intro items
  induction items with
  | nil => intro sm _; rfl
  | cons item rest ih =>
    intro sm h
    simp only [List.map_cons, List.foldl_cons]
    rw [loadAllowedUser_plain sm item (h item (List.mem_cons_self _ _)),
      ih _ (fun q hq => h q (List.mem_cons_of_mem _ hq))]
    rfl

/-- C23: in the role table `loadSecurityConfig` builds, no identity holds a colon, for
`split(':')` cuts every item at its first colon: the item `@admin:domain.com:admin`
lists the identity `@admin` with the role `domain.com`, and `checkUserAccess` reports
every identity with a colon, such as the chat handle `@admin:domain.com`, as `guest`,
whatever `ALLOWED_USERS` says. For items whose identity and role hold neither comma nor
colon and that carry no white space at their ends, every item sets the role written
after the identity, or `user` when there is none, later items first. -/
theorem c23_identities_are_cut_at_the_first_colon :
    ((loadSecurityConfig (envWithUsers "@admin:domain.com:admin")
        (SecurityManager.fresh 5000)).allowedUsers = [("@admin", "domain.com")] ∧
      checkUserAccess (loadSecurityConfig (envWithUsers "@admin:domain.com:admin")
        (SecurityManager.fresh 5000)) "@admin:domain.com" "admin" =
        { allowed := false, reason := "insufficient_permissions", role := some "guest" }) ∧
    (∀ (env : ProcessEnv) (maxMessageLength : Int) (userId : String),
      ':' ∈ userId.data →
      JsMap.get (loadSecurityConfig env (SecurityManager.fresh maxMessageLength)).allowedUsers
        userId = none ∧
      resolvedRole (loadSecurityConfig env (SecurityManager.fresh maxMessageLength)) userId
        = "guest") ∧
    (∀ (items : List (String × Option String)) (maxMessageLength : Int),
      joinWithCommas (items.map userItem) ≠ [] →
      (∀ item ∈ items, userItemPlain item) →
      (loadSecurityConfig (envWithUsers (String.mk (joinWithCommas (items.map userItem))))
        (SecurityManager.fresh maxMessageLength)).allowedUsers =
        setUserItems [] items) := by
  refine ⟨by decide, ?_, ?_⟩
  · intro env maxMessageLength userId hcolon
    have hinv := (loadSecurityConfig_invariant env _ (fresh_invariant maxMessageLength)).1
    have hnone : JsMap.get
        (loadSecurityConfig env (SecurityManager.fresh maxMessageLength)).allowedUsers
        userId = none := by
      cases hget : JsMap.get
          (loadSecurityConfig env (SecurityManager.fresh maxMessageLength)).allowedUsers
          userId with
      | none => rfl
      | some role => exact absurd hcolon (hinv _ (JsMap.mem_of_get _ _ _ hget))
    refine ⟨hnone, ?_⟩
    simp only [resolvedRole, hnone]
  · intro items maxMessageLength hne hplain
    have hitems : items ≠ [] := by
      rintro rfl
      exact hne rfl
    have hstr : (String.mk (joinWithCommas (items.map userItem)) : String) ≠ "" := by
      intro h
      exact hne (congrArg String.data h)
    have hsplit : jsSplit (String.mk (joinWithCommas (items.map userItem))) ',' =
        items.map (fun item => String.mk (userItem item)) := by
      unfold jsSplit
      rw [splitChars_joinWithCommas _ (by simpa using hitems)
        (by
          intro piece hpiece
          obtain ⟨item, hitem, rfl⟩ := List.mem_map.mp hpiece
          exact userItem_comma_free item (hplain item hitem))]
      rw [List.map_map]
      rfl
    simp only [loadSecurityConfig, envWithUsers, Option.getD_some, Option.getD_none,
      ne_eq, hstr, not_false_eq_true, if_true, not_true_eq_false, if_false, hsplit]
    rw [foldl_loadAllowedUser_plain items _ hplain]
    rfl

/-- C24: `loadSecurityConfig` cuts `ALLOWED_ROOMS` at every comma before it looks for a
colon, so every room in the room table has exactly one permission, whatever the
variable says; the documented text `room1:read,write,room2:read` gives the three rooms
`room1`, `write` and `room2`, each with the one permission `read`: `room1` is refused
`write`, and a room named `write` is let in. -/
theorem c24_every_room_gets_one_permission :
    ((loadSecurityConfig (envWithRooms "room1:read,write,room2:read")
        (SecurityManager.fresh 5000)).allowedRooms =
        [("room1", ["read"]), ("write", ["read"]), ("room2", ["read"])] ∧
      checkRoomAccess (loadSecurityConfig (envWithRooms "room1:read,write,room2:read")
        (SecurityManager.fresh 5000)) "room1" "write" =
        { allowed := false, reason := "insufficient_permissions" } ∧
      checkRoomAccess (loadSecurityConfig (envWithRooms "room1:read,write,room2:read")
        (SecurityManager.fresh 5000)) "write" "read" =
        { allowed := true, reason := "access_granted" }) ∧
    (∀ (env : ProcessEnv) (maxMessageLength : Int) (roomId : String)
      (permissions : List String),
      JsMap.get (loadSecurityConfig env (SecurityManager.fresh maxMessageLength)).allowedRooms
        roomId = some permissions →
      permissions.length = 1) := by
  refine ⟨by decide, ?_⟩
  intro env maxMessageLength roomId permissions hget
  exact (loadSecurityConfig_invariant env _ (fresh_invariant maxMessageLength)).2 _
    (JsMap.mem_of_get _ _ _ hget)

/-! ### `handleCommand` -/

/-- C27: whenever `checkSecurity` denies the command, whatever the reason,
`handleCommand` sends the internal-error notice of its `catch` block, records the
request as `error`, and runs no handler: it sends none of the notices chosen by reason
and records nothing as `blocked`. For the blocked sender `@eve` the notice is the
internal-error one, not the account-blocked one. -/
theorem c27_every_denial_ends_in_the_error_path (sm : SecurityManager)
    (commands : String → Option (Except JsError Unit)) (command : String)
    (args : List String) (event : MatrixEvent) (now : Int) :
    ((checkSecurity sm event.sender event.roomId (jsToLowerCase command) (some args)
        (.string (event.body.getD "")) now).1.allowed = false →
      (handleCommand sm commands command args event now).1 =
        [.sendResponse event.roomId internalErrorNotice,
          .recordBotRequest command "error"] ∧
      (∀ name, RouterAction.runHandler name ∉
        (handleCommand sm commands command args event now).1) ∧
      (∀ name, RouterAction.recordBotRequest name "blocked" ∉
        (handleCommand sm commands command args event now).1)) ∧
    ((checkSecurity (SecurityManager.configured [] [] ["@eve"]) "@eve" "!room" "ask"
        (some ["hi"]) (.string "!ask hi") 1000).1 =
        SecurityDecision.deny "user_blocked" (some "Доступ користувача заборонено") ∧
      (handleCommand (SecurityManager.configured [] [] ["@eve"]) registeredCommands "ask"
        ["hi"] askEvent 1000).1 =
        [.sendResponse "!room" internalErrorNotice, .recordBotRequest "ask" "error"] ∧
      RouterAction.sendResponse "!room" "❌ Ваш акаунт заблоковано" ∉
        (handleCommand (SecurityManager.configured [] [] ["@eve"]) registeredCommands "ask"
          ["hi"] askEvent 1000).1) := by
  constructor
  · intro hden
    have hbody : (match event.body with
        | some body => body
        | none => "") = event.body.getD "" := by
      cases event.body <;> rfl
    have hrun : (handleCommand sm commands command args event now).1 =
        [.sendResponse event.roomId internalErrorNotice,
          .recordBotRequest command "error"] := by
      simp only [handleCommand, hbody, hden, if_true, SecurityDecision.checks, errorPath]
    refine ⟨hrun, ?_, ?_⟩
    · intro name
      rw [hrun]
      simp
    · intro name
      rw [hrun]
      simp
  · decide

end MatrixAssistant
